import Mathlib

/-!
# worldiety/template-go: the guided project setup helper (`install.go`)

A shallow embedding of `install.go`: the self-populating `Config` getters
(`BinaryName`, `IsLibrary`, `MainPath`, `ArtifactName`), the console helpers
(`accept`, `readString`, `check`), the template pipeline (`Apply`, `ApplyGo`,
`download`) and the driver (`main`).

Go strings are byte sequences; a byte is a natural number below 256.  The Go
standard library functions the program calls on strings (`strings.TrimSpace`,
`strings.ToUpper`, `filepath.Base`, `bufio.Reader.ReadString`) are transcribed
from the Go standard library (Unix build) so that the program can be evaluated
on concrete console input.
-/

namespace TemplateGo

/-! ## Go strings and UTF-8 (package `unicode/utf8`) -/

/-- A Go string: a sequence of bytes. -/
abbrev Str := List Nat

/-- The constant `utf8.RuneError`, U+FFFD. -/
def RuneError : Nat := 0xFFFD

/-- The constant `utf8.RuneSelf`: bytes below it are single-byte runes. -/
def RuneSelf : Nat := 0x80

/-- The constant `utf8.UTFMax`. -/
def UTFMax : Nat := 4

/-- The function `utf8.EncodeRune` (also `strings.Builder.WriteRune`): the UTF-8
bytes of the rune `r`, those of U+FFFD for a surrogate or a value above U+10FFFF. -/
def EncodeRune (r : Nat) : Str :=
  if r ≤ 0x7F then [r]
  else if r ≤ 0x7FF then [0xC0 + r / 64, 0x80 + r % 64]
  else if 0x10FFFF < r ∨ (0xD800 ≤ r ∧ r ≤ 0xDFFF) then [0xEF, 0xBF, 0xBD]
  else if r ≤ 0xFFFF then [0xE0 + r / 4096, 0x80 + r / 64 % 64, 0x80 + r % 64]
  else [0xF0 + r / 262144, 0x80 + r / 4096 % 64, 0x80 + r / 64 % 64, 0x80 + r % 64]

/-- A string literal of the Go source as a Go string (its UTF-8 bytes). -/
def lit (s : String) : Str :=
  s.toList.flatMap fun ch => EncodeRune ch.toNat

/-- The entry of the table `first` of `unicode/utf8` for a leading byte of a
multi-byte sequence: the sequence length and the accepted range of the second
byte; `none` for the entries `xx` (a byte that starts no sequence). -/
def firstInfo (b : Nat) : Option (Nat × Nat × Nat) :=
  if b < 0xC2 then none
  else if b < 0xE0 then some (2, 0x80, 0xBF)
  else if b = 0xE0 then some (3, 0xA0, 0xBF)
  else if b < 0xED then some (3, 0x80, 0xBF)
  else if b = 0xED then some (3, 0x80, 0x9F)
  else if b < 0xF0 then some (3, 0x80, 0xBF)
  else if b = 0xF0 then some (4, 0x90, 0xBF)
  else if b < 0xF4 then some (4, 0x80, 0xBF)
  else if b = 0xF4 then some (4, 0x80, 0x8F)
  else none

/-- The function `utf8.DecodeRuneInString`: the first rune of `s` and its width
in bytes; `(RuneError, 0)` for the empty string and `(RuneError, 1)` for an
invalid encoding. -/
def DecodeRuneInString (s : Str) : Nat × Nat :=
  match s with
  | [] => (RuneError, 0)
  | s0 :: t =>
    if s0 < RuneSelf then (s0, 1)
    else
      match firstInfo s0 with
      | none => (RuneError, 1)
      | some (sz, lo, hi) =>
        if s.length < sz then (RuneError, 1)
        else
          match t with
          | [] => (RuneError, 1)
          | s1 :: t1 =>
            if s1 < lo ∨ hi < s1 then (RuneError, 1)
            else if sz ≤ 2 then (s0 % 32 * 64 + s1 % 64, 2)
            else
              match t1 with
              | [] => (RuneError, 1)
              | s2 :: t2 =>
                if s2 < 0x80 ∨ 0xBF < s2 then (RuneError, 1)
                else if sz ≤ 3 then (s0 % 16 * 4096 + s1 % 64 * 64 + s2 % 64, 3)
                else
                  match t2 with
                  | [] => (RuneError, 1)
                  | s3 :: _ =>
                    if s3 < 0x80 ∨ 0xBF < s3 then (RuneError, 1)
                    else (s0 % 8 * 262144 + s1 % 64 * 4096 + s2 % 64 * 64 + s3 % 64, 4)

/-- The function `utf8.RuneStart`: the byte is not a continuation byte. -/
def RuneStart (b : Nat) : Bool :=
  !(0x80 ≤ b && b < 0xC0)

/-- The backward scan of `utf8.DecodeLastRuneInString`:
`for start--; start >= lim; start-- { if RuneStart(s[start]) { break } }`,
entered after the first `start--`. -/
def lastRuneStart (s : Str) (lim : Int) : Nat → Int → Int
  | 0, start => start
  | fuel + 1, start =>
    if start ≥ lim then
      if RuneStart (s.getD start.toNat 0) then start
      else lastRuneStart s lim fuel (start - 1)
    else start

/-- The function `utf8.DecodeLastRuneInString`: the last rune of `s` and its width. -/
def DecodeLastRuneInString (s : Str) : Nat × Nat :=
  let «end» : Int := s.length
  if «end» = 0 then (RuneError, 0)
  else
    let start : Int := «end» - 1
    let r := s.getD start.toNat 0
    if r < RuneSelf then (r, 1)
    else
      let lim : Int := if «end» - UTFMax < 0 then 0 else «end» - UTFMax
      let start := lastRuneStart s lim UTFMax (start - 1)
      let start := if start < 0 then 0 else start
      let (r, size) := DecodeRuneInString (s.drop start.toNat)
      if start + size ≠ «end» then (RuneError, 1)
      else (r, size)

/-! ## Package `unicode` -/

/-- The function `unicode.IsSpace`: the Latin-1 white space and the code points
of the `White_Space` table above Latin-1. -/
def IsSpace (r : Nat) : Bool :=
  if r ≤ 0xFF then
    r = 0x09 ∨ r = 0x0A ∨ r = 0x0B ∨ r = 0x0C ∨ r = 0x0D ∨ r = 0x20 ∨ r = 0x85 ∨ r = 0xA0
  else
    r = 0x1680 ∨ (0x2000 ≤ r ∧ r ≤ 0x200A) ∨ r = 0x2028 ∨ r = 0x2029 ∨ r = 0x202F
      ∨ r = 0x205F ∨ r = 0x3000

/-- The table `asciiSpace` of package `strings`. -/
def asciiSpace (c : Nat) : Bool :=
  c = 0x09 ∨ c = 0x0A ∨ c = 0x0B ∨ c = 0x0C ∨ c = 0x0D ∨ c = 0x20

/-! ## Package `strings` -/

/-- The loop of `strings.indexFunc` over the runes of the rest `s` of the
string, `i` being the byte offset of `s`. -/
def indexFuncLoop (f : Nat → Bool) (truth : Bool) : Nat → Str → Nat → Option Nat
  | 0, _, _ => none
  | fuel + 1, s, i =>
    match s with
    | [] => none
    | _ :: _ =>
      let (r, w) := DecodeRuneInString s
      if f r = truth then some i
      else indexFuncLoop f truth fuel (s.drop w) (i + w)

/-- The function `strings.indexFunc`: the byte offset of the first rune `r` with
`f r = truth`, `none` for Go's `-1`. -/
def indexFunc (s : Str) (f : Nat → Bool) (truth : Bool) : Option Nat :=
  indexFuncLoop f truth s.length s 0

/-- The loop of `strings.lastIndexFunc`: `for i := len(s); i > 0; { ... }`. -/
def lastIndexFuncLoop (s : Str) (f : Nat → Bool) (truth : Bool) : Nat → Nat → Option Nat
  | 0, _ => none
  | fuel + 1, i =>
    if 0 < i then
      let (r, size) := DecodeLastRuneInString (s.take i)
      let i := i - size
      if f r = truth then some i
      else lastIndexFuncLoop s f truth fuel i
    else none

/-- The function `strings.lastIndexFunc`. -/
def lastIndexFunc (s : Str) (f : Nat → Bool) (truth : Bool) : Option Nat :=
  lastIndexFuncLoop s f truth s.length s.length

/-- The function `strings.TrimLeftFunc`. -/
def TrimLeftFunc (s : Str) (f : Nat → Bool) : Str :=
  match indexFunc s f false with
  | none => []
  | some i => s.drop i

/-- The function `strings.TrimRightFunc`. -/
def TrimRightFunc (s : Str) (f : Nat → Bool) : Str :=
  match lastIndexFunc s f false with
  | none => s.take 0
  | some i =>
    if s.getD i 0 ≥ RuneSelf then s.take (i + (DecodeRuneInString (s.drop i)).2)
    else s.take (i + 1)

/-- The function `strings.TrimFunc`. -/
def TrimFunc (s : Str) (f : Nat → Bool) : Str :=
  TrimRightFunc (TrimLeftFunc s f) f

/-- The second loop of `strings.TrimSpace`, over the string `s` already cut at
its first non-space byte: scans the ASCII white space at the end and leaves a
non-ASCII end to `TrimRightFunc`. -/
def trimSpaceStop (s : Str) : Nat → Str
  | 0 => s.take 0
  | stop + 1 =>
    let c := s.getD stop 0
    if c ≥ RuneSelf then TrimRightFunc (s.take (stop + 1)) IsSpace
    else if !asciiSpace c then s.take (stop + 1)
    else trimSpaceStop s stop

/-- The first loop of `strings.TrimSpace` over the rest `s` of the string:
skips the ASCII white space at the start, leaves a non-ASCII start to
`TrimFunc`, and hands the rest to the second loop. -/
def trimSpaceStart : Str → Str
  | [] => []
  | c :: t =>
    if c ≥ RuneSelf then TrimFunc (c :: t) IsSpace
    else if !asciiSpace c then trimSpaceStop (c :: t) (c :: t).length
    else trimSpaceStart t

/-- The function `strings.TrimSpace`. -/
def TrimSpace (s : Str) : Str :=
  trimSpaceStart s

/-- The function `utf8.RuneLen`: the number of bytes of the encoding of `r`,
`-1` when `r` is not a valid rune. -/
def RuneLen (r : Int) : Int :=
  if r < 0 then -1
  else if r ≤ 0x7F then 1
  else if r ≤ 0x7FF then 2
  else if 0xD800 ≤ r ∧ r ≤ 0xDFFF then -1
  else if r ≤ 0xFFFF then 3
  else if r ≤ 0x10FFFF then 4
  else -1

/-- The second loop of `strings.Map`, `for _, c := range s`, once a rune has
changed: every rune of the rest is mapped and written again, a negative result
is dropped. -/
def mapRest (mapping : Nat → Int) : Nat → Str → Str
  | 0, _ => []
  | fuel + 1, s =>
    match s with
    | [] => []
    | _ :: _ =>
      let (c, w) := DecodeRuneInString s
      let r := mapping c
      (if r ≥ 0 then EncodeRune r.toNat else []) ++ mapRest mapping fuel (s.drop w)

/-- The first loop of `strings.Map` over the rest `s` of the string, `pre`
being the bytes before it (`s[:i]`): runes that the mapping leaves alone are
skipped; at the first rune that changes, or invalid byte, the output is started
with `pre` and the mapped rune and the second loop takes over.  Without such a
rune the input is returned as it is. -/
def mapLoop (mapping : Nat → Int) : Nat → Str → Str → Str
  | 0, pre, s => pre ++ s
  | fuel + 1, pre, s =>
    match s with
    | [] => pre
    | _ :: _ =>
      let (c, w) := DecodeRuneInString s
      let r := mapping c
      if r = c ∧ c ≠ RuneError then mapLoop mapping fuel (pre ++ s.take w) (s.drop w)
      else if c = RuneError ∧ w ≠ 1 ∧ r = c then
        mapLoop mapping fuel (pre ++ s.take w) (s.drop w)
      else
        let width : Int := if c = RuneError then w else RuneLen c
        let rest := s.drop width.toNat
        pre ++ (if r ≥ 0 then EncodeRune r.toNat else []) ++ mapRest mapping rest.length rest

/-- The function `strings.Map`: a text that the mapping leaves alone is returned
as it is; an invalid byte counts as changed and is written as the mapping of
U+FFFD. -/
def Map (mapping : Nat → Int) (s : Str) : Str :=
  mapLoop mapping s.length [] s

/-- The function `strings.ToUpper`.  An ASCII-only string has its letters `a`
to `z` replaced; any other string goes through `Map(unicode.ToUpper, s)`, where
`unicodeToUpper` stands for the case tables of `unicode.ToUpper`. -/
def ToUpper (unicodeToUpper : Nat → Nat) (s : Str) : Str :=
  if s.all (fun c => c < RuneSelf) then
    s.map fun c => if 0x61 ≤ c ∧ c ≤ 0x7A then c - 0x20 else c
  else Map (fun c => (unicodeToUpper c : Int)) s

/-! ## Package `path/filepath` (Unix) and `bufio` -/

/-- The function `os.IsPathSeparator` on Unix. -/
def IsPathSeparator (c : Nat) : Bool :=
  c = 0x2F

/-- The function `filepath.Base` on Unix (no volume names): the last element of
the path, `.` for the empty path and `/` for a path of separators only. -/
def Base (path : Str) : Str :=
  if path = [] then lit "."
  else
    let path := path.rdropWhile IsPathSeparator
    let path := path.rtakeWhile fun c => !IsPathSeparator c
    if path = [] then lit "/"
    else path

/-- The bytes of `input` up to and including the first `delim`, and the bytes
after it; `none` when `input` holds no `delim`. -/
def splitDelim (delim : Nat) : Str → Option (Str × Str)
  | [] => none
  | b :: t =>
    if b = delim then some ([b], t)
    else
      match splitDelim delim t with
      | none => none
      | some (line, rest) => some (b :: line, rest)

/-- The text of the error `io.EOF`. -/
def EOF : Str := lit "EOF"

/-- The method `(*bufio.Reader).ReadString` on a reader whose unread input is
`input`, a finite stream: the line with its delimiter, no error, and the input
left; at the end of the stream all that was read, the error `io.EOF`, and
nothing left. -/
def ReadString (input : Str) (delim : Nat) : Str × Option Str × Str :=
  match splitDelim delim input with
  | some (line, rest) => (line, none, rest)
  | none => (input, some EOF, [])

/-! ## The program state -/

/-- The fields of `tools.Package` that the program reads. -/
structure Package where
  /-- The name of the package of the module root. -/
  Name : Str
  /-- The import path of the module. -/
  ImportPath : Str
  deriving DecidableEq, Repr

/-- The console: the unread input behind the one `*bufio.Reader` over
`os.Stdin` that `main` creates and shares with the `Config` (its field
`reader`), and what has been printed to `os.Stdout`. -/
structure Console where
  /-- The unread bytes of the input stream. -/
  stdin : Str
  /-- The bytes printed so far. -/
  stdout : Str
  deriving DecidableEq, Repr

/-- The struct `Config`: self-populating getters.  A nil pointer field is `none`.
The field `reader` points to the shared reader, whose state is the `Console`. -/
structure Config where
  pkg : Package
  isDev : Bool
  baseURL : Str
  projectDir : Str
  binaryName : Option Str
  isLibrary : Option Bool
  mainPath : Option Str
  deriving DecidableEq, Repr

/-- The ways the program stops early. -/
inductive Fatal where
  /-- `panic(err)` in `check`, with the text of the error. -/
  | panic (err : Str)
  /-- The run-time panic of a slice expression out of range. -/
  | sliceBounds
  /-- `os.Exit(code)`. -/
  | exit (code : Int)
  deriving DecidableEq, Repr

/-- The outcome of running a piece of the program from a state: a value and the
state after it, or an early stop and the state reached by then. -/
inductive Res (σ α : Type) where
  | ok (val : α) (st : σ)
  | fatal (f : Fatal) (st : σ)
  deriving DecidableEq, Repr

/-- The call `fmt.Print(text)`. -/
def Print (text : Str) (con : Console) : Console :=
  { con with stdout := con.stdout ++ text }

/-- The call `fmt.Println(text)`. -/
def Println (text : Str) (con : Console) : Console :=
  Print (text ++ lit "\n") con

/-! ## Console helpers of `install.go` -/

/-- The function `check`: with an error, prints `cannot <msg>: <err>` and panics. -/
def check (msg : Str) (err : Option Str) (con : Console) : Res Console Unit :=
  match err with
  | none => .ok () con
  | some e => .fatal (.panic e) (Print (lit "cannot " ++ msg ++ lit ": " ++ e ++ lit "\n") con)

/-- The function `accept`: prints the question, reads a line, trims it, and
answers whether it is `y` or `Y`. -/
def accept (msg : Str) (con : Console) : Res Console Bool :=
  let con := Print (msg ++ lit " (y/N): ") con
  let (str, err, rest) := ReadString con.stdin 0x0A
  let con := { con with stdin := rest }
  let str := TrimSpace str
  match check (lit "cannot read console") err con with
  | .fatal f con => .fatal f con
  | .ok _ con => .ok (str = lit "y" ∨ str = lit "Y") con

/-- The function `readString`: prints the question and a non-empty default,
reads a line, trims it, and returns it, or the default when nothing is left. -/
def readString (msg defaultText : Str) (con : Console) : Res Console Str :=
  let con := Print msg con
  let con := if defaultText.length > 0 then Print (lit " [" ++ defaultText ++ lit "]") con else con
  let con := Print (lit ": ") con
  let (str, err, rest) := ReadString con.stdin 0x0A
  let con := { con with stdin := rest }
  match check (lit "cannot read console") err con with
  | .fatal f con => .fatal f con
  | .ok _ con =>
    let str := TrimSpace str
    let str := if str.length = 0 then defaultText else str
    .ok str con

/-! ## The getters of `Config` -/

/-- The method `Config.RootPackageName`. -/
def Config.RootPackageName (c : Config) : Str := c.pkg.Name

/-- The method `Config.BaseURL`. -/
def Config.BaseURL (c : Config) : Str := c.baseURL

/-- The method `Config.ProjectDir`. -/
def Config.ProjectDir (c : Config) : Str := c.projectDir

/-- The method `Config.ModulePath`. -/
def Config.ModulePath (c : Config) : Str := c.pkg.ImportPath

/-- The method `Config.BinaryName`: asks for the name on the first call, with the
base of the import path as the default, and keeps it. -/
def Config.BinaryName (c : Config) (con : Console) : Res (Config × Console) Str :=
  match c.binaryName with
  | none =>
    match readString (lit "enter the name of the executable binary") (Base c.pkg.ImportPath) con with
    | .fatal f con => .fatal f (c, con)
    | .ok tmp con => .ok tmp ({ c with binaryName := some tmp }, con)
  | some name => .ok name (c, con)

/-- The method `Config.IsLibrary`: asks on the first call and keeps the answer. -/
def Config.IsLibrary (c : Config) (con : Console) : Res (Config × Console) Bool :=
  match c.isLibrary with
  | none =>
    match accept (lit "project is a library only") con with
    | .fatal f con => .fatal f (c, con)
    | .ok tmp con => .ok tmp ({ c with isLibrary := some tmp }, con)
  | some lib => .ok lib (c, con)

/-- The method `Config.IsApp`. -/
def Config.IsApp (c : Config) (con : Console) : Res (Config × Console) Bool :=
  match c.IsLibrary con with
  | .fatal f st => .fatal f st
  | .ok lib st => .ok (!lib) st

/-- The method `Config.ArtifactName`: the binary name, or for a library `lib`
followed by the name with `strings.ToUpper` applied to its first byte
(`name[0:1]`).  The slice expressions panic on an empty name. -/
def Config.ArtifactName (unicodeToUpper : Nat → Nat) (c : Config) (con : Console) :
    Res (Config × Console) Str :=
  match c.IsLibrary con with
  | .fatal f st => .fatal f st
  | .ok lib (c, con) =>
    match c.BinaryName con with
    | .fatal f st => .fatal f st
    | .ok name (c, con) =>
      if lib then
        if name.length < 1 then .fatal .sliceBounds (c, con)
        else .ok (lit "lib" ++ ToUpper unicodeToUpper (name.take 1) ++ name.drop 1) (c, con)
      else .ok name (c, con)

/-- The method `Config.MainPath`: on the first call the module path for a
library, else the answer to a question whose default is the import path when
the root package is `main` and empty otherwise; kept afterwards. -/
def Config.MainPath (c : Config) (con : Console) : Res (Config × Console) Str :=
  match c.mainPath with
  | none =>
    match c.IsLibrary con with
    | .fatal f st => .fatal f st
    | .ok lib (c, con) =>
      if lib then
        let tmp := c.ModulePath
        .ok tmp ({ c with mainPath := some tmp }, con)
      else
        let asked :=
          if c.pkg.Name = lit "main" then
            readString (lit "enter the import path of the main package") c.pkg.ImportPath con
          else
            readString (lit "enter the import path of the main package (e.g. " ++ c.pkg.ImportPath
              ++ lit "/cmd)") (lit "") con
        match asked with
        | .fatal f con => .fatal f (c, con)
        | .ok tmp con => .ok tmp ({ c with mainPath := some tmp }, con)
  | some path => .ok path (c, con)

/-! ## The template pipeline and the driver -/

/-- What the program calls outside `install.go` and cannot be read off its
source: the file system, the network, the template engine (`html/template`)
and the Go formatter (`go/format`).  An error is the text of its message.
`Tmpl` is the type of a parsed template. -/
structure Env (Tmpl : Type) where
  /-- The function `filepath.Join` of two elements. -/
  Join : Str → Str → Str
  /-- The function `ioutil.ReadFile`, given the files written so far. -/
  ReadFile : List (Str × Str) → Str → Except Str Str
  /-- The error, if any, of `ioutil.WriteFile` of a path and its data, given the
  files written so far. -/
  WriteFile : List (Str × Str) → Str → Str → Option Str
  /-- The call `http.Get`: an error, or the status code and the result of
  `ioutil.ReadAll` on the body. -/
  Get : Str → Except Str (Nat × Except Str Str)
  /-- The call `template.New("tmpl").Parse`. -/
  Parse : Str → Except Str Tmpl
  /-- The call `tmpl.Execute(tmp, c)`: it runs getters of the `Config`, which may
  read and print on the console, and gives the error, if any, and the text
  written to the builder. -/
  Execute : Tmpl → Config → Console → Option Str × Str × Config × Console
  /-- A template reaches the `Config` through its methods, and no method assigns
  the project directory. -/
  Execute_projectDir : ∀ t c con, (Execute t c con).2.2.1.projectDir = c.projectDir
  /-- The function `format.Source`. -/
  Source : Str → Except Str Str

/-- The state of a run once the `Config` exists: the `Config`, the console and
the files written so far (path and data, the latest first). -/
structure World where
  cfg : Config
  con : Console
  files : List (Str × Str)
  deriving DecidableEq, Repr

/-- The call `check(msg, err)` with an error `err`, which is not nil. -/
def World.failed {α : Type} (msg err : Str) (w : World) : Res World α :=
  match check msg (some err) w.con with
  | .ok _ con => .fatal (.panic err) { w with con := con }
  | .fatal f con => .fatal f { w with con := con }

/-- The method `Config.download`: the content of the resource, from the project
directory in development mode and from the base URL otherwise. -/
def Config.download {Tmpl : Type} (env : Env Tmpl) (resName : Str) (w : World) : Res World Str :=
  if w.cfg.isDev then
    match env.ReadFile w.files (env.Join w.cfg.projectDir resName) with
    | .error e => w.failed (lit "load dev resource " ++ resName) e
    | .ok data => .ok data w
  else
    match env.Get (w.cfg.baseURL ++ resName) with
    | .error e => w.failed (lit "get url content") e
    | .ok (status, body) =>
      match body with
      | .error e => w.failed (lit "read body") e
      | .ok data =>
        if status ≠ 200 then
          let con := Println (lit "download content from " ++ w.cfg.baseURL ++ resName) w.con
          let con := Println data con
          .fatal (.exit (-1)) { w with con := con }
        else .ok data w

/-- The method `Config.Apply`: the resource, parsed as a template and executed
on the `Config`. -/
def Config.Apply {Tmpl : Type} (env : Env Tmpl) (resName : Str) (w : World) : Res World Str :=
  match Config.download env resName w with
  | .fatal f w => .fatal f w
  | .ok data w =>
    match env.Parse data with
    | .error e => w.failed (lit "apply template " ++ resName) e
    | .ok tmpl =>
      match env.Execute tmpl w.cfg w.con with
      | (err, text, cfg, con) =>
        let w := { w with cfg := cfg, con := con }
        match err with
        | some e => w.failed (lit "execute template from " ++ resName) e
        | none => .ok text w

/-- The method `Config.ApplyGo`: `Apply` followed by `format.Source`. -/
def Config.ApplyGo {Tmpl : Type} (env : Env Tmpl) (url : Str) (w : World) : Res World Str :=
  match Config.Apply env url w with
  | .fatal f w => .fatal f w
  | .ok text w =>
    match env.Source text with
    | .error e => w.failed (lit "gofmt " ++ url) e
    | .ok data => .ok data w

/-- The method `Generator.Write`: writes the file into the project directory. -/
def Generator.Write {Tmpl : Type} (env : Env Tmpl) (fname data : Str) (w : World) : Res World Unit :=
  let path := env.Join w.cfg.ProjectDir fname
  match env.WriteFile w.files path data with
  | some e => w.failed (lit "write file " ++ fname) e
  | none => .ok () { w with files := (path, data) :: w.files }

/-- The method `Generator.createMakeFile`. -/
def Generator.createMakeFile {Tmpl : Type} (env : Env Tmpl) (w : World) : Res World Unit :=
  match Config.Apply env (lit "Makefile.tmpl") w with
  | .fatal f w => .fatal f w
  | .ok text w => Generator.Write env (lit "Makefile") text w

/-- The method `Generator.createBuildGoFile`. -/
def Generator.createBuildGoFile {Tmpl : Type} (env : Env Tmpl) (w : World) : Res World Unit :=
  match Config.Apply env (lit "build.go.tmpl") w with
  | .fatal f w => .fatal f w
  | .ok text w => Generator.Write env (lit "build.go") text w

/-- The base URL that `main` gives the `Config`. -/
def masterURL : Str := lit "https://raw.githubusercontent.com/worldiety/template-go/master/"

/-- The function `main`, given the value of the flag `-dev`, the results of
`os.Getwd` and of `tools.GoList(dir, false)`, and the input on `os.Stdin`.  The
outcome carries the console and the files written. -/
def main {Tmpl : Type} (env : Env Tmpl) (isDev : Bool) (getwd : Except Str Str)
    (goList : Str → Except Str Package) (stdin : Str) : Res (Console × List (Str × Str)) Unit :=
  let con : Console := { stdin := stdin, stdout := [] }
  let con := Println (lit "welcome to the worldiety guided project setup helper") con
  match getwd with
  | .error e =>
    match check (lit "working directory") (some e) con with
    | .ok _ con => .fatal (.panic e) (con, [])
    | .fatal f con => .fatal f (con, [])
  | .ok dir =>
    match goList dir with
    | .error e =>
      let con := Print (lit "failed to 'go mod list': " ++ e ++ lit "\n") con
      let con := Println (lit "this current working directory is not a go module") con
      let con := Println (lit "use 'go mod init my/super/module' first") con
      .fatal (.exit (-1)) (con, [])
    | .ok pkg =>
      let config : Config :=
        { pkg := pkg, projectDir := dir, baseURL := masterURL, isDev := isDev,
          binaryName := none, isLibrary := none, mainPath := none }
      let con := Print (lit "your working directory is '" ++ dir ++ lit "'\n") con
      let con := if isDev then Println (lit "DEV mode on") con else con
      match accept (lit "create makefile?") con with
      | .fatal f con => .fatal f (con, [])
      | .ok yes con =>
        let w : World := { cfg := config, con := con, files := [] }
        let made := if yes then Generator.createMakeFile env w else .ok () w
        match made with
        | .fatal f w => .fatal f (w.con, w.files)
        | .ok _ w =>
          match Generator.createBuildGoFile env w with
          | .fatal f w => .fatal f (w.con, w.files)
          | .ok _ w => .ok () (w.con, w.files)

/-! ## Reading an outcome -/

/-- The value of an outcome, `none` for an early stop. -/
def Res.val? {σ α : Type} : Res σ α → Option α
  | .ok v _ => some v
  | .fatal _ _ => none

/-- The state an outcome ends in. -/
def Res.state {σ α : Type} : Res σ α → σ
  | .ok _ st => st
  | .fatal _ st => st

/-- The early stop of an outcome, `none` when it has a value. -/
def Res.stop? {σ α : Type} : Res σ α → Option Fatal
  | .ok _ _ => none
  | .fatal f _ => some f

/-! ## Definitions for the statements below -/

/-- By the words of the specification: the text with its leading and trailing
white space removed, for a text of ASCII characters. -/
def asciiTrim (s : Str) : Str :=
  (s.dropWhile asciiSpace).rdropWhile asciiSpace

/-- By the words of the specification: the artifact name is the binary name,
and for a library `lib` followed by the name with its first character in upper
case, the first character being the first Unicode character of the name.
`unicodeToUpper` stands for the case tables of `unicode.ToUpper`. -/
def specArtifactName (unicodeToUpper : Nat → Nat) (isLibrary : Bool) (binaryName : Str) : Str :=
  if isLibrary then
    match DecodeRuneInString binaryName with
    | (r, w) => lit "lib" ++ EncodeRune (unicodeToUpper r) ++ binaryName.drop w
  else binaryName

/-- A `Config` as `main` constructs it: no self-populating field resolved yet. -/
def Config.fresh (pkg : Package) (isDev : Bool) (baseURL projectDir : Str) : Config :=
  { pkg := pkg, isDev := isDev, baseURL := baseURL, projectDir := projectDir,
    binaryName := none, isLibrary := none, mainPath := none }

/-- The `Config` states that later calls of the getters reach from the state
`c0`, whatever the console holds at each call and whether the call returns or
stops early. -/
inductive Later (unicodeToUpper : Nat → Nat) (c0 : Config) : Config → Prop where
  | now : Later unicodeToUpper c0 c0
  | BinaryName (c : Config) (con : Console) :
      Later unicodeToUpper c0 c → Later unicodeToUpper c0 (c.BinaryName con).state.1
  | IsLibrary (c : Config) (con : Console) :
      Later unicodeToUpper c0 c → Later unicodeToUpper c0 (c.IsLibrary con).state.1
  | IsApp (c : Config) (con : Console) :
      Later unicodeToUpper c0 c → Later unicodeToUpper c0 (c.IsApp con).state.1
  | MainPath (c : Config) (con : Console) :
      Later unicodeToUpper c0 c → Later unicodeToUpper c0 (c.MainPath con).state.1
  | ArtifactName (c : Config) (con : Console) :
      Later unicodeToUpper c0 c →
        Later unicodeToUpper c0 (c.ArtifactName unicodeToUpper con).state.1

/-- The `Config` states that calls of the getters reach from a `Config` as
`main` constructs it. -/
def Reachable (unicodeToUpper : Nat → Nat) (c : Config) : Prop :=
  ∃ pkg isDev baseURL projectDir,
    Later unicodeToUpper (Config.fresh pkg isDev baseURL projectDir) c

/-- The state `c1` keeps what `c` holds: the fields that `main` sets, and every
self-populating field that is resolved in `c`, with its value. -/
def Config.Keeps (c1 c : Config) : Prop :=
  c1.pkg = c.pkg ∧ c1.isDev = c.isDev ∧ c1.baseURL = c.baseURL ∧ c1.projectDir = c.projectDir
  ∧ (∀ v, c.binaryName = some v → c1.binaryName = some v)
  ∧ (∀ v, c.isLibrary = some v → c1.isLibrary = some v)
  ∧ (∀ v, c.mainPath = some v → c1.mainPath = some v)

/-- The package of the examples: a module `github.com/worldiety/demo` whose root
package is `main`. -/
def demoPackage : Package :=
  { Name := lit "main", ImportPath := lit "github.com/worldiety/demo" }

/-- The `Config` of the examples, as `main` constructs it in `/work/demo`. -/
def demoConfig : Config :=
  Config.fresh demoPackage false masterURL (lit "/work/demo")

/-- A `Config` that no run of the program reaches: a library whose resolved
binary name is the empty string. -/
def emptyNameLibrary : Config :=
  { demoConfig with binaryName := some [], isLibrary := some true }

/-- A console with the given input and nothing printed yet. -/
def consoleOf (input : Str) : Console :=
  { stdin := input, stdout := [] }

/-- An environment for the examples: the project directory holds the two
templates, neither with a template action, so that executing one gives its text;
every write succeeds; there is no network.  The formatter is left open. -/
def demoEnv (source : Str → Except Str Str) : Env Str where
  Join := fun dir name => dir ++ lit "/" ++ name
  ReadFile := fun _ path =>
    if path = lit "/work/demo/Makefile.tmpl" then .ok (lit "all:\n\tgo run build.go\n")
    else if path = lit "/work/demo/build.go.tmpl" then .ok (lit "package  main\n")
    else .error (lit "open " ++ path ++ lit ": no such file or directory")
  WriteFile := fun _ _ _ => none
  Get := fun _ => .error (lit "dial tcp: no network")
  Parse := fun data => .ok data
  Execute := fun tmpl c con => (none, tmpl, c, con)
  Execute_projectDir := fun _ _ _ => rfl
  Source := source

/-- The run of `main` of the examples: development mode in `/work/demo`, the
module `demoPackage`, the given formatter and console input. -/
def demoMain (source : Str → Except Str Str) (stdin : Str) : Res (Console × List (Str × Str)) Unit :=
  main (demoEnv source) true (.ok (lit "/work/demo")) (fun _ => .ok demoPackage) stdin

/-- An environment for the examples in which a template consults the `Config`:
executing one calls `IsLibrary` first, as a template action that tests
`.IsLibrary` does, and then gives the text of the template.  When the getter
panics, `Execute` returns an error, as `text/template` recovers the panic of a
method it calls.  The rest is as in `demoEnv`, with a formatter that changes
nothing. -/
def askingEnv : Env Str where
  Join := (demoEnv .ok).Join
  ReadFile := (demoEnv .ok).ReadFile
  WriteFile := (demoEnv .ok).WriteFile
  Get := (demoEnv .ok).Get
  Parse := (demoEnv .ok).Parse
  Execute := fun tmpl c con =>
    match c.IsLibrary con with
    | .ok _ (c, con) => (none, tmpl, c, con)
    | .fatal _ (c, con) => (some (lit "error calling IsLibrary"), [], c, con)
  Execute_projectDir := fun _ c con => by
    cases h : c.isLibrary with
    | some lib => simp [Config.IsLibrary, h]
    | none =>
      simp only [Config.IsLibrary, h]
      cases accept (lit "project is a library only") con <;> rfl
  Source := .ok

/-- The run of `main` of the examples in the environment `askingEnv`:
development mode in `/work/demo`, the module `demoPackage`, the given console
input. -/
def askingMain (stdin : Str) : Res (Console × List (Str × Str)) Unit :=
  main askingEnv true (.ok (lit "/work/demo")) (fun _ => .ok demoPackage) stdin

/-- The state in which the driver of the examples calls `createBuildGoFile`
when the makefile was declined. -/
def demoWorld : World :=
  { cfg := { demoConfig with isDev := true }, con := consoleOf [], files := [] }

/-- The question that `MainPath` asks for an application and its default, which
is the import path when the root package is `main`, and empty otherwise. -/
def mainPathQuestion (c : Config) : Str × Str :=
  if c.pkg.Name = lit "main" then
    (lit "enter the import path of the main package", c.pkg.ImportPath)
  else
    (lit "enter the import path of the main package (e.g. " ++ c.pkg.ImportPath ++ lit "/cmd)",
      lit "")

/-- The resolved binary name of the `Config`, if any, is not empty. -/
def NameResolvedNonEmpty (c : Config) : Prop :=
  ∀ name, c.binaryName = some name → name ≠ []

/-- By the words of the specification: the text consists of white space only,
that is, it is the UTF-8 encoding of a sequence of white space characters. -/
def WhiteSpaceOnly (s : Str) : Prop :=
  ∃ rs : List Nat, (∀ r ∈ rs, IsSpace r = true) ∧ s = rs.flatMap EncodeRune

/-- By the words of the specification: the text neither starts nor ends with a
white space character. -/
def NoSpaceAtEnds (m : Str) : Prop :=
  ∀ r, IsSpace r = true → ¬ EncodeRune r <+: m ∧ ¬ EncodeRune r <:+ m

/-- By the words of the specification: `m` is the text `s` with its leading and
trailing white space removed and every other character unchanged. -/
def IsTrimOf (m s : Str) : Prop :=
  ∃ pre suf, s = pre ++ m ++ suf ∧ WhiteSpaceOnly pre ∧ WhiteSpaceOnly suf ∧ NoSpaceAtEnds m

/-! # Theorems -/

set_option maxRecDepth 20000

/-! ## Reading a line -/

theorem splitDelim_append (d : Nat) (l rest : Str) (h : d ∉ l) :
    splitDelim d (l ++ d :: rest) = some (l ++ [d], rest) := by
  induction l with
  | nil => simp [splitDelim]
  | cons b t ih =>
    have hb : b ≠ d := fun e => h (by simp [e])
    have ht : d ∉ t := fun e => h (by simp [e])
    simp [splitDelim, hb, ih ht]

theorem splitDelim_none (d : Nat) (s : Str) (h : d ∉ s) : splitDelim d s = none := by
  induction s with
  | nil => simp [splitDelim]
  | cons b t ih =>
    have hb : b ≠ d := fun e => h (by simp [e])
    have ht : d ∉ t := fun e => h (by simp [e])
    simp [splitDelim, hb, ih ht]

theorem first_split (d : Nat) (s : Str) (h : d ∈ s) :
    ∃ l rest, d ∉ l ∧ s = l ++ d :: rest := by
  induction s with
  | nil => simp at h
  | cons b t ih =>
    by_cases hb : d = b
    · exact ⟨[], t, by simp, by simp [hb]⟩
    · have ht : d ∈ t := by simpa [hb] using h
      obtain ⟨l, rest, hl, e⟩ := ih ht
      exact ⟨b :: l, rest, by simp [hb, hl], by simp [e]⟩

/-- A stream with a newline gives `ReadString` its first line, newline included,
and no error. -/
theorem ReadString_line (l rest : Str) (hl : 0x0A ∉ l) :
    ReadString (l ++ 0x0A :: rest) 0x0A = (l ++ [0x0A], none, rest) := by
  simp [ReadString, splitDelim_append _ _ _ hl]

/-- A stream without a newline gives `ReadString` all of it and the error `io.EOF`. -/
theorem ReadString_eof (s : Str) (h : 0x0A ∉ s) :
    ReadString s 0x0A = (s, some EOF, []) := by
  simp [ReadString, splitDelim_none _ _ h]

/-! ## `strings.TrimSpace` on ASCII text -/

theorem trimSpaceStop_ascii (s : Str) (hs : ∀ c ∈ s, c < 0x80) (n : Nat) (hn : n ≤ s.length) :
    trimSpaceStop s n = (s.take n).rdropWhile asciiSpace := by
  induction n with
  | zero => simp [trimSpaceStop]
  | succ k ih =>
    have hk : k < s.length := hn
    have hget : s.getD k 0 = s[k] := by simp [List.getD, List.getElem?_eq_getElem hk]
    have hlt : s[k] < 0x80 := hs _ (List.getElem_mem hk)
    have htake : s.take (k + 1) = s.take k ++ [s[k]] := by
      rw [List.take_succ, List.getElem?_eq_getElem hk]; rfl
    rw [trimSpaceStop]
    simp only [hget, RuneSelf, ge_iff_le, Nat.not_le.mpr hlt, if_false]
    rw [htake, List.rdropWhile_concat]
    by_cases hsp : asciiSpace s[k] = true
    · simp [hsp, ih (Nat.le_of_lt hk)]
    · simp [hsp]

/-- On ASCII text `strings.TrimSpace` removes the leading and the trailing white
space and nothing else. -/
theorem TrimSpace_ascii (s : Str) (hs : ∀ c ∈ s, c < 0x80) : TrimSpace s = asciiTrim s := by
  unfold TrimSpace asciiTrim
  induction s with
  | nil => simp [trimSpaceStart]
  | cons c t ih =>
    have hc : c < 0x80 := hs c (by simp)
    have ht : ∀ c ∈ t, c < 0x80 := fun x hx => hs x (by simp [hx])
    rw [trimSpaceStart]
    simp only [RuneSelf, ge_iff_le, Nat.not_le.mpr hc, if_false]
    by_cases hsp : asciiSpace c = true
    · simp [hsp, ih ht]
    · simp only [hsp, Bool.not_false, if_true]
      rw [trimSpaceStop_ascii _ hs _ (le_refl _)]
      simp [List.dropWhile_cons, hsp]

/-- The newline that ends a line is trailing white space. -/
theorem asciiTrim_newline (l : Str) : asciiTrim (l ++ [0x0A]) = asciiTrim l := by
  unfold asciiTrim
  by_cases h : ∀ c ∈ l, asciiSpace c = true
  · have h1 : ∀ c ∈ l ++ [0x0A], asciiSpace c = true := by
      intro c hc
      rcases List.mem_append.mp hc with hc | hc
      · exact h c hc
      · simp at hc; subst hc; decide
    rw [List.dropWhile_eq_nil_iff.mpr h1, List.dropWhile_eq_nil_iff.mpr h]
  · push_neg at h
    obtain ⟨c, hc, hsp⟩ := h
    have : l.dropWhile asciiSpace ≠ [] := by
      intro e
      exact hsp (List.dropWhile_eq_nil_iff.mp e c hc)
    rw [List.dropWhile_append]
    simp only [this, List.isEmpty_eq_true, if_false]
    rw [List.rdropWhile_concat]
    simp [asciiSpace]

theorem TrimSpace_ascii_line (l : Str) (hs : ∀ c ∈ l, c < 0x80) :
    TrimSpace (l ++ [0x0A]) = asciiTrim l := by
  rw [TrimSpace_ascii, asciiTrim_newline]
  intro c hc
  rcases List.mem_append.mp hc with hc | hc
  · exact hs c hc
  · simp at hc; omega

theorem asciiTrim_spaces (l : Str) (hs : ∀ c ∈ l, asciiSpace c = true) : asciiTrim l = [] := by
  simp [asciiTrim, List.dropWhile_eq_nil_iff.mpr hs, List.rdropWhile]

theorem asciiSpace_lt (c : Nat) (h : asciiSpace c = true) : c < 0x80 := by
  simp [asciiSpace] at h
  omega

/-! ## `strings.TrimSpace` on any text -/

/-- The white space characters, one by one. -/
theorem IsSpace_cases (r : Nat) (h : IsSpace r = true) :
    r = 0x09 ∨ r = 0x0A ∨ r = 0x0B ∨ r = 0x0C ∨ r = 0x0D ∨ r = 0x20 ∨ r = 0x85 ∨ r = 0xA0
    ∨ r = 0x1680 ∨ r = 0x2000 ∨ r = 0x2001 ∨ r = 0x2002 ∨ r = 0x2003 ∨ r = 0x2004
    ∨ r = 0x2005 ∨ r = 0x2006 ∨ r = 0x2007 ∨ r = 0x2008 ∨ r = 0x2009 ∨ r = 0x200A
    ∨ r = 0x2028 ∨ r = 0x2029 ∨ r = 0x202F ∨ r = 0x205F ∨ r = 0x3000 := by
  unfold IsSpace at h
  split at h
  · simp at h; omega
  · simp at h; omega

/-- A white space character is decoded from the front of a text that starts
with its encoding. -/
theorem DecodeRuneInString_space (r : Nat) (t : Str) (h : IsSpace r = true) :
    DecodeRuneInString (EncodeRune r ++ t) = (r, (EncodeRune r).length) := by
  rcases IsSpace_cases r h with h | h | h | h | h | h | h | h | h | h | h | h | h | h | h | h
    | h | h | h | h | h | h | h | h | h <;> subst h <;>
    simp [EncodeRune, DecodeRuneInString, firstInfo, RuneSelf]

theorem EncodeRune_space_ne_nil (r : Nat) (h : IsSpace r = true) : EncodeRune r ≠ [] := by
  rcases IsSpace_cases r h with h | h | h | h | h | h | h | h | h | h | h | h | h | h | h | h
    | h | h | h | h | h | h | h | h | h <;> subst h <;> simp [EncodeRune]

/-- In a text of white space only `indexFunc` finds no other character. -/
theorem indexFuncLoop_spaces (rs : List Nat) (hrs : ∀ r ∈ rs, IsSpace r = true)
    (fuel i : Nat) : indexFuncLoop IsSpace false fuel (rs.flatMap EncodeRune) i = none := by
  induction rs generalizing fuel i with
  | nil => cases fuel <;> simp [indexFuncLoop]
  | cons r rest ih =>
    have hr : IsSpace r = true := hrs r (by simp)
    have hrest : ∀ x ∈ rest, IsSpace x = true := fun x hx => hrs x (by simp [hx])
    cases fuel with
    | zero => simp [indexFuncLoop]
    | succ fuel =>
      have hd := DecodeRuneInString_space r (rest.flatMap EncodeRune) hr
      have hne := EncodeRune_space_ne_nil r hr
      rw [List.flatMap_cons]
      unfold indexFuncLoop
      cases he : EncodeRune r ++ rest.flatMap EncodeRune with
      | nil => rfl
      | cons b t =>
        rw [he] at hd
        simp only [hd, hr, Bool.true_eq_false, if_false]
        rw [← he, List.drop_left]
        exact ih hrest fuel _

theorem TrimFunc_spaces (rs : List Nat) (hrs : ∀ r ∈ rs, IsSpace r = true) :
    TrimFunc (rs.flatMap EncodeRune) IsSpace = [] := by
  have h : TrimLeftFunc (rs.flatMap EncodeRune) IsSpace = [] := by
    simp [TrimLeftFunc, indexFunc, indexFuncLoop_spaces rs hrs]
  simp [TrimFunc, h, TrimRightFunc, lastIndexFunc, lastIndexFuncLoop]

theorem trimSpaceStart_space (c : Nat) (t : Str) (h : asciiSpace c = true) :
    trimSpaceStart (c :: t) = trimSpaceStart t := by
  have hc := asciiSpace_lt c h
  rw [trimSpaceStart]
  simp [RuneSelf, Nat.not_le.mpr hc, h]

theorem trimSpaceStart_other (c : Nat) (t : Str) (h : 0x80 ≤ c) :
    trimSpaceStart (c :: t) = TrimFunc (c :: t) IsSpace := by
  rw [trimSpaceStart]
  simp [RuneSelf, h]

/-- The encoding of a white space character is one ASCII white space byte, or
starts with a byte from `0x80` on. -/
theorem EncodeRune_space_form (r : Nat) (h : IsSpace r = true) :
    (asciiSpace r = true ∧ EncodeRune r = [r])
    ∨ (∃ b t, EncodeRune r = b :: t ∧ 0x80 ≤ b) := by
  rcases IsSpace_cases r h with h | h | h | h | h | h | h | h | h | h | h | h | h | h | h | h
    | h | h | h | h | h | h | h | h | h <;> subst h <;> simp [EncodeRune, asciiSpace]

/-- A text of white space only is trimmed to the empty string. -/
theorem TrimSpace_spaces (s : Str) (h : WhiteSpaceOnly s) : TrimSpace s = [] := by
  obtain ⟨rs, hrs, rfl⟩ := h
  unfold TrimSpace
  induction rs with
  | nil => simp [trimSpaceStart]
  | cons r rest ih =>
    have hr : IsSpace r = true := hrs r (by simp)
    have hrest : ∀ x ∈ rest, IsSpace x = true := fun x hx => hrs x (by simp [hx])
    have hall := TrimFunc_spaces (r :: rest) hrs
    rw [List.flatMap_cons] at hall ⊢
    rcases EncodeRune_space_form r hr with ⟨ha, he⟩ | ⟨b, t, he, hb⟩
    · rw [he, List.singleton_append, trimSpaceStart_space r _ ha]
      exact ih hrest
    · rw [he, List.cons_append] at hall ⊢
      rw [trimSpaceStart_other b _ hb]
      exact hall

/-- The newline that ends a line of white space leaves it a text of white space. -/
theorem WhiteSpaceOnly_line (l : Str) (h : WhiteSpaceOnly l) : WhiteSpaceOnly (l ++ [0x0A]) := by
  obtain ⟨rs, hrs, rfl⟩ := h
  refine ⟨rs ++ [0x0A], ?_, ?_⟩
  · intro r hr
    rcases List.mem_append.mp hr with hr | hr
    · exact hrs r hr
    · simp at hr; subst hr; decide
  · simp [List.flatMap_append, EncodeRune]

/-- White space of ASCII bytes is white space. -/
theorem WhiteSpaceOnly_ascii (l : Str) (h : ∀ c ∈ l, asciiSpace c = true) : WhiteSpaceOnly l := by
  refine ⟨l, ?_, ?_⟩
  · intro r hr
    have := h r hr
    simp [asciiSpace] at this
    rcases this with e | e | e | e | e | e <;> subst e <;> decide
  · induction l with
    | nil => rfl
    | cons c t ih =>
      have hc := asciiSpace_lt c (h c (by simp))
      have : EncodeRune c = [c] := by
        unfold EncodeRune
        rw [if_pos (by omega)]
      rw [List.flatMap_cons, this, ← ih (fun x hx => h x (by simp [hx]))]
      rfl

theorem firstInfo_two (b lo hi : Nat) (h : firstInfo b = some (2, lo, hi)) :
    0xC2 ≤ b ∧ b < 0xE0 ∧ lo = 0x80 ∧ hi = 0xBF := by
  unfold firstInfo at h
  split_ifs at h <;> simp at h <;> omega

theorem firstInfo_three (b lo hi : Nat) (h : firstInfo b = some (3, lo, hi)) :
    0xE0 ≤ b ∧ b < 0xF0 ∧ 0x80 ≤ lo ∧ hi ≤ 0xBF ∧ (b = 0xE0 → 0xA0 ≤ lo)
      ∧ (b = 0xED → hi ≤ 0x9F) := by
  unfold firstInfo at h
  split_ifs at h <;> simp at h <;> omega

theorem firstInfo_four (b lo hi : Nat) (h : firstInfo b = some (4, lo, hi)) :
    0xF0 ≤ b ∧ b ≤ 0xF4 ∧ 0x80 ≤ lo ∧ hi ≤ 0xBF ∧ (b = 0xF0 → 0x90 ≤ lo)
      ∧ (b = 0xF4 → hi ≤ 0x8F) := by
  unfold firstInfo at h
  split_ifs at h <;> simp at h <;> omega

theorem firstInfo_sizes (b sz lo hi : Nat) (h : firstInfo b = some (sz, lo, hi)) :
    sz = 2 ∨ sz = 3 ∨ sz = 4 := by
  unfold firstInfo at h
  split_ifs at h <;> simp at h <;> omega

theorem DecodeRuneInString_encode2 (s0 s1 lo hi : Nat)
    (hf : firstInfo s0 = some (2, lo, hi)) (h1 : ¬ (s1 < lo ∨ hi < s1)) :
    [s0, s1] = EncodeRune (s0 % 32 * 64 + s1 % 64) := by
  have := firstInfo_two _ _ _ hf
  simp only [EncodeRune]
  split_ifs <;> simp <;> omega

theorem DecodeRuneInString_encode3 (s0 s1 s2 lo hi : Nat)
    (hf : firstInfo s0 = some (3, lo, hi)) (h1 : ¬ (s1 < lo ∨ hi < s1))
    (h2 : ¬ (s2 < 0x80 ∨ 0xBF < s2)) :
    [s0, s1, s2] = EncodeRune (s0 % 16 * 4096 + s1 % 64 * 64 + s2 % 64) := by
  have := firstInfo_three _ _ _ hf
  simp only [EncodeRune]
  split_ifs <;> simp <;> omega

theorem DecodeRuneInString_encode4 (s0 s1 s2 s3 lo hi : Nat)
    (hf : firstInfo s0 = some (4, lo, hi)) (h1 : ¬ (s1 < lo ∨ hi < s1))
    (h2 : ¬ (s2 < 0x80 ∨ 0xBF < s2)) (h3 : ¬ (s3 < 0x80 ∨ 0xBF < s3)) :
    [s0, s1, s2, s3]
      = EncodeRune (s0 % 8 * 262144 + s1 % 64 * 4096 + s2 % 64 * 64 + s3 % 64) := by
  have := firstInfo_four _ _ _ hf
  simp only [EncodeRune]
  split_ifs <;> simp <;> omega

/-- A decoding that is not the replacement of an invalid byte gives back the
bytes it was decoded from: they are the encoding of the rune. -/
theorem DecodeRuneInString_encode (s : Str) (r w : Nat)
    (h : DecodeRuneInString s = (r, w)) (hv : w ≠ 1 ∨ r < 0x80) (hne : s ≠ []) :
    s.take w = EncodeRune r := by
  rcases s with _ | ⟨s0, t⟩
  · exact absurd rfl hne
  unfold DecodeRuneInString at h
  simp only [RuneSelf] at h
  by_cases h0 : s0 < 0x80
  · simp only [h0, if_true, Prod.mk.injEq] at h
    obtain ⟨rfl, rfl⟩ := h
    have : s0 ≤ 0x7F := by omega
    simp [EncodeRune, this]
  · simp only [h0, if_false] at h
    have bad : ∀ {P : Prop}, (RuneError, 1) = (r, w) → P := by
      intro P e
      simp only [Prod.mk.injEq, RuneError] at e
      omega
    cases hf : firstInfo s0 with
    | none =>
      simp only [hf] at h
      exact bad h
    | some p =>
      obtain ⟨sz, lo, hi⟩ := p
      simp only [hf] at h
      by_cases hlen : (s0 :: t).length < sz
      · simp only [hlen, if_true] at h
        exact bad h
      simp only [hlen, if_false] at h
      rcases t with _ | ⟨s1, t1⟩
      · exact bad h
      simp only at h
      by_cases h1 : s1 < lo ∨ hi < s1
      · simp only [h1, if_true] at h
        exact bad h
      simp only [h1, if_false] at h
      rcases firstInfo_sizes _ _ _ _ hf with e | e | e <;> subst e
      · simp only [le_refl, if_true, Prod.mk.injEq] at h
        obtain ⟨rfl, rfl⟩ := h
        simpa using DecodeRuneInString_encode2 s0 s1 lo hi hf h1
      · simp only [show ¬ (3 ≤ 2) by omega, if_false] at h
        rcases t1 with _ | ⟨s2, t2⟩
        · exact bad h
        simp only at h
        by_cases h2 : s2 < 0x80 ∨ 0xBF < s2
        · simp only [h2, if_true] at h
          exact bad h
        simp only [h2, if_false, le_refl, if_true, Prod.mk.injEq] at h
        obtain ⟨rfl, rfl⟩ := h
        simpa using DecodeRuneInString_encode3 s0 s1 s2 lo hi hf h1 h2
      · simp only [show ¬ (4 ≤ 2) by omega, if_false] at h
        rcases t1 with _ | ⟨s2, t2⟩
        · exact bad h
        simp only at h
        by_cases h2 : s2 < 0x80 ∨ 0xBF < s2
        · simp only [h2, if_true] at h
          exact bad h
        simp only [h2, if_false, show ¬ (4 ≤ 3) by omega] at h
        rcases t2 with _ | ⟨s3, t3⟩
        · exact bad h
        simp only at h
        by_cases h3 : s3 < 0x80 ∨ 0xBF < s3
        · simp only [h3, if_true] at h
          exact bad h
        simp only [h3, if_false, Prod.mk.injEq] at h
        obtain ⟨rfl, rfl⟩ := h
        simpa using DecodeRuneInString_encode4 s0 s1 s2 s3 lo hi hf h1 h2 h3

/-- The width of a decoding is at least one and at most the length of the text. -/
theorem DecodeRuneInString_width (s : Str) (hne : s ≠ []) :
    1 ≤ (DecodeRuneInString s).2 ∧ (DecodeRuneInString s).2 ≤ s.length := by
  rcases s with _ | ⟨s0, t⟩
  · exact absurd rfl hne
  unfold DecodeRuneInString
  simp only [RuneSelf]
  have one : (1 : Nat) ≤ 1 ∧ 1 ≤ (s0 :: t).length := ⟨le_refl _, by simp⟩
  split
  · exact one
  · split
    · exact one
    · split
      · exact one
      · split
        · exact one
        · split
          · exact one
          · split
            · exact ⟨by omega, by simp⟩
            · split
              · exact one
              · split
                · exact one
                · split
                  · exact ⟨by omega, by simp⟩
                  · split
                    · exact one
                    · split
                      · exact one
                      · exact ⟨by omega, by simp⟩

/-- A decoding of width one is an ASCII byte or the replacement of an invalid
byte. -/
theorem DecodeRuneInString_one (s : Str) (h : (DecodeRuneInString s).2 = 1) :
    (DecodeRuneInString s).1 < 0x80 ∨ (DecodeRuneInString s).1 = RuneError := by
  rcases s with _ | ⟨s0, t⟩
  · simp [DecodeRuneInString] at h
  revert h
  unfold DecodeRuneInString
  simp only [RuneSelf]
  split
  · intro _; left; assumption
  · split
    · intro _; right; rfl
    · split
      · intro _; right; rfl
      · split
        · intro _; right; rfl
        · split
          · intro _; right; rfl
          · split
            · intro h; simp at h
            · split
              · intro _; right; rfl
              · split
                · intro _; right; rfl
                · split
                  · intro h; simp at h
                  · split
                    · intro _; right; rfl
                    · split
                      · intro _; right; rfl
                      · intro h; simp at h

theorem IsSpace_RuneError : IsSpace RuneError = false := by decide

/-- A text that decodes to a white space character starts with the encoding of
that character, which the decoding consumes. -/
theorem DecodeRuneInString_space_inv (s : Str) (r w : Nat)
    (h : DecodeRuneInString s = (r, w)) (hr : IsSpace r = true) :
    s = EncodeRune r ++ s.drop w ∧ w = (EncodeRune r).length := by
  have hne : s ≠ [] := by
    rintro rfl
    simp only [DecodeRuneInString, Prod.mk.injEq] at h
    rw [← h.1, IsSpace_RuneError] at hr
    cases hr
  have hv : w ≠ 1 ∨ r < 0x80 := by
    by_cases hw : w = 1
    · right
      have h1 := DecodeRuneInString_one s (by rw [h]; exact hw)
      rw [h] at h1
      rcases h1 with h1 | h1
      · exact h1
      · simp only at h1
        rw [h1, IsSpace_RuneError] at hr
        cases hr
    · exact Or.inl hw
  have ht := DecodeRuneInString_encode s r w h hv hne
  have hw := (DecodeRuneInString_width s hne).2
  rw [h] at hw
  simp only at hw
  refine ⟨?_, ?_⟩
  · rw [← ht, List.take_append_drop]
  · rw [← ht, List.length_take]
    omega

theorem WhiteSpaceOnly_nil : WhiteSpaceOnly [] := ⟨[], by simp, rfl⟩

theorem WhiteSpaceOnly_rune (r : Nat) (h : IsSpace r = true) : WhiteSpaceOnly (EncodeRune r) :=
  ⟨[r], by simpa using h, by simp⟩

theorem WhiteSpaceOnly_append (a b : Str) (ha : WhiteSpaceOnly a) (hb : WhiteSpaceOnly b) :
    WhiteSpaceOnly (a ++ b) := by
  obtain ⟨ra, ha, rfl⟩ := ha
  obtain ⟨rb, hb, rfl⟩ := hb
  refine ⟨ra ++ rb, ?_, by simp [List.flatMap_append]⟩
  intro r hr
  rcases List.mem_append.mp hr with hr | hr
  · exact ha r hr
  · exact hb r hr

/-- When `indexFunc` finds no character that is not white space, the text is
white space only. -/
theorem indexFuncLoop_none (fuel : Nat) (s : Str) (i : Nat) (hf : s.length ≤ fuel)
    (h : indexFuncLoop IsSpace false fuel s i = none) : WhiteSpaceOnly s := by
  induction fuel generalizing s i with
  | zero =>
    have : s = [] := List.length_eq_zero.mp (by omega)
    subst this
    exact WhiteSpaceOnly_nil
  | succ fuel ih =>
    rcases s with _ | ⟨b, t⟩
    · exact WhiteSpaceOnly_nil
    unfold indexFuncLoop at h
    simp only at h
    cases hd : DecodeRuneInString (b :: t) with
    | mk r w =>
      rw [hd] at h
      simp only at h
      by_cases hr : IsSpace r = true
      · simp only [hr, Bool.true_eq_false, if_false] at h
        obtain ⟨e1, e2⟩ := DecodeRuneInString_space_inv _ r w hd hr
        have hw := DecodeRuneInString_width (b :: t) (by simp)
        rw [hd] at hw
        simp only at hw
        have := ih ((b :: t).drop w) (i + w) (by simp only [List.length_drop]; simp at hf ⊢; omega) h
        rw [e1]
        exact WhiteSpaceOnly_append _ _ (WhiteSpaceOnly_rune r hr) this
      · simp [hr] at h

/-- When `indexFunc` finds a character that is not white space, what stands
before it is white space only. -/
theorem indexFuncLoop_some (fuel : Nat) (s : Str) (i j : Nat)
    (h : indexFuncLoop IsSpace false fuel s i = some j) :
    ∃ pre rest, s = pre ++ rest ∧ WhiteSpaceOnly pre ∧ j = i + pre.length ∧ rest ≠ []
      ∧ IsSpace (DecodeRuneInString rest).1 = false := by
  induction fuel generalizing s i with
  | zero => simp [indexFuncLoop] at h
  | succ fuel ih =>
    rcases s with _ | ⟨b, t⟩
    · simp [indexFuncLoop] at h
    unfold indexFuncLoop at h
    simp only at h
    cases hd : DecodeRuneInString (b :: t) with
    | mk r w =>
      rw [hd] at h
      simp only at h
      by_cases hr : IsSpace r = true
      · simp only [hr, Bool.true_eq_false, if_false] at h
        obtain ⟨e1, e2⟩ := DecodeRuneInString_space_inv _ r w hd hr
        obtain ⟨pre, rest, e3, hp, hj, hne, hs⟩ := ih _ _ h
        refine ⟨EncodeRune r ++ pre, rest, ?_, WhiteSpaceOnly_append _ _ (WhiteSpaceOnly_rune r hr) hp,
          ?_, hne, hs⟩
        · rw [List.append_assoc, ← e3]
          exact e1
        · rw [List.length_append, ← e2]
          omega
      · have hr' : IsSpace r = false := by simpa using hr
        simp only [hr', if_true, Option.some.injEq] at h
        exact ⟨[], b :: t, rfl, WhiteSpaceOnly_nil, by simp [h], by simp, by rw [hd]; exact hr'⟩

/-- A text whose last rune decodes to a white space character ends with the
encoding of that character, which the decoding consumes. -/
theorem DecodeLastRuneInString_space_inv (s : Str) (r w : Nat)
    (h : DecodeLastRuneInString s = (r, w)) (hr : IsSpace r = true) :
    ∃ k, s = s.take k ++ EncodeRune r ∧ w = (EncodeRune r).length ∧ k + w = s.length := by
  unfold DecodeLastRuneInString at h
  simp only [RuneSelf] at h
  by_cases h0 : (s.length : Int) = 0
  · simp only [h0, if_true, Prod.mk.injEq] at h
    rw [← h.1, IsSpace_RuneError] at hr
    cases hr
  simp only [h0, if_false] at h
  have hlen : 0 < s.length := by omega
  by_cases h1 : s.getD ((s.length : Int) - 1).toNat 0 < 0x80
  · simp only [h1, if_true, Prod.mk.injEq] at h
    obtain ⟨rfl, rfl⟩ := h
    have hk : ((s.length : Int) - 1).toNat = s.length - 1 := by omega
    rw [hk] at h1 ⊢
    have hget : s.getD (s.length - 1) 0 = s[s.length - 1] := by
      simp [List.getD, List.getElem?_eq_getElem (show s.length - 1 < s.length by omega)]
    have he : EncodeRune (s[s.length - 1]) = [s[s.length - 1]] := by
      rw [hget] at h1
      unfold EncodeRune
      rw [if_pos (by omega)]
    refine ⟨s.length - 1, ?_, ?_, by omega⟩
    · rw [hget, he]
      have := List.take_append_drop (s.length - 1) s
      rw [List.drop_eq_getElem_cons (show s.length - 1 < s.length by omega)] at this
      have hd : s.drop (s.length - 1 + 1) = [] := List.drop_eq_nil_of_le (by omega)
      rw [hd] at this
      exact this.symm
    · rw [hget, he]; rfl
  · simp only [h1, if_false] at h
    obtain ⟨st, hst, hst0⟩ : ∃ st : Int, st =
        (if lastRuneStart s (if (s.length : Int) - (UTFMax : Int) < 0 then 0
              else (s.length : Int) - (UTFMax : Int)) UTFMax ((s.length : Int) - 1 - 1) < 0 then 0
          else lastRuneStart s (if (s.length : Int) - (UTFMax : Int) < 0 then 0
              else (s.length : Int) - (UTFMax : Int)) UTFMax ((s.length : Int) - 1 - 1))
        ∧ 0 ≤ st := by
      refine ⟨_, rfl, ?_⟩
      split <;> omega
    rw [← hst] at h
    cases hd : DecodeRuneInString (s.drop st.toNat) with
    | mk r1 size =>
      rw [hd] at h
      simp only at h
      by_cases he : st + (size : Int) ≠ (s.length : Int)
      · rw [if_pos he] at h
        simp only [Prod.mk.injEq] at h
        rw [← h.1, IsSpace_RuneError] at hr
        cases hr
      · rw [if_neg he] at h
        simp only [Prod.mk.injEq] at h
        obtain ⟨rfl, rfl⟩ := h
        obtain ⟨e1, e2⟩ := DecodeRuneInString_space_inv _ _ _ hd hr
        have hk : st.toNat + size = s.length := by
          have : st + (size : Int) = (s.length : Int) := by
            by_contra hc
            exact he hc
          omega
        have hdrop : (s.drop st.toNat).drop size = [] :=
          List.drop_eq_nil_of_le (by simp only [List.length_drop]; omega)
        rw [hdrop, List.append_nil] at e1
        refine ⟨st.toNat, ?_, e2, hk⟩
        rw [← e1, List.take_append_drop]

/-- When `lastIndexFunc` finds no character that is not white space, the text
it has scanned is white space only. -/
theorem lastIndexFuncLoop_none (s : Str) (fuel i : Nat) (hf : i ≤ fuel) (hi : i ≤ s.length)
    (h : lastIndexFuncLoop s IsSpace false fuel i = none) : WhiteSpaceOnly (s.take i) := by
  induction fuel generalizing i with
  | zero =>
    have : i = 0 := by omega
    subst this
    exact WhiteSpaceOnly_nil
  | succ fuel ih =>
    unfold lastIndexFuncLoop at h
    by_cases h0 : 0 < i
    · simp only [h0, if_true] at h
      cases hd : DecodeLastRuneInString (s.take i) with
      | mk r size =>
        rw [hd] at h
        simp only at h
        by_cases hr : IsSpace r = true
        · simp only [hr, Bool.true_eq_false, if_false] at h
          obtain ⟨k, e1, e2, e3⟩ := DecodeLastRuneInString_space_inv _ r size hd hr
          have hne := EncodeRune_space_ne_nil r hr
          have hpos : 0 < (EncodeRune r).length := List.length_pos.mpr hne
          rw [List.length_take, Nat.min_eq_left hi] at e3
          have hk : i - size = k := by omega
          rw [hk] at h
          have := ih k (by omega) (by omega) h
          rw [List.take_take, Nat.min_eq_left (by omega)] at e1
          rw [e1]
          exact WhiteSpaceOnly_append _ _ this (WhiteSpaceOnly_rune r hr)
        · simp [hr] at h
    · have : i = 0 := by omega
      subst this
      exact WhiteSpaceOnly_nil

/-- What `TrimRightFunc` leaves of a text is empty only when the text is white
space only. -/
theorem TrimRightFunc_eq_nil (u : Str) (h : TrimRightFunc u IsSpace = []) : WhiteSpaceOnly u := by
  unfold TrimRightFunc at h
  cases hl : lastIndexFunc u IsSpace false with
  | none =>
    have := lastIndexFuncLoop_none u u.length u.length (le_refl _) (le_refl _) hl
    rwa [List.take_length] at this
  | some j =>
    rcases u with _ | ⟨b, t⟩
    · exact WhiteSpaceOnly_nil
    · exfalso
      simp only [hl] at h
      have hw := (DecodeRuneInString_width (b :: t) (by simp)).1
      split_ifs at h
      · cases j with
        | zero =>
          simp only [List.drop_zero, Nat.zero_add] at h
          have := congrArg List.length h
          simp only [List.length_take, List.length_cons, List.length_nil] at this
          omega
        | succ j =>
          have := congrArg List.length h
          simp only [List.length_take, List.length_cons, List.length_nil] at this
          omega
      · have := congrArg List.length h
        simp only [List.length_take, List.length_cons, List.length_nil] at this
        omega

/-- A text of white space only starts with an ASCII white space byte or with a
byte from `0x80` on. -/
theorem WhiteSpaceOnly_head (c : Nat) (t : Str) (h : WhiteSpaceOnly (c :: t)) :
    asciiSpace c = true ∨ 0x80 ≤ c := by
  obtain ⟨rs, hrs, e⟩ := h
  induction rs with
  | nil => simp at e
  | cons r rest ih =>
    have hr : IsSpace r = true := hrs r (by simp)
    rw [List.flatMap_cons] at e
    rcases EncodeRune_space_form r hr with ⟨ha, he⟩ | ⟨b, t1, he, hb⟩
    · rw [he] at e
      simp only [List.singleton_append, List.cons.injEq] at e
      rw [e.1]
      exact Or.inl ha
    · rw [he] at e
      simp only [List.cons_append, List.cons.injEq] at e
      rw [e.1]
      exact Or.inr hb

/-- A text of white space only decodes to a white space character. -/
theorem WhiteSpaceOnly_decode (s : Str) (h : WhiteSpaceOnly s) (hne : s ≠ []) :
    IsSpace (DecodeRuneInString s).1 = true := by
  obtain ⟨rs, hrs, rfl⟩ := h
  rcases rs with _ | ⟨r, rest⟩
  · simp at hne
  · have hr : IsSpace r = true := hrs r (by simp)
    rw [List.flatMap_cons, DecodeRuneInString_space r _ hr]
    exact hr

/-- What `TrimFunc` leaves of a text is empty only when the text is white space
only. -/
theorem TrimFunc_eq_nil (s : Str) (h : TrimFunc s IsSpace = []) : WhiteSpaceOnly s := by
  unfold TrimFunc at h
  have hu := TrimRightFunc_eq_nil _ h
  unfold TrimLeftFunc at hu
  cases hi : indexFunc s IsSpace false with
  | none => exact indexFuncLoop_none s.length s 0 (le_refl _) hi
  | some j =>
    exfalso
    simp only [hi] at hu
    obtain ⟨pre, rest, e, _, hj, hne, hs⟩ := indexFuncLoop_some _ _ _ _ hi
    have hd : s.drop j = rest := by
      rw [e, hj, Nat.zero_add, List.drop_left]
    rw [hd] at hu
    rw [WhiteSpaceOnly_decode rest hu hne] at hs
    cases hs

theorem trimSpaceStop_ne_nil (c : Nat) (t : Str) (hc : c < 0x80) (hsp : asciiSpace c = false)
    (n : Nat) (hn : n ≤ (c :: t).length) (h1 : 1 ≤ n) : trimSpaceStop (c :: t) n ≠ [] := by
  induction n with
  | zero => omega
  | succ k ih =>
    unfold trimSpaceStop
    simp only [RuneSelf]
    have takene : (c :: t).take (k + 1) ≠ [] := by simp
    split_ifs with ha hb
    · intro e
      have hw := TrimRightFunc_eq_nil _ e
      simp only [List.take_succ_cons] at hw
      rcases WhiteSpaceOnly_head _ _ hw with h | h
      · rw [hsp] at h; cases h
      · omega
    · exact takene
    · cases k with
      | zero =>
        simp only [List.getD_cons_zero] at hb
        rw [hsp] at hb
        simp at hb
      | succ k => exact ih (by omega) (by omega)

/-- What `strings.TrimSpace` leaves of a text is empty only when the text is
white space only. -/
theorem TrimSpace_eq_nil (s : Str) (h : TrimSpace s = []) : WhiteSpaceOnly s := by
  unfold TrimSpace at h
  induction s with
  | nil => exact WhiteSpaceOnly_nil
  | cons c t ih =>
    by_cases hc : 0x80 ≤ c
    · rw [trimSpaceStart_other c t hc] at h
      exact TrimFunc_eq_nil _ h
    · by_cases hsp : asciiSpace c = true
      · rw [trimSpaceStart_space c t hsp] at h
        have hw := ih h
        have : WhiteSpaceOnly [c] := WhiteSpaceOnly_ascii [c] (by simpa using hsp)
        exact WhiteSpaceOnly_append [c] t this hw
      · exfalso
        have hsp' : asciiSpace c = false := by simpa using hsp
        rw [trimSpaceStart] at h
        simp only [RuneSelf, ge_iff_le, hc, if_false, hsp', Bool.not_false, if_true] at h
        exact trimSpaceStop_ne_nil c t (by omega) hsp' _ (le_refl _) (by simp) h

/-- The text that `strings.TrimSpace` returns is empty exactly when the text is
white space only. -/
theorem TrimSpace_eq_nil_iff (s : Str) : TrimSpace s = [] ↔ WhiteSpaceOnly s :=
  ⟨TrimSpace_eq_nil s, TrimSpace_spaces s⟩

/-- The last byte of the encoding of a white space character is the character
itself, an ASCII white space byte, or a byte from `0x80` on. -/
theorem EncodeRune_space_last (r x : Nat) (h : IsSpace r = true)
    (hx : (EncodeRune r).getLast? = some x) :
    (asciiSpace r = true ∧ EncodeRune r = [r] ∧ x = r) ∨ 0x80 ≤ x := by
  rcases IsSpace_cases r h with h | h | h | h | h | h | h | h | h | h | h | h | h | h | h | h
    | h | h | h | h | h | h | h | h | h <;> subst h <;>
    simp [EncodeRune, asciiSpace] at hx ⊢ <;> omega

/-- A line is white space only exactly when it is so with the newline that ends
it. -/
theorem WhiteSpaceOnly_line_iff (l : Str) : WhiteSpaceOnly (l ++ [0x0A]) ↔ WhiteSpaceOnly l := by
  refine ⟨?_, WhiteSpaceOnly_line l⟩
  rintro ⟨rs, hrs, e⟩
  rcases List.eq_nil_or_concat rs with rfl | ⟨rs1, r, rfl⟩
  · simp at e
  · have hr : IsSpace r = true := hrs r (by simp)
    have hne := EncodeRune_space_ne_nil r hr
    simp only [List.concat_eq_append, List.flatMap_append, List.flatMap_cons, List.flatMap_nil,
      List.append_nil] at e
    have hlast := congrArg List.getLast? e
    rw [List.getLast?_append_of_ne_nil _ (by simp), List.getLast?_append_of_ne_nil _ hne] at hlast
    simp only [List.getLast?_singleton] at hlast
    rcases EncodeRune_space_last r 0x0A hr hlast.symm with ⟨_, he, _⟩ | hbad
    · rw [he] at e
      have := List.append_inj' e (by simp)
      refine ⟨rs1, fun x hx => hrs x (by simp [hx]), this.1⟩
    · omega

/-- A line is trimmed to the empty string exactly when it is empty or holds white
space only. -/
theorem TrimSpace_line_eq_nil_iff (l : Str) : TrimSpace (l ++ [0x0A]) = [] ↔ WhiteSpaceOnly l :=
  (TrimSpace_eq_nil_iff _).trans (WhiteSpaceOnly_line_iff l)

theorem getD_append_at (x : Str) (v : Str) (k : Nat) :
    (x ++ v).getD (x.length + k) 0 = v.getD k 0 := by
  simp [List.getD_eq_getElem?_getD, List.getElem?_append_right]

/-- The last rune of a text that ends with a two-byte encoding. -/
theorem DecodeLastRuneInString_two (x : Str) (b0 b1 r : Nat)
    (h0 : 0xC0 ≤ b0) (h1 : 0x80 ≤ b1 ∧ b1 < 0xC0)
    (hd : DecodeRuneInString [b0, b1] = (r, 2)) :
    DecodeLastRuneInString (x ++ [b0, b1]) = (r, 2) := by
  unfold DecodeLastRuneInString
  simp only [RuneSelf, UTFMax]
  have hlen : (x ++ [b0, b1]).length = x.length + 2 := by simp
  have e1 : (((x ++ [b0, b1]).length : Int) - 1).toNat = x.length + 1 := by omega
  have e2 : ((x ++ [b0, b1]).length : Int) - 1 - 1 = (x.length : Int) := by omega
  rw [e1, e2, getD_append_at x [b0, b1] 1]
  have hne : ¬ (((x ++ [b0, b1]).length : Int) = 0) := by omega
  simp only [hne, if_false, List.getD_cons_succ, List.getD_cons_zero, Nat.not_lt.mpr h1.1]
  have hs : lastRuneStart (x ++ [b0, b1])
      (if ((x ++ [b0, b1]).length : Int) - (4 : Nat) < 0 then 0
        else ((x ++ [b0, b1]).length : Int) - (4 : Nat)) 4 (x.length : Int) = (x.length : Int) := by
    unfold lastRuneStart
    have hge : (x.length : Int) ≥ (if ((x ++ [b0, b1]).length : Int) - (4 : Nat) < 0 then 0
        else ((x ++ [b0, b1]).length : Int) - (4 : Nat)) := by
      split <;> omega
    have hrs : RuneStart ((x ++ [b0, b1]).getD (x.length : Int).toNat 0) = true := by
      have : (x.length : Int).toNat = x.length + 0 := by omega
      rw [this, getD_append_at x [b0, b1] 0]
      simp only [List.getD_cons_zero, RuneStart]
      have : ¬ (b0 < 0xC0) := by omega
      simp [this]
    simp only [hge, if_true, hrs]
  rw [hs]
  have hnn : ¬ ((x.length : Int) < 0) := by omega
  simp only [hnn, if_false, Int.toNat_ofNat, List.drop_left, hd]
  have : ¬ ((x.length : Int) + ((2 : Nat) : Int) ≠ ((x ++ [b0, b1]).length : Int)) := by
    rw [hlen]; push_cast; omega
  rw [if_neg this]

/-- The last rune of a text that ends with a three-byte encoding. -/
theorem DecodeLastRuneInString_three (x : Str) (b0 b1 b2 r : Nat)
    (h0 : 0xC0 ≤ b0) (h1 : 0x80 ≤ b1 ∧ b1 < 0xC0) (h2 : 0x80 ≤ b2 ∧ b2 < 0xC0)
    (hd : DecodeRuneInString [b0, b1, b2] = (r, 3)) :
    DecodeLastRuneInString (x ++ [b0, b1, b2]) = (r, 3) := by
  unfold DecodeLastRuneInString
  simp only [RuneSelf, UTFMax]
  have hlen : (x ++ [b0, b1, b2]).length = x.length + 3 := by simp
  have e1 : (((x ++ [b0, b1, b2]).length : Int) - 1).toNat = x.length + 2 := by omega
  have e2 : ((x ++ [b0, b1, b2]).length : Int) - 1 - 1 = ((x.length + 1 : Nat) : Int) := by omega
  rw [e1, e2, getD_append_at x [b0, b1, b2] 2]
  have hne : ¬ (((x ++ [b0, b1, b2]).length : Int) = 0) := by omega
  simp only [hne, if_false, List.getD_cons_succ, List.getD_cons_zero, Nat.not_lt.mpr h2.1]
  have hs : lastRuneStart (x ++ [b0, b1, b2])
      (if ((x ++ [b0, b1, b2]).length : Int) - (4 : Nat) < 0 then 0
        else ((x ++ [b0, b1, b2]).length : Int) - (4 : Nat)) 4 ((x.length + 1 : Nat) : Int)
      = (x.length : Int) := by
    unfold lastRuneStart
    have hge : ((x.length + 1 : Nat) : Int) ≥ (if ((x ++ [b0, b1, b2]).length : Int) - (4 : Nat) < 0
        then 0 else ((x ++ [b0, b1, b2]).length : Int) - (4 : Nat)) := by
      split <;> omega
    have hrs : RuneStart ((x ++ [b0, b1, b2]).getD ((x.length + 1 : Nat) : Int).toNat 0) = false := by
      rw [Int.toNat_ofNat, getD_append_at x [b0, b1, b2] 1]
      simp only [List.getD_cons_succ, List.getD_cons_zero, RuneStart]
      simp [h1.1, h1.2]
    simp only [hge, if_true, hrs, Bool.false_eq_true, if_false]
    have e3 : ((x.length + 1 : Nat) : Int) - 1 = (x.length : Int) := by omega
    rw [e3]
    unfold lastRuneStart
    have hge2 : (x.length : Int) ≥ (if ((x ++ [b0, b1, b2]).length : Int) - (4 : Nat) < 0
        then 0 else ((x ++ [b0, b1, b2]).length : Int) - (4 : Nat)) := by
      split <;> omega
    have hrs2 : RuneStart ((x ++ [b0, b1, b2]).getD (x.length : Int).toNat 0) = true := by
      have : (x.length : Int).toNat = x.length + 0 := by omega
      rw [this, getD_append_at x [b0, b1, b2] 0]
      simp only [List.getD_cons_zero, RuneStart]
      have : ¬ (b0 < 0xC0) := by omega
      simp [this]
    simp only [hge2, if_true, hrs2]
  rw [hs]
  have hnn : ¬ ((x.length : Int) < 0) := by omega
  simp only [hnn, if_false, Int.toNat_ofNat, List.drop_left, hd]
  have : ¬ ((x.length : Int) + ((3 : Nat) : Int) ≠ ((x ++ [b0, b1, b2]).length : Int)) := by
    rw [hlen]; push_cast; omega
  rw [if_neg this]

/-- The last rune of a text that ends with an ASCII byte. -/
theorem DecodeLastRuneInString_ascii (x : Str) (b : Nat) (h : b < 0x80) :
    DecodeLastRuneInString (x ++ [b]) = (b, 1) := by
  unfold DecodeLastRuneInString
  simp only [RuneSelf]
  have e1 : (((x ++ [b]).length : Int) - 1).toNat = x.length + 0 := by
    simp only [List.length_append, List.length_singleton]; omega
  have hne : ¬ (((x ++ [b]).length : Int) = 0) := by
    simp only [List.length_append, List.length_singleton]; omega
  rw [e1, getD_append_at x [b] 0, if_neg hne]
  simp [h]

/-- The encoding of a white space character: one ASCII byte, or a leading byte
and one or two continuation bytes. -/
theorem EncodeRune_space_shape (r : Nat) (h : IsSpace r = true) :
    (r < 0x80 ∧ EncodeRune r = [r])
    ∨ (∃ b0 b1, EncodeRune r = [b0, b1] ∧ 0xC0 ≤ b0 ∧ 0x80 ≤ b1 ∧ b1 < 0xC0)
    ∨ (∃ b0 b1 b2, EncodeRune r = [b0, b1, b2] ∧ 0xC0 ≤ b0 ∧ (0x80 ≤ b1 ∧ b1 < 0xC0)
        ∧ 0x80 ≤ b2 ∧ b2 < 0xC0) := by
  rcases IsSpace_cases r h with h | h | h | h | h | h | h | h | h | h | h | h | h | h | h | h
    | h | h | h | h | h | h | h | h | h <;> subst h <;> simp only [EncodeRune] <;>
    first
      | (left; exact ⟨by omega, by simp⟩)
      | (right; left; refine ⟨_, _, by simp; exact ⟨rfl, rfl⟩, ?_⟩; omega)
      | (right; right; refine ⟨_, _, _, by simp; exact ⟨rfl, rfl, rfl⟩, ?_⟩; omega)

/-- A white space character is decoded from the end of a text that ends with
its encoding. -/
theorem DecodeLastRuneInString_space (x : Str) (r : Nat) (h : IsSpace r = true) :
    DecodeLastRuneInString (x ++ EncodeRune r) = (r, (EncodeRune r).length) := by
  have hd := DecodeRuneInString_space r [] h
  rw [List.append_nil] at hd
  rcases EncodeRune_space_shape r h with ⟨hr, e⟩ | ⟨b0, b1, e, h0, h1⟩ | ⟨b0, b1, b2, e, h0, h1, h2⟩
  · rw [e]
    exact DecodeLastRuneInString_ascii x r hr
  · rw [e] at hd ⊢
    exact DecodeLastRuneInString_two x b0 b1 r h0 h1 hd
  · rw [e] at hd ⊢
    exact DecodeLastRuneInString_three x b0 b1 b2 r h0 h1 h2 hd

theorem lastRuneStart_le (s : Str) (lim : Int) (fuel : Nat) (start : Int) :
    lastRuneStart s lim fuel start ≤ start := by
  induction fuel generalizing start with
  | zero => simp [lastRuneStart]
  | succ fuel ih =>
    unfold lastRuneStart
    split
    · split
      · exact le_refl _
      · have := ih (start - 1)
        omega
    · exact le_refl _

/-- What `DecodeLastRuneInString` returns on a text that is not empty: the last
byte if it is an ASCII byte, and else the rune decoded from some bytes that end
the text, or the replacement of an invalid byte with the width one. -/
theorem DecodeLastRuneInString_cases (u : Str) (r size : Nat)
    (h : DecodeLastRuneInString u = (r, size)) (hne : u ≠ []) :
    ∃ x b, u = x ++ [b]
      ∧ ((b < 0x80 ∧ r = b ∧ size = 1)
        ∨ (0x80 ≤ b ∧ ((r = RuneError ∧ size = 1)
            ∨ (∃ k, k < u.length ∧ k + size = u.length
                ∧ DecodeRuneInString (u.drop k) = (r, size))))) := by
  have hlen : 0 < u.length := List.length_pos.mpr hne
  obtain ⟨x, b, rfl⟩ : ∃ x b, u = x ++ [b] := by
    rcases List.eq_nil_or_concat u with e | ⟨x, b, e⟩
    · exact absurd e hne
    · exact ⟨x, b, by simpa using e⟩
  refine ⟨x, b, rfl, ?_⟩
  unfold DecodeLastRuneInString at h
  simp only [RuneSelf, UTFMax] at h
  have h0 : ¬ (((x ++ [b]).length : Int) = 0) := by omega
  have e1 : (((x ++ [b]).length : Int) - 1).toNat = x.length + 0 := by
    simp only [List.length_append, List.length_singleton]; omega
  rw [if_neg h0, e1, getD_append_at x [b] 0] at h
  simp only [List.getD_cons_zero] at h
  by_cases hb : b < 0x80
  · rw [if_pos hb] at h
    simp only [Prod.mk.injEq] at h
    exact Or.inl ⟨hb, h.1.symm, h.2.symm⟩
  · rw [if_neg hb] at h
    right
    refine ⟨by omega, ?_⟩
    obtain ⟨lim, hlim⟩ : ∃ lim : Int, lim =
        (if ((x ++ [b]).length : Int) - ((4 : Nat) : Int) < 0 then 0
          else ((x ++ [b]).length : Int) - ((4 : Nat) : Int)) := ⟨_, rfl⟩
    rw [← hlim] at h
    obtain ⟨v, hv, hvle⟩ : ∃ v : Int, v = lastRuneStart (x ++ [b]) lim 4
        (((x ++ [b]).length : Int) - 1 - 1) ∧ v ≤ ((x ++ [b]).length : Int) - 1 - 1 :=
      ⟨_, rfl, lastRuneStart_le _ _ _ _⟩
    rw [← hv] at h
    obtain ⟨st, hst, hst0, hst1⟩ : ∃ st : Int, st = (if v < 0 then 0 else v)
        ∧ 0 ≤ st ∧ st < ((x ++ [b]).length : Int) := by
      refine ⟨_, rfl, ?_, ?_⟩ <;> split <;> omega
    rw [← hst] at h
    cases hd : DecodeRuneInString ((x ++ [b]).drop st.toNat) with
    | mk r1 size1 =>
      rw [hd] at h
      simp only at h
      by_cases he : st + (size1 : Int) ≠ ((x ++ [b]).length : Int)
      · rw [if_pos he] at h
        simp only [Prod.mk.injEq] at h
        exact Or.inl ⟨h.1.symm, h.2.symm⟩
      · rw [if_neg he] at h
        simp only [Prod.mk.injEq] at h
        obtain ⟨rfl, rfl⟩ := h
        right
        refine ⟨st.toNat, by omega, ?_, hd⟩
        have : st + (size1 : Int) = ((x ++ [b]).length : Int) := by
          by_contra hc
          exact he hc
        omega

theorem firstInfo_range (b sz lo hi : Nat) (h : firstInfo b = some (sz, lo, hi)) :
    0x80 ≤ lo ∧ hi ≤ 0xBF ∧ 2 ≤ sz := by
  unfold firstInfo at h
  split_ifs at h <;> simp at h <;> omega

/-- A byte from `0x80` on that no continuation byte follows decodes to the
replacement of an invalid byte. -/
theorem DecodeRuneInString_stray (b : Nat) (t : Str) (hb : 0x80 ≤ b)
    (ht : ∀ c t1, t = c :: t1 → c < 0x80 ∨ 0xC0 ≤ c) :
    DecodeRuneInString (b :: t) = (RuneError, 1) := by
  unfold DecodeRuneInString
  simp only [RuneSelf, Nat.not_lt.mpr hb, if_false]
  cases hf : firstInfo b with
  | none => rfl
  | some p =>
    obtain ⟨sz, lo, hi⟩ := p
    have hr := firstInfo_range b sz lo hi hf
    simp only
    split
    · rfl
    · rcases t with _ | ⟨c, t1⟩
      · rfl
      · have := ht c t1 rfl
        have hc : c < lo ∨ hi < c := by omega
        simp only [hc, if_true]

/-- The first byte of a text that decodes with a width above one is a byte from
`0x80` on. -/
theorem DecodeRuneInString_lead (s0 : Nat) (t : Str)
    (h : 2 ≤ (DecodeRuneInString (s0 :: t)).2) : 0x80 ≤ s0 := by
  by_contra hc
  have : s0 < 0x80 := by omega
  simp [DecodeRuneInString, RuneSelf, this] at h

/-- A decoding that takes the whole of a text of two bytes or more is the
decoding of any text that starts with it. -/
theorem DecodeRuneInString_append (v W : Str) (r : Nat)
    (h : DecodeRuneInString v = (r, v.length)) (h2 : 2 ≤ v.length) :
    DecodeRuneInString (v ++ W) = (r, v.length) := by
  rcases v with _ | ⟨s0, t⟩
  · simp at h2
  have bad : ∀ {P : Prop}, (RuneError, 1) = (r, (s0 :: t).length) → P := by
    intro P e
    simp only [Prod.mk.injEq] at e
    omega
  unfold DecodeRuneInString at h ⊢
  simp only [RuneSelf, List.cons_append] at h ⊢
  by_cases h0 : s0 < 0x80
  · simp only [h0, if_true, Prod.mk.injEq] at h
    omega
  simp only [h0, if_false] at h ⊢
  cases hf : firstInfo s0 with
  | none =>
    simp only [hf] at h
    exact bad h
  | some p =>
    obtain ⟨sz, lo, hi⟩ := p
    simp only [hf] at h ⊢
    by_cases hlen : (s0 :: t).length < sz
    · simp only [hlen, if_true] at h
      exact bad h
    have hlen2 : ¬ ((s0 :: (t ++ W)).length < sz) := by
      simp only [List.length_cons, List.length_append] at hlen ⊢
      omega
    simp only [hlen, hlen2, if_false] at h ⊢
    rcases t with _ | ⟨s1, t1⟩
    · exact bad h
    simp only [List.cons_append] at h ⊢
    by_cases h1 : s1 < lo ∨ hi < s1
    · simp only [h1, if_true] at h
      exact bad h
    simp only [h1, if_false] at h ⊢
    by_cases hsz2 : sz ≤ 2
    · simp only [hsz2, if_true] at h ⊢
      exact h
    simp only [hsz2, if_false] at h ⊢
    rcases t1 with _ | ⟨s2, t2⟩
    · exact bad h
    simp only [List.cons_append] at h ⊢
    by_cases h2 : s2 < 0x80 ∨ 0xBF < s2
    · simp only [h2, if_true] at h
      exact bad h
    simp only [h2, if_false] at h ⊢
    by_cases hsz3 : sz ≤ 3
    · simp only [hsz3, if_true] at h ⊢
      exact h
    simp only [hsz3, if_false] at h ⊢
    rcases t2 with _ | ⟨s3, t3⟩
    · exact bad h
    simp only [List.cons_append] at h ⊢
    by_cases h3 : s3 < 0x80 ∨ 0xBF < s3
    · simp only [h3, if_true] at h
      exact bad h
    simp only [h3, if_false] at h ⊢
    exact h

/-- When `lastIndexFunc` finds a character that is not white space, what stands
after it is white space only. -/
theorem lastIndexFuncLoop_some (s : Str) (fuel i j : Nat) (hi : i ≤ s.length)
    (h : lastIndexFuncLoop s IsSpace false fuel i = some j) :
    ∃ e r size, 0 < e ∧ e ≤ i ∧ WhiteSpaceOnly ((s.take i).drop e)
      ∧ DecodeLastRuneInString (s.take e) = (r, size) ∧ IsSpace r = false ∧ j = e - size := by
  induction fuel generalizing i with
  | zero => simp [lastIndexFuncLoop] at h
  | succ fuel ih =>
    unfold lastIndexFuncLoop at h
    by_cases h0 : 0 < i
    · simp only [h0, if_true] at h
      cases hd : DecodeLastRuneInString (s.take i) with
      | mk r size =>
        rw [hd] at h
        simp only at h
        by_cases hr : IsSpace r = true
        · simp only [hr, Bool.true_eq_false, if_false] at h
          obtain ⟨k, e1, e2, e3⟩ := DecodeLastRuneInString_space_inv _ r size hd hr
          rw [List.length_take, Nat.min_eq_left hi] at e3
          have hk : i - size = k := by omega
          rw [hk] at h
          obtain ⟨e, r1, size1, he0, hek, hw, hdl, hns, hj⟩ := ih k (by omega) h
          rw [List.take_take, Nat.min_eq_left (by omega)] at e1
          refine ⟨e, r1, size1, he0, by omega, ?_, hdl, hns, hj⟩
          rw [e1, List.drop_append_of_le_length (by rw [List.length_take]; omega)]
          exact WhiteSpaceOnly_append _ _ hw (WhiteSpaceOnly_rune r hr)
        · have hr' : IsSpace r = false := by simpa using hr
          simp only [hr', if_true, Option.some.injEq] at h
          refine ⟨i, r, size, h0, le_refl _, ?_, hd, hr', h.symm⟩
          rw [List.drop_eq_nil_of_le (by rw [List.length_take]; omega)]
          exact WhiteSpaceOnly_nil
    · simp [h0] at h

/-- A text of white space only starts with a byte that is no continuation
byte. -/
theorem WhiteSpaceOnly_no_continuation (W : Str) (h : WhiteSpaceOnly W) :
    ∀ c t1, W = c :: t1 → c < 0x80 ∨ 0xC0 ≤ c := by
  intro c t1 e
  obtain ⟨rs, hrs, e2⟩ := h
  rw [e] at e2
  induction rs with
  | nil => simp at e2
  | cons r rest _ =>
    have hr : IsSpace r = true := hrs r (by simp)
    rw [List.flatMap_cons] at e2
    rcases EncodeRune_space_shape r hr with ⟨h1, he⟩ | ⟨b0, b1, he, h0, _⟩ | ⟨b0, b1, b2, he, h0, _⟩
    · rw [he] at e2
      simp only [List.singleton_append, List.cons.injEq] at e2
      omega
    · rw [he] at e2
      simp only [List.cons_append, List.cons.injEq] at e2
      omega
    · rw [he] at e2
      simp only [List.cons_append, List.cons.injEq] at e2
      omega

theorem getD_of_drop (u : Str) (j c : Nat) (rest : Str) (h : u.drop j = c :: rest) :
    u.getD j 0 = c := by
  have : (u.drop j)[0]? = u[j + 0]? := List.getElem?_drop u j 0
  rw [h] at this
  simp only [List.getElem?_cons_zero, Nat.add_zero] at this
  simp [List.getD_eq_getElem?_getD, ← this]

/-- What `TrimRightFunc` cuts off when `lastIndexFunc` has found the last
character that is not white space, the one that ends at the offset `e`: the
text from `e` on. -/
theorem TrimRightFunc_take (u : Str) (j e r size : Nat) (hl : lastIndexFunc u IsSpace false = some j)
    (he0 : 0 < e) (he : e ≤ u.length) (hw : WhiteSpaceOnly (u.drop e))
    (hd : DecodeLastRuneInString (u.take e) = (r, size)) (hj : j = e - size) :
    TrimRightFunc u IsSpace = u.take e := by
  have hne : u.take e ≠ [] := by
    intro e0
    have := congrArg List.length e0
    simp only [List.length_take, List.length_nil] at this
    omega
  have hsplit : u = u.take e ++ u.drop e := (List.take_append_drop e u).symm
  have hcont := WhiteSpaceOnly_no_continuation _ hw
  unfold TrimRightFunc
  simp only [hl, RuneSelf]
  obtain ⟨x, b, ex, hcase⟩ := DecodeLastRuneInString_cases _ r size hd hne
  have hxl : x.length + 1 = e := by
    have := congrArg List.length ex
    simp only [List.length_take, List.length_append, List.length_singleton] at this
    omega
  have hdropx : u.drop x.length = b :: u.drop e := by
    have h1 : u = x ++ (b :: u.drop e) := by
      conv_lhs => rw [hsplit, ex]
      simp
    conv_lhs => rw [h1]
    rw [List.drop_left]
  have stray : 0x80 ≤ b → j = x.length →
      (if u.getD j 0 ≥ 0x80 then u.take (j + (DecodeRuneInString (u.drop j)).2) else u.take (j + 1))
        = u.take e := by
    intro hb hjx
    rw [hjx, getD_of_drop u _ b _ hdropx, if_pos hb, hdropx,
      DecodeRuneInString_stray b _ hb hcont, hxl]
  rcases hcase with ⟨hb, _, hs⟩ | ⟨hb, hcase⟩
  · have hjx : j = x.length := by omega
    rw [hjx, getD_of_drop u _ b _ hdropx, if_neg (by omega), hxl]
  · rcases hcase with ⟨_, hs⟩ | ⟨k, hk, hks, hdk⟩
    · exact stray hb (by omega)
    · rw [List.length_take, Nat.min_eq_left he] at hk hks
      have hvne : (u.take e).drop k ≠ [] := by
        intro e0
        have := congrArg List.length e0
        simp only [List.length_drop, List.length_take, List.length_nil] at this
        omega
      have hwid := DecodeRuneInString_width _ hvne
      rw [hdk] at hwid
      simp only at hwid
      by_cases hs1 : size = 1
      · exact stray hb (by omega)
      · have hjk : j = k := by omega
        have hvl : ((u.take e).drop k).length = size := by
          simp only [List.length_drop, List.length_take]
          omega
        have hdk2 : DecodeRuneInString ((u.take e).drop k)
            = (r, ((u.take e).drop k).length) := by rw [hvl]; exact hdk
        have happ := DecodeRuneInString_append _ (u.drop e) r hdk2 (by omega)
        have hud : u.drop k = (u.take e).drop k ++ u.drop e := by
          conv_lhs => rw [hsplit]
          rw [List.drop_append_of_le_length (by rw [List.length_take]; omega)]
        rw [← hud, hvl] at happ
        rcases hv : (u.take e).drop k with _ | ⟨c, vt⟩
        · exact absurd hv hvne
        · have hlead : 0x80 ≤ c := by
            apply DecodeRuneInString_lead c vt
            rw [← hv, hdk]
            simp only
            omega
          have hudc : u.drop k = c :: (vt ++ u.drop e) := by rw [hud, hv]; rfl
          rw [hjk, getD_of_drop u k c _ hudc, if_pos hlead, happ]
          simp only
          rw [hks]

/-- What `TrimRightFunc` returns: the text without the white space at its end,
and so a text that ends with no white space character. -/
theorem TrimRightFunc_spec (u : Str) :
    ∃ W, u = TrimRightFunc u IsSpace ++ W ∧ WhiteSpaceOnly W
      ∧ ∀ r, IsSpace r = true → ¬ EncodeRune r <:+ TrimRightFunc u IsSpace := by
  cases hl : lastIndexFunc u IsSpace false with
  | none =>
    have hw := lastIndexFuncLoop_none u u.length u.length (le_refl _) (le_refl _) hl
    rw [List.take_length] at hw
    have ht : TrimRightFunc u IsSpace = [] := by simp [TrimRightFunc, hl]
    rw [ht]
    refine ⟨u, by simp, hw, ?_⟩
    intro r hr hs
    exact EncodeRune_space_ne_nil r hr (List.suffix_nil.mp hs)
  | some j =>
    obtain ⟨e, r, size, he0, he, hw, hd, hns, hj⟩ :=
      lastIndexFuncLoop_some u u.length u.length j (le_refl _) hl
    rw [List.take_length] at hw
    have ht := TrimRightFunc_take u j e r size hl he0 he hw hd hj
    rw [ht]
    refine ⟨u.drop e, (List.take_append_drop e u).symm, hw, ?_⟩
    intro r1 hr1 hs
    obtain ⟨x, ex⟩ := hs
    rw [← ex, DecodeLastRuneInString_space x r1 hr1] at hd
    simp only [Prod.mk.injEq] at hd
    rw [hd.1] at hr1
    rw [hr1] at hns
    cases hns

/-- What `TrimFunc` returns for `unicode.IsSpace` is the text with its leading
and trailing white space removed. -/
theorem TrimFunc_spec (s : Str) : IsTrimOf (TrimFunc s IsSpace) s := by
  unfold TrimFunc
  cases hi : indexFunc s IsSpace false with
  | none =>
    have hw := indexFuncLoop_none s.length s 0 (le_refl _) hi
    have hl : TrimLeftFunc s IsSpace = [] := by simp [TrimLeftFunc, hi]
    have ht : TrimRightFunc [] IsSpace = [] := by
      simp [TrimRightFunc, lastIndexFunc, lastIndexFuncLoop]
    rw [hl, ht]
    refine ⟨s, [], by simp, hw, WhiteSpaceOnly_nil, ?_⟩
    intro r hr
    have hne := EncodeRune_space_ne_nil r hr
    exact ⟨fun h => hne (List.prefix_nil.mp h), fun h => hne (List.suffix_nil.mp h)⟩
  | some j =>
    obtain ⟨pre, rest, e, hp, hj, hne, hs⟩ := indexFuncLoop_some _ _ _ _ hi
    have hl : TrimLeftFunc s IsSpace = rest := by
      simp only [TrimLeftFunc, hi]
      rw [e, hj, Nat.zero_add, List.drop_left]
    rw [hl]
    obtain ⟨W, eW, hW, hsuf⟩ := TrimRightFunc_spec rest
    refine ⟨pre, W, by rw [List.append_assoc, ← eW]; exact e, hp, hW, ?_⟩
    intro r hr
    refine ⟨?_, hsuf r hr⟩
    intro hpre
    obtain ⟨y, ey⟩ := hpre
    have hrest : rest = EncodeRune r ++ (y ++ W) := by
      conv_lhs => rw [eW, ← ey]
      simp
    rw [hrest, DecodeRuneInString_space r _ hr] at hs
    simp only at hs
    rw [hr] at hs
    cases hs

/-- What the second loop of `strings.TrimSpace` returns on a text that starts
with an ASCII byte that is no white space, when only ASCII white space stands
from the offset `n` on: the text without the white space at its end. -/
theorem trimSpaceStop_spec (c : Nat) (t : Str) (hsp : asciiSpace c = false)
    (n : Nat) (hn : n ≤ (c :: t).length) (hall : ∀ x ∈ (c :: t).drop n, asciiSpace x = true) :
    ∃ W, c :: t = trimSpaceStop (c :: t) n ++ W ∧ WhiteSpaceOnly W
      ∧ ∀ r, IsSpace r = true → ¬ EncodeRune r <:+ trimSpaceStop (c :: t) n := by
  induction n with
  | zero =>
    exfalso
    have := hall c (by simp)
    rw [hsp] at this
    cases this
  | succ k ih =>
    have hk : k < (c :: t).length := hn
    have hget : (c :: t).getD k 0 = (c :: t)[k] := by
      simp [List.getD_eq_getElem?_getD, List.getElem?_eq_getElem hk]
    have htake : (c :: t).take (k + 1) = (c :: t).take k ++ [(c :: t)[k]] := by
      rw [List.take_succ, List.getElem?_eq_getElem hk]; rfl
    have hW : WhiteSpaceOnly ((c :: t).drop (k + 1)) := WhiteSpaceOnly_ascii _ hall
    unfold trimSpaceStop
    simp only [RuneSelf, hget]
    split_ifs with ha hb
    · obtain ⟨W, eW, hW1, hsuf⟩ := TrimRightFunc_spec ((c :: t).take (k + 1))
      refine ⟨W ++ (c :: t).drop (k + 1), ?_, WhiteSpaceOnly_append _ _ hW1 hW, hsuf⟩
      rw [← List.append_assoc, ← eW, List.take_append_drop]
    · refine ⟨(c :: t).drop (k + 1), (List.take_append_drop _ _).symm, hW, ?_⟩
      intro r hr hs
      rw [htake] at hs
      obtain ⟨y, ey⟩ := hs
      have hne := EncodeRune_space_ne_nil r hr
      have hlast := congrArg List.getLast? ey
      rw [List.getLast?_append_of_ne_nil _ hne, List.getLast?_append_of_ne_nil _ (by simp)] at hlast
      simp only [List.getLast?_singleton] at hlast
      rcases EncodeRune_space_last r _ hr hlast with ⟨h1, _, h3⟩ | h1
      · rw [h3, h1] at hb
        simp at hb
      · omega
    · have hsp2 : asciiSpace (c :: t)[k] = true := by simpa using hb
      apply ih (by omega)
      intro x hx
      rw [List.drop_eq_getElem_cons hk] at hx
      rcases List.mem_cons.mp hx with hx | hx
      · rw [hx]; exact hsp2
      · exact hall x hx

/-- What `strings.TrimSpace` returns is the text with its leading and trailing
white space removed and every other byte unchanged. -/
theorem TrimSpace_spec (s : Str) : IsTrimOf (TrimSpace s) s := by
  unfold TrimSpace
  induction s with
  | nil =>
    refine ⟨[], [], by simp [trimSpaceStart], WhiteSpaceOnly_nil, WhiteSpaceOnly_nil, ?_⟩
    intro r hr
    have hne := EncodeRune_space_ne_nil r hr
    simp only [trimSpaceStart]
    exact ⟨fun h => hne (List.prefix_nil.mp h), fun h => hne (List.suffix_nil.mp h)⟩
  | cons c t ih =>
    by_cases hc : 0x80 ≤ c
    · rw [trimSpaceStart_other c t hc]
      exact TrimFunc_spec _
    · by_cases hsp : asciiSpace c = true
      · rw [trimSpaceStart_space c t hsp]
        obtain ⟨pre, suf, e, hp, hs, hm⟩ := ih
        refine ⟨c :: pre, suf, by simpa using congrArg (List.cons c) e, ?_, hs, hm⟩
        have : WhiteSpaceOnly [c] := WhiteSpaceOnly_ascii [c] (by simpa using hsp)
        exact WhiteSpaceOnly_append [c] pre this hp
      · have hsp' : asciiSpace c = false := by simpa using hsp
        have hstart : trimSpaceStart (c :: t) = trimSpaceStop (c :: t) (c :: t).length := by
          rw [trimSpaceStart]
          simp only [RuneSelf, ge_iff_le, hc, if_false, hsp', Bool.not_false, if_true]
        rw [hstart]
        obtain ⟨W, eW, hW, hsuf⟩ := trimSpaceStop_spec c t hsp' _ (le_refl _)
          (by simp)
        refine ⟨[], W, by simpa using eW, WhiteSpaceOnly_nil, hW, ?_⟩
        intro r hr
        refine ⟨?_, hsuf r hr⟩
        intro hpre
        obtain ⟨y, ey⟩ := hpre
        have hcy : c :: t = EncodeRune r ++ (y ++ W) := by
          conv_lhs => rw [eW, ← ey]
          simp
        have hwhole : WhiteSpaceOnly (EncodeRune r) := WhiteSpaceOnly_rune r hr
        rcases hE : EncodeRune r with _ | ⟨b, bt⟩
        · exact EncodeRune_space_ne_nil r hr hE
        · rw [hE] at hcy hwhole
          simp only [List.cons_append, List.cons.injEq] at hcy
          rcases WhiteSpaceOnly_head b bt hwhole with h1 | h1
          · rw [← hcy.1, hsp'] at h1
            cases h1
          · omega

/-! ## The trimmed text is determined by the text -/

/-- When the encoding of a white space character starts a text that goes on
with white space only, it starts already the part before that white space, if
that part is not empty. -/
theorem space_starts_part (r : Nat) (m suf : Str) (hr : IsSpace r = true) (hm : m ≠ [])
    (hs : WhiteSpaceOnly suf) (h : EncodeRune r <+: m ++ suf) : EncodeRune r <+: m := by
  have hcont := WhiteSpaceOnly_no_continuation suf hs
  obtain ⟨y, ey⟩ := h
  rcases EncodeRune_space_shape r hr with ⟨_, he⟩ | ⟨b0, b1, he, _, h1⟩
    | ⟨b0, b1, b2, he, _, h1, h2⟩
  · rw [he] at ey ⊢
    rcases m with _ | ⟨c, mt⟩
    · exact absurd rfl hm
    · simp only [List.singleton_append, List.cons_append, List.cons.injEq] at ey
      rw [ey.1]
      exact ⟨mt, rfl⟩
  · rw [he] at ey ⊢
    rcases m with _ | ⟨c, _ | ⟨d, mt⟩⟩
    · exact absurd rfl hm
    · simp only [List.cons_append, List.nil_append, List.cons.injEq] at ey
      have := hcont b1 y ey.2.symm
      omega
    · simp only [List.cons_append, List.nil_append, List.cons.injEq] at ey
      rw [ey.1, ey.2.1]
      exact ⟨mt, rfl⟩
  · rw [he] at ey ⊢
    rcases m with _ | ⟨c, _ | ⟨d, _ | ⟨f, mt⟩⟩⟩
    · exact absurd rfl hm
    · simp only [List.cons_append, List.nil_append, List.cons.injEq] at ey
      have := hcont b1 (b2 :: y) ey.2.symm
      omega
    · simp only [List.cons_append, List.nil_append, List.cons.injEq] at ey
      have := hcont b2 y ey.2.2.symm
      omega
    · simp only [List.cons_append, List.nil_append, List.cons.injEq] at ey
      rw [ey.1, ey.2.1, ey.2.2.1]
      exact ⟨mt, rfl⟩

/-- Two texts that start with encodings of white space characters and are equal
start with the same character. -/
theorem space_token_eq (r r1 : Nat) (a b : Str) (hr : IsSpace r = true) (hr1 : IsSpace r1 = true)
    (h : EncodeRune r ++ a = EncodeRune r1 ++ b) : r = r1 ∧ a = b := by
  have h1 := DecodeRuneInString_space r a hr
  have h2 := DecodeRuneInString_space r1 b hr1
  rw [h, h2] at h1
  simp only [Prod.mk.injEq] at h1
  have e := h1.1.symm
  subst e
  exact ⟨rfl, List.append_cancel_left h⟩

/-- The same at the end of two texts. -/
theorem space_token_eq_end (r r1 : Nat) (a b : Str) (hr : IsSpace r = true)
    (hr1 : IsSpace r1 = true) (h : a ++ EncodeRune r = b ++ EncodeRune r1) : r = r1 ∧ a = b := by
  have h1 := DecodeLastRuneInString_space a r hr
  have h2 := DecodeLastRuneInString_space b r1 hr1
  rw [h, h2] at h1
  simp only [Prod.mk.injEq] at h1
  have e := h1.1.symm
  subst e
  exact ⟨rfl, List.append_cancel_right h⟩

/-- White space only, with white space only taken off its start, is white space
only. -/
theorem WhiteSpaceOnly_cancel (rs : List Nat) (hrs : ∀ r ∈ rs, IsSpace r = true) (b : Str)
    (h : WhiteSpaceOnly (rs.flatMap EncodeRune ++ b)) : WhiteSpaceOnly b := by
  induction rs with
  | nil => simpa using h
  | cons r rest ih =>
    have hr : IsSpace r = true := hrs r (by simp)
    apply ih (fun x hx => hrs x (by simp [hx]))
    obtain ⟨ts, hts, e⟩ := h
    rcases ts with _ | ⟨t0, ts1⟩
    · exfalso
      have hne := EncodeRune_space_ne_nil r hr
      rw [List.flatMap_cons] at e
      simp only [List.flatMap_nil, List.append_eq_nil] at e
      exact hne e.1.1
    · rw [List.flatMap_cons, List.flatMap_cons, List.append_assoc] at e
      obtain ⟨_, e2⟩ := space_token_eq r t0 _ _ hr (hts t0 (by simp)) e
      exact ⟨ts1, fun x hx => hts x (by simp [hx]), e2⟩

theorem trim_align_start (rs rs1 : List Nat) (hrs : ∀ r ∈ rs, IsSpace r = true)
    (hrs1 : ∀ r ∈ rs1, IsSpace r = true) (m m1 suf suf1 : Str) (hm : m ≠ []) (hm1 : m1 ≠ [])
    (hn : NoSpaceAtEnds m) (hn1 : NoSpaceAtEnds m1) (hs : WhiteSpaceOnly suf)
    (hs1 : WhiteSpaceOnly suf1)
    (h : rs.flatMap EncodeRune ++ (m ++ suf) = rs1.flatMap EncodeRune ++ (m1 ++ suf1)) :
    m ++ suf = m1 ++ suf1 := by
  induction rs generalizing rs1 with
  | nil =>
    rcases rs1 with _ | ⟨r1, rest1⟩
    · simpa using h
    · exfalso
      have hr1 : IsSpace r1 = true := hrs1 r1 (by simp)
      simp only [List.flatMap_nil, List.nil_append, List.flatMap_cons, List.append_assoc] at h
      exact (hn r1 hr1).1 (space_starts_part r1 m suf hr1 hm hs ⟨_, h.symm⟩)
  | cons r rest ih =>
    have hr : IsSpace r = true := hrs r (by simp)
    rcases rs1 with _ | ⟨r1, rest1⟩
    · exfalso
      simp only [List.flatMap_nil, List.nil_append, List.flatMap_cons, List.append_assoc] at h
      exact (hn1 r hr).1 (space_starts_part r m1 suf1 hr hm1 hs1 ⟨_, h⟩)
    · have hr1 : IsSpace r1 = true := hrs1 r1 (by simp)
      simp only [List.flatMap_cons, List.append_assoc] at h
      obtain ⟨_, e2⟩ := space_token_eq r r1 _ _ hr hr1 h
      exact ih rest1 (fun x hx => hrs x (by simp [hx])) (fun x hx => hrs1 x (by simp [hx])) e2

theorem trim_align_end (rs rs1 : List Nat) (hrs : ∀ r ∈ rs, IsSpace r = true)
    (hrs1 : ∀ r ∈ rs1, IsSpace r = true) (m m1 : Str)
    (hn : NoSpaceAtEnds m) (hn1 : NoSpaceAtEnds m1)
    (h : m ++ rs.flatMap EncodeRune = m1 ++ rs1.flatMap EncodeRune) : m = m1 := by
  induction rs using List.reverseRecOn generalizing rs1 with
  | nil =>
    rcases List.eq_nil_or_concat rs1 with rfl | ⟨rest1, r1, rfl⟩
    · simpa using h
    · exfalso
      have hr1 : IsSpace r1 = true := hrs1 r1 (by simp)
      simp only [List.flatMap_nil, List.append_nil, List.concat_eq_append, List.flatMap_append,
        List.flatMap_cons] at h
      exact (hn r1 hr1).2 ⟨m1 ++ rest1.flatMap EncodeRune, by rw [h]; simp⟩
  | append_singleton rest r ih =>
    have hr : IsSpace r = true := hrs r (by simp)
    rcases List.eq_nil_or_concat rs1 with rfl | ⟨rest1, r1, rfl⟩
    · exfalso
      simp only [List.flatMap_nil, List.append_nil, List.flatMap_append,
        List.flatMap_cons] at h
      exact (hn1 r hr).2 ⟨m ++ rest.flatMap EncodeRune, by rw [← h]; simp⟩
    · have hr1 : IsSpace r1 = true := hrs1 r1 (by simp)
      simp only [List.concat_eq_append, List.flatMap_append, List.flatMap_cons, List.flatMap_nil,
        List.append_nil, ← List.append_assoc] at h
      obtain ⟨_, e2⟩ := space_token_eq_end r r1 _ _ hr hr1 h
      exact ih rest1 (fun x hx => hrs x (by simp [hx])) (fun x hx => hrs1 x (by simp [hx])) e2

/-- A text that is white space only has the empty text as its only trimmed
text. -/
theorem IsTrimOf_spaces (m s : Str) (hs : WhiteSpaceOnly s) (h : IsTrimOf m s) : m = [] := by
  obtain ⟨pre, suf, e, ⟨rs, hrs, rfl⟩, hsuf, hn⟩ := h
  by_contra hm
  rw [e, List.append_assoc] at hs
  obtain ⟨ts, hts, e2⟩ := WhiteSpaceOnly_cancel rs hrs _ hs
  rcases ts with _ | ⟨t0, ts1⟩
  · simp only [List.flatMap_nil, List.append_eq_nil] at e2
    exact hm e2.1
  · have ht0 : IsSpace t0 = true := hts t0 (by simp)
    rw [List.flatMap_cons] at e2
    exact (hn t0 ht0).1 (space_starts_part t0 m suf ht0 hm hsuf ⟨_, e2.symm⟩)

/-- A text has one trimmed text only. -/
theorem IsTrimOf_unique (m m1 s : Str) (h : IsTrimOf m s) (h1 : IsTrimOf m1 s) : m = m1 := by
  by_cases hm : m = []
  · subst hm
    obtain ⟨pre, suf, e, hp, hsuf, _⟩ := h
    have hs : WhiteSpaceOnly s := by
      rw [e]
      simpa using WhiteSpaceOnly_append _ _ hp hsuf
    exact (IsTrimOf_spaces m1 s hs h1).symm
  · by_cases hm1 : m1 = []
    · subst hm1
      obtain ⟨pre, suf, e, hp, hsuf, _⟩ := h1
      have hs : WhiteSpaceOnly s := by
        rw [e]
        simpa using WhiteSpaceOnly_append _ _ hp hsuf
      exact IsTrimOf_spaces m s hs h
    · obtain ⟨pre, suf, e, ⟨rs, hrs, rfl⟩, hsuf, hn⟩ := h
      obtain ⟨pre1, suf1, e1, ⟨rs1, hrs1, rfl⟩, hsuf1, hn1⟩ := h1
      have hsuf' := hsuf
      have hsuf1' := hsuf1
      obtain ⟨ss, hss, rfl⟩ := hsuf
      obtain ⟨ss1, hss1, rfl⟩ := hsuf1
      rw [e, List.append_assoc, List.append_assoc] at e1
      have := trim_align_start rs rs1 hrs hrs1 m m1 _ _ hm hm1 hn hn1 hsuf' hsuf1' e1
      exact trim_align_end ss ss1 hss hss1 m m1 hn hn1 this

/-- The text that `strings.TrimSpace` returns is the text with its leading and
trailing white space removed, and it is the only such text. -/
theorem TrimSpace_eq_iff (s m : Str) : TrimSpace s = m ↔ IsTrimOf m s := by
  constructor
  · rintro rfl
    exact TrimSpace_spec s
  · intro h
    exact IsTrimOf_unique _ _ s (TrimSpace_spec s) h

/-- The newline that ends a line is trailing white space: the line is trimmed to
the same text with it and without it. -/
theorem TrimSpace_line (l : Str) : TrimSpace (l ++ [0x0A]) = TrimSpace l := by
  rw [TrimSpace_eq_iff]
  obtain ⟨pre, suf, e, hp, hs, hn⟩ := TrimSpace_spec l
  refine ⟨pre, suf ++ [0x0A], ?_, hp, ?_, hn⟩
  · conv_lhs => rw [e]
    simp
  · exact WhiteSpaceOnly_line suf hs

/-- The text to which `strings.TrimSpace` trims a line with its newline is the
one text that is the line with its leading and trailing white space removed. -/
theorem TrimSpace_line_iff (l m : Str) : TrimSpace (l ++ [0x0A]) = m ↔ IsTrimOf m l := by
  rw [TrimSpace_line, TrimSpace_eq_iff]

theorem NoSpaceAtEnds_single (c : Nat) (hs : asciiSpace c = false) :
    NoSpaceAtEnds [c] := by
  intro r hr
  have key : ∀ x, EncodeRune r ++ x ≠ [c] ∧ x ++ EncodeRune r ≠ [c] := by
    intro x
    rcases EncodeRune_space_shape r hr with ⟨h1, he⟩ | ⟨b0, b1, he, _, _⟩
      | ⟨b0, b1, b2, he, _, _, _⟩
    · rw [he]
      have hsp : asciiSpace r = true := by
        rcases EncodeRune_space_form r hr with ⟨ha, _⟩ | ⟨b, t, he2, hb⟩
        · exact ha
        · rw [he] at he2
          simp only [List.cons.injEq] at he2
          omega
      constructor
      · intro e
        simp only [List.singleton_append, List.cons.injEq] at e
        rw [e.1, hs] at hsp
        cases hsp
      · intro e
        have := congrArg List.getLast? e
        simp only [List.getLast?_append_of_ne_nil _ (List.cons_ne_nil r []),
          List.getLast?_singleton, Option.some.injEq] at this
        rw [this, hs] at hsp
        cases hsp
    · rw [he]
      constructor <;> intro e <;> have := congrArg List.length e <;> simp at this
    · rw [he]
      constructor <;> intro e <;> have := congrArg List.length e <;> simp at this
  exact ⟨fun ⟨x, ex⟩ => (key x).1 ex, fun ⟨x, ex⟩ => (key x).2 ex⟩

theorem NoSpaceAtEnds_y : NoSpaceAtEnds (lit "y") :=
  NoSpaceAtEnds_single 0x79 (by decide)

theorem NoSpaceAtEnds_Y : NoSpaceAtEnds (lit "Y") :=
  NoSpaceAtEnds_single 0x59 (by decide)

/-! ## `accept` and `readString` -/

theorem accept_line (msg : Str) (con : Console) (l rest : Str) (hl : 0x0A ∉ l)
    (hin : con.stdin = l ++ 0x0A :: rest) :
    accept msg con
      = .ok (decide (TrimSpace (l ++ [0x0A]) = lit "y" ∨ TrimSpace (l ++ [0x0A]) = lit "Y"))
          { stdin := rest, stdout := con.stdout ++ (msg ++ lit " (y/N): ") } := by
  simp [accept, ReadString, Print, hin, splitDelim_append _ _ _ hl, check]

theorem accept_eof (msg : Str) (con : Console) (h : 0x0A ∉ con.stdin) :
    accept msg con = .fatal (.panic EOF)
      { stdin := [],
        stdout := con.stdout ++ (msg ++ lit " (y/N): ")
          ++ lit "cannot cannot read console: EOF\n" } := by
  simp [accept, ReadString, Print, splitDelim_none _ _ h, check]
  decide

theorem readString_line (msg defaultText : Str) (con : Console) (l rest : Str)
    (hl : 0x0A ∉ l) (hin : con.stdin = l ++ 0x0A :: rest) :
    readString msg defaultText con
      = .ok (if TrimSpace (l ++ [0x0A]) = [] then defaultText else TrimSpace (l ++ [0x0A]))
          { stdin := rest,
            stdout := con.stdout ++ msg
              ++ (if defaultText = [] then [] else lit " [" ++ defaultText ++ lit "]")
              ++ lit ": " } := by
  by_cases hd : defaultText = []
  · simp [readString, ReadString, Print, hin, splitDelim_append _ _ _ hl, check, hd]
  · have : 0 < defaultText.length := List.length_pos.mpr hd
    simp [readString, ReadString, Print, hin, splitDelim_append _ _ _ hl, check, hd, this]

theorem readString_eof (msg defaultText : Str) (con : Console) (h : 0x0A ∉ con.stdin) :
    readString msg defaultText con = .fatal (.panic EOF)
      { stdin := [],
        stdout := con.stdout ++ msg
          ++ (if defaultText = [] then [] else lit " [" ++ defaultText ++ lit "]") ++ lit ": "
          ++ lit "cannot cannot read console: EOF\n" } := by
  have h1 : splitDelim 10 con.stdin = none := splitDelim_none _ _ h
  by_cases hd : defaultText = []
  · simp [readString, ReadString, Print, h1, check, hd]
    decide
  · have : 0 < defaultText.length := List.length_pos.mpr hd
    simp [readString, ReadString, Print, h1, check, hd, this]
    decide

theorem accept_ok (msg : Str) (con con1 : Console) (v : Bool)
    (h : accept msg con = .ok v con1) :
    ∃ l, 0x0A ∉ l ∧ con.stdin = l ++ 0x0A :: con1.stdin
      ∧ con1.stdout = con.stdout ++ (msg ++ lit " (y/N): ")
      ∧ v = decide (TrimSpace (l ++ [0x0A]) = lit "y" ∨ TrimSpace (l ++ [0x0A]) = lit "Y") := by
  by_cases hm : 0x0A ∈ con.stdin
  · obtain ⟨l, rest, hl, e⟩ := first_split _ _ hm
    rw [accept_line msg con l rest hl e] at h
    injection h with h1 h2
    subst h1 h2
    exact ⟨l, hl, e, rfl, rfl⟩
  · rw [accept_eof msg con hm] at h
    cases h

theorem readString_ok (msg defaultText : Str) (con con1 : Console) (v : Str)
    (h : readString msg defaultText con = .ok v con1) :
    ∃ l, 0x0A ∉ l ∧ con.stdin = l ++ 0x0A :: con1.stdin
      ∧ con1.stdout = con.stdout ++ msg
          ++ (if defaultText = [] then [] else lit " [" ++ defaultText ++ lit "]") ++ lit ": "
      ∧ v = (if TrimSpace (l ++ [0x0A]) = [] then defaultText else TrimSpace (l ++ [0x0A])) := by
  by_cases hm : 0x0A ∈ con.stdin
  · obtain ⟨l, rest, hl, e⟩ := first_split _ _ hm
    rw [readString_line msg defaultText con l rest hl e] at h
    injection h with h1 h2
    subst h1 h2
    exact ⟨l, hl, e, rfl, rfl⟩
  · rw [readString_eof msg defaultText con hm] at h
    cases h

/-- C4: for every input line that is read successfully, `accept` returns true if
and only if the line with its leading and trailing white space removed is
exactly `y` or `Y`: the line is `y` or `Y` between two stretches of white
space, each possibly empty.  It consumes that line and prints the question. -/
theorem accept_true_iff_trimmed_y (msg : Str) (con : Console) (l rest : Str)
    (hl : 0x0A ∉ l) (hin : con.stdin = l ++ 0x0A :: rest) :
    ∃ b, accept msg con
          = .ok b { stdin := rest, stdout := con.stdout ++ (msg ++ lit " (y/N): ") }
      ∧ (b = true ↔ TrimSpace (l ++ [0x0A]) = lit "y" ∨ TrimSpace (l ++ [0x0A]) = lit "Y")
      ∧ (b = true ↔ IsTrimOf (lit "y") l ∨ IsTrimOf (lit "Y") l)
      ∧ (b = true ↔ ∃ pre suf, WhiteSpaceOnly pre ∧ WhiteSpaceOnly suf
            ∧ (l = pre ++ lit "y" ++ suf ∨ l = pre ++ lit "Y" ++ suf)) := by
  refine ⟨_, accept_line msg con l rest hl hin, by simp, ?_, ?_⟩
  · simp only [decide_eq_true_eq, TrimSpace_line_iff]
  · simp only [decide_eq_true_eq, TrimSpace_line_iff]
    constructor
    · rintro (⟨pre, suf, e, hp, hs, _⟩ | ⟨pre, suf, e, hp, hs, _⟩)
      · exact ⟨pre, suf, hp, hs, Or.inl e⟩
      · exact ⟨pre, suf, hp, hs, Or.inr e⟩
    · rintro ⟨pre, suf, hp, hs, e | e⟩
      · exact Or.inl ⟨pre, suf, e, hp, hs, NoSpaceAtEnds_y⟩
      · exact Or.inr ⟨pre, suf, e, hp, hs, NoSpaceAtEnds_Y⟩

/-- C4, at concrete lines: ` Y ` followed by a carriage return is accepted. -/
theorem accept_true_iff_trimmed_y_witness :
    (0x0A ∉ lit " Y \r" ∧ (consoleOf (lit " Y \r\nnetkit\n")).stdin = lit " Y \r" ++ 0x0A :: lit "netkit\n")
    ∧ ∃ b, accept (lit "create makefile?") (consoleOf (lit " Y \r\nnetkit\n"))
          = .ok b { stdin := lit "netkit\n",
                    stdout := (consoleOf (lit " Y \r\nnetkit\n")).stdout
                      ++ (lit "create makefile?" ++ lit " (y/N): ") }
        ∧ (b = true ↔ TrimSpace (lit " Y \r" ++ [0x0A]) = lit "y"
              ∨ TrimSpace (lit " Y \r" ++ [0x0A]) = lit "Y")
        ∧ (b = true ↔ IsTrimOf (lit "y") (lit " Y \r") ∨ IsTrimOf (lit "Y") (lit " Y \r"))
        ∧ (b = true ↔ ∃ pre suf, WhiteSpaceOnly pre ∧ WhiteSpaceOnly suf
              ∧ (lit " Y \r" = pre ++ lit "y" ++ suf ∨ lit " Y \r" = pre ++ lit "Y" ++ suf)) :=
  ⟨⟨by decide, by decide⟩,
    accept_true_iff_trimmed_y (lit "create makefile?") (consoleOf (lit " Y \r\nnetkit\n"))
      (lit " Y \r") (lit "netkit\n") (by decide) (by decide)⟩

/-- The answers of `accept` to `y`, `Y`, the empty line, `yes`, `N` and `n`. -/
theorem accept_examples :
    (accept (lit "ok?") (consoleOf (lit "y\n"))).val? = some true
    ∧ (accept (lit "ok?") (consoleOf (lit "Y\n"))).val? = some true
    ∧ (accept (lit "ok?") (consoleOf (lit "  y \t\r\n"))).val? = some true
    ∧ (accept (lit "ok?") (consoleOf (lit "\n"))).val? = some false
    ∧ (accept (lit "ok?") (consoleOf (lit "yes\n"))).val? = some false
    ∧ (accept (lit "ok?") (consoleOf (lit "N\n"))).val? = some false
    ∧ (accept (lit "ok?") (consoleOf (lit "n\n"))).val? = some false
    ∧ (accept (lit "ok?") (consoleOf (lit "y y\n"))).val? = some false := by
  decide

/-- C5: for every default text and every input line that is read successfully,
`readString` returns the default when the trimmed line is empty and the trimmed
line otherwise, consumes that line and prints the question with a non-empty
default in brackets.  The trimmed line is the one text that is the line with its
leading and trailing white space removed and every other byte unchanged; it is
empty exactly when the line is empty or holds white space only; and on a line of
ASCII characters it is the line without its leading and trailing ASCII white
space. -/
theorem readString_default_or_trimmed (msg defaultText : Str) (con : Console) (l rest : Str)
    (hl : 0x0A ∉ l) (hin : con.stdin = l ++ 0x0A :: rest) :
    readString msg defaultText con
      = .ok (if TrimSpace (l ++ [0x0A]) = [] then defaultText else TrimSpace (l ++ [0x0A]))
          { stdin := rest,
            stdout := con.stdout ++ msg
              ++ (if defaultText = [] then [] else lit " [" ++ defaultText ++ lit "]")
              ++ lit ": " }
    ∧ (∀ m, TrimSpace (l ++ [0x0A]) = m ↔ IsTrimOf m l)
    ∧ (TrimSpace (l ++ [0x0A]) = [] ↔ WhiteSpaceOnly l)
    ∧ ((∀ c ∈ l, c < 0x80) → TrimSpace (l ++ [0x0A]) = asciiTrim l) :=
  ⟨readString_line msg defaultText con l rest hl hin, TrimSpace_line_iff l,
    TrimSpace_line_eq_nil_iff l, TrimSpace_ascii_line l⟩

/-- C5, at concrete lines: the line `  net kit ` gives `net kit`. -/
theorem readString_default_or_trimmed_witness :
    (0x0A ∉ lit "  net kit " ∧ (consoleOf (lit "  net kit \nrest")).stdin = lit "  net kit " ++ 0x0A :: lit "rest")
    ∧ readString (lit "name") (lit "demo") (consoleOf (lit "  net kit \nrest"))
        = .ok (lit "net kit") { stdin := lit "rest", stdout := lit "name [demo]: " } := by
  refine ⟨⟨by decide, by decide⟩, ?_⟩
  have h := (readString_default_or_trimmed (lit "name") (lit "demo")
    (consoleOf (lit "  net kit \nrest")) (lit "  net kit ") (lit "rest") (by decide) (by decide)).1
  rw [h]
  decide

/-- The answers of `readString` to an empty line, a line of white space, and a
line with text, with and without a default. -/
theorem readString_examples :
    (readString (lit "name") (lit "demo") (consoleOf (lit "\n"))).val? = some (lit "demo")
    ∧ (readString (lit "name") (lit "demo") (consoleOf (lit " \t \r\n"))).val? = some (lit "demo")
    ∧ (readString (lit "name") (lit "") (consoleOf (lit " \t \r\n"))).val? = some (lit "")
    ∧ (readString (lit "name") (lit "demo") (consoleOf (lit " netkit\r\n"))).val?
        = some (lit "netkit")
    ∧ (readString (lit "name") (lit "demo") (consoleOf (lit "é \n"))).val? = some (lit "é") := by
  decide

/-! ## The getters, call by call -/

theorem BinaryName_resolved (c : Config) (con : Console) (name : Str)
    (h : c.binaryName = some name) : c.BinaryName con = .ok name (c, con) := by
  simp [Config.BinaryName, h]

theorem BinaryName_first_ok (c : Config) (con con1 : Console) (tmp : Str)
    (h : c.binaryName = none)
    (hr : readString (lit "enter the name of the executable binary") (Base c.pkg.ImportPath) con
      = .ok tmp con1) :
    c.BinaryName con = .ok tmp ({ c with binaryName := some tmp }, con1) := by
  simp [Config.BinaryName, h, hr]

theorem BinaryName_first_fatal (c : Config) (con con1 : Console) (f : Fatal)
    (h : c.binaryName = none)
    (hr : readString (lit "enter the name of the executable binary") (Base c.pkg.ImportPath) con
      = .fatal f con1) :
    c.BinaryName con = .fatal f (c, con1) := by
  simp [Config.BinaryName, h, hr]

theorem IsLibrary_resolved (c : Config) (con : Console) (lib : Bool)
    (h : c.isLibrary = some lib) : c.IsLibrary con = .ok lib (c, con) := by
  simp [Config.IsLibrary, h]

theorem IsLibrary_first_ok (c : Config) (con con1 : Console) (tmp : Bool)
    (h : c.isLibrary = none)
    (hr : accept (lit "project is a library only") con = .ok tmp con1) :
    c.IsLibrary con = .ok tmp ({ c with isLibrary := some tmp }, con1) := by
  simp [Config.IsLibrary, h, hr]

theorem IsLibrary_first_fatal (c : Config) (con con1 : Console) (f : Fatal)
    (h : c.isLibrary = none)
    (hr : accept (lit "project is a library only") con = .fatal f con1) :
    c.IsLibrary con = .fatal f (c, con1) := by
  simp [Config.IsLibrary, h, hr]

theorem MainPath_resolved (c : Config) (con : Console) (path : Str)
    (h : c.mainPath = some path) : c.MainPath con = .ok path (c, con) := by
  simp [Config.MainPath, h]

theorem MainPath_first_fatal (c c1 : Config) (con con1 : Console) (f : Fatal)
    (h : c.mainPath = none) (hl : c.IsLibrary con = .fatal f (c1, con1)) :
    c.MainPath con = .fatal f (c1, con1) := by
  simp [Config.MainPath, h, hl]

theorem MainPath_first_library (c c1 : Config) (con con1 : Console)
    (h : c.mainPath = none) (hl : c.IsLibrary con = .ok true (c1, con1)) :
    c.MainPath con = .ok c1.ModulePath ({ c1 with mainPath := some c1.ModulePath }, con1) := by
  simp [Config.MainPath, h, hl]

theorem MainPath_first_app_ok (c c1 : Config) (con con1 con2 : Console) (tmp : Str)
    (h : c.mainPath = none) (hl : c.IsLibrary con = .ok false (c1, con1))
    (hr : readString (mainPathQuestion c1).1 (mainPathQuestion c1).2 con1 = .ok tmp con2) :
    c.MainPath con = .ok tmp ({ c1 with mainPath := some tmp }, con2) := by
  unfold mainPathQuestion at hr
  by_cases hn : c1.pkg.Name = lit "main"
  · simp only [hn, if_true] at hr
    simp [Config.MainPath, h, hl, hn, hr]
  · simp only [hn, if_false] at hr
    simp only [List.append_assoc] at hr
    simp [Config.MainPath, h, hl, hn, hr]

theorem MainPath_first_app_fatal (c c1 : Config) (con con1 con2 : Console) (f : Fatal)
    (h : c.mainPath = none) (hl : c.IsLibrary con = .ok false (c1, con1))
    (hr : readString (mainPathQuestion c1).1 (mainPathQuestion c1).2 con1 = .fatal f con2) :
    c.MainPath con = .fatal f (c1, con2) := by
  unfold mainPathQuestion at hr
  by_cases hn : c1.pkg.Name = lit "main"
  · simp only [hn, if_true] at hr
    simp [Config.MainPath, h, hl, hn, hr]
  · simp only [hn, if_false] at hr
    simp only [List.append_assoc] at hr
    simp [Config.MainPath, h, hl, hn, hr]

theorem ArtifactName_library_fatal (up : Nat → Nat) (c : Config) (con : Console) (f : Fatal)
    (st : Config × Console) (h : c.IsLibrary con = .fatal f st) :
    c.ArtifactName up con = .fatal f st := by
  simp [Config.ArtifactName, h]

theorem ArtifactName_name_fatal (up : Nat → Nat) (c c1 : Config) (con con1 : Console)
    (lib : Bool) (f : Fatal) (st : Config × Console)
    (h : c.IsLibrary con = .ok lib (c1, con1)) (hn : c1.BinaryName con1 = .fatal f st) :
    c.ArtifactName up con = .fatal f st := by
  simp [Config.ArtifactName, h, hn]

/-- The value of `ArtifactName` once both getters have returned: the slice
expressions stop the program on an empty name of a library. -/
theorem ArtifactName_resolved (up : Nat → Nat) (c c1 c2 : Config) (con con1 con2 : Console)
    (lib : Bool) (name : Str)
    (h : c.IsLibrary con = .ok lib (c1, con1)) (hn : c1.BinaryName con1 = .ok name (c2, con2)) :
    c.ArtifactName up con =
      if lib = true ∧ name = [] then .fatal .sliceBounds (c2, con2)
      else .ok (if lib then lit "lib" ++ ToUpper up (name.take 1) ++ name.drop 1 else name)
        (c2, con2) := by
  cases lib with
  | false => simp [Config.ArtifactName, h, hn]
  | true =>
    cases name with
    | nil => simp [Config.ArtifactName, h, hn]
    | cons b t => simp [Config.ArtifactName, h, hn]

/-- What a returning call of `BinaryName` did: nothing on a resolved name, and
else it read one line and stored the name. -/
theorem BinaryName_ok (c c1 : Config) (con con1 : Console) (v : Str)
    (h : c.BinaryName con = .ok v (c1, con1)) :
    (c.binaryName = some v ∧ c1 = c ∧ con1 = con)
    ∨ (c.binaryName = none ∧ c1 = { c with binaryName := some v }
        ∧ ∃ l, 0x0A ∉ l ∧ con.stdin = l ++ 0x0A :: con1.stdin
          ∧ v = (if TrimSpace (l ++ [0x0A]) = [] then Base c.pkg.ImportPath
                 else TrimSpace (l ++ [0x0A]))) := by
  cases hb : c.binaryName with
  | some name =>
    rw [BinaryName_resolved c con name hb] at h
    injection h with h1 h2
    injection h2 with h2 h3
    subst h1 h2 h3
    exact Or.inl ⟨rfl, rfl, rfl⟩
  | none =>
    cases hr : readString (lit "enter the name of the executable binary")
        (Base c.pkg.ImportPath) con with
    | fatal f st =>
      rw [BinaryName_first_fatal c con st f hb hr] at h
      cases h
    | ok tmp st =>
      obtain ⟨l, hl, e1, _, e3⟩ := readString_ok _ _ _ _ _ hr
      rw [BinaryName_first_ok c con st tmp hb hr] at h
      injection h with h1 h2
      injection h2 with h2 h3
      subst h1 h2 h3
      exact Or.inr ⟨rfl, rfl, l, hl, e1, e3⟩

/-- What a returning call of `IsLibrary` did: nothing on a resolved answer, and
else it read one line and stored the answer. -/
theorem IsLibrary_ok (c c1 : Config) (con con1 : Console) (v : Bool)
    (h : c.IsLibrary con = .ok v (c1, con1)) :
    (c.isLibrary = some v ∧ c1 = c ∧ con1 = con)
    ∨ (c.isLibrary = none ∧ c1 = { c with isLibrary := some v }
        ∧ ∃ l, 0x0A ∉ l ∧ con.stdin = l ++ 0x0A :: con1.stdin
          ∧ v = decide (TrimSpace (l ++ [0x0A]) = lit "y" ∨ TrimSpace (l ++ [0x0A]) = lit "Y")) := by
  cases hb : c.isLibrary with
  | some lib =>
    rw [IsLibrary_resolved c con lib hb] at h
    injection h with h1 h2
    injection h2 with h2 h3
    subst h1 h2 h3
    exact Or.inl ⟨rfl, rfl, rfl⟩
  | none =>
    cases hr : accept (lit "project is a library only") con with
    | fatal f st =>
      rw [IsLibrary_first_fatal c con st f hb hr] at h
      cases h
    | ok tmp st =>
      obtain ⟨l, hl, e1, _, e3⟩ := accept_ok _ _ _ _ hr
      rw [IsLibrary_first_ok c con st tmp hb hr] at h
      injection h with h1 h2
      injection h2 with h2 h3
      subst h1 h2 h3
      exact Or.inr ⟨rfl, rfl, l, hl, e1, e3⟩

/-- A call of `IsLibrary` that stops early leaves the `Config` as it was. -/
theorem IsLibrary_fatal (c c1 : Config) (con con1 : Console) (f : Fatal)
    (h : c.IsLibrary con = .fatal f (c1, con1)) : c1 = c ∧ c.isLibrary = none := by
  cases hb : c.isLibrary with
  | some lib =>
    rw [IsLibrary_resolved c con lib hb] at h
    cases h
  | none =>
    cases hr : accept (lit "project is a library only") con with
    | fatal f1 st =>
      rw [IsLibrary_first_fatal c con st f1 hb hr] at h
      injection h with h1 h2
      injection h2 with h2 h3
      exact ⟨h2.symm, rfl⟩
    | ok tmp st =>
      rw [IsLibrary_first_ok c con st tmp hb hr] at h
      cases h

/-- What a returning call of `MainPath` did: nothing on a resolved path, and
else it resolved `IsLibrary`, then took the module path of a library or read one
line for an application, and stored the path. -/
theorem MainPath_ok (c c2 : Config) (con con2 : Console) (v : Str)
    (h : c.MainPath con = .ok v (c2, con2)) :
    (c.mainPath = some v ∧ c2 = c ∧ con2 = con)
    ∨ (c.mainPath = none ∧ ∃ lib c1 con1, c.IsLibrary con = .ok lib (c1, con1)
        ∧ c2 = { c1 with mainPath := some v }
        ∧ ((lib = true ∧ v = c.pkg.ImportPath ∧ con2 = con1)
          ∨ (lib = false ∧ ∃ l, 0x0A ∉ l ∧ con1.stdin = l ++ 0x0A :: con2.stdin
              ∧ v = (if TrimSpace (l ++ [0x0A]) = [] then (mainPathQuestion c).2
                     else TrimSpace (l ++ [0x0A]))))) := by
  cases hb : c.mainPath with
  | some path =>
    rw [MainPath_resolved c con path hb] at h
    injection h with h1 h2
    injection h2 with h2 h3
    subst h1 h2 h3
    exact Or.inl ⟨rfl, rfl, rfl⟩
  | none =>
    right
    refine ⟨rfl, ?_⟩
    cases hl : c.IsLibrary con with
    | fatal f st =>
      obtain ⟨c1, con1⟩ := st
      rw [MainPath_first_fatal c c1 con con1 f hb hl] at h
      cases h
    | ok lib st =>
      obtain ⟨c1, con1⟩ := st
      have hpkg : c1.pkg = c.pkg := by
        rcases IsLibrary_ok _ _ _ _ _ hl with ⟨_, e, _⟩ | ⟨_, e, _⟩ <;> simp [e]
      have hq : mainPathQuestion c1 = mainPathQuestion c := by
        simp [mainPathQuestion, hpkg]
      cases lib with
      | true =>
        rw [MainPath_first_library c c1 con con1 hb hl] at h
        injection h with h1 h2
        injection h2 with h2 h3
        subst h1 h2 h3
        exact ⟨true, c1, con1, rfl, rfl, Or.inl ⟨rfl, by simp [Config.ModulePath, hpkg], rfl⟩⟩
      | false =>
        cases hr : readString (mainPathQuestion c1).1 (mainPathQuestion c1).2 con1 with
        | fatal f st =>
          rw [MainPath_first_app_fatal c c1 con con1 st f hb hl hr] at h
          cases h
        | ok tmp st =>
          obtain ⟨l, hl1, e1, _, e3⟩ := readString_ok _ _ _ _ _ hr
          rw [MainPath_first_app_ok c c1 con con1 st tmp hb hl hr] at h
          injection h with h1 h2
          injection h2 with h2 h3
          subst h1 h2 h3
          exact ⟨false, c1, con1, rfl, rfl, Or.inr ⟨rfl, l, hl1, e1, by rw [← hq]; exact e3⟩⟩

/-! ## Resolved fields stay resolved -/

theorem Keeps_refl (c : Config) : c.Keeps c :=
  ⟨rfl, rfl, rfl, rfl, fun _ h => h, fun _ h => h, fun _ h => h⟩

theorem Keeps_trans (c2 c1 c : Config) (h2 : c2.Keeps c1) (h1 : c1.Keeps c) : c2.Keeps c := by
  obtain ⟨a1, a2, a3, a4, a5, a6, a7⟩ := h1
  obtain ⟨b1, b2, b3, b4, b5, b6, b7⟩ := h2
  exact ⟨b1.trans a1, b2.trans a2, b3.trans a3, b4.trans a4,
    fun v h => b5 v (a5 v h), fun v h => b6 v (a6 v h), fun v h => b7 v (a7 v h)⟩

theorem Keeps_binaryName (c1 c : Config) (v : Str) (h : c1.Keeps c) (hn : c.binaryName = none) :
    Config.Keeps { c1 with binaryName := some v } c := by
  obtain ⟨a1, a2, a3, a4, _, a6, a7⟩ := h
  exact ⟨a1, a2, a3, a4, fun w hw => by simp [hn] at hw, a6, a7⟩

theorem Keeps_isLibrary (c1 c : Config) (v : Bool) (h : c1.Keeps c) (hn : c.isLibrary = none) :
    Config.Keeps { c1 with isLibrary := some v } c := by
  obtain ⟨a1, a2, a3, a4, a5, _, a7⟩ := h
  exact ⟨a1, a2, a3, a4, a5, fun w hw => by simp [hn] at hw, a7⟩

theorem Keeps_mainPath (c1 c : Config) (v : Str) (h : c1.Keeps c) (hn : c.mainPath = none) :
    Config.Keeps { c1 with mainPath := some v } c := by
  obtain ⟨a1, a2, a3, a4, a5, a6, _⟩ := h
  exact ⟨a1, a2, a3, a4, a5, a6, fun w hw => by simp [hn] at hw⟩

theorem BinaryName_keeps (c : Config) (con : Console) : (c.BinaryName con).state.1.Keeps c := by
  cases hb : c.binaryName with
  | some name => rw [BinaryName_resolved c con name hb]; exact Keeps_refl c
  | none =>
    cases hr : readString (lit "enter the name of the executable binary")
        (Base c.pkg.ImportPath) con with
    | fatal f st => rw [BinaryName_first_fatal c con st f hb hr]; exact Keeps_refl c
    | ok tmp st =>
      rw [BinaryName_first_ok c con st tmp hb hr]
      exact Keeps_binaryName c c tmp (Keeps_refl c) hb

theorem IsLibrary_keeps (c : Config) (con : Console) : (c.IsLibrary con).state.1.Keeps c := by
  cases hb : c.isLibrary with
  | some lib => rw [IsLibrary_resolved c con lib hb]; exact Keeps_refl c
  | none =>
    cases hr : accept (lit "project is a library only") con with
    | fatal f st => rw [IsLibrary_first_fatal c con st f hb hr]; exact Keeps_refl c
    | ok tmp st =>
      rw [IsLibrary_first_ok c con st tmp hb hr]
      exact Keeps_isLibrary c c tmp (Keeps_refl c) hb

theorem IsApp_state (c : Config) (con : Console) :
    (c.IsApp con).state = (c.IsLibrary con).state := by
  unfold Config.IsApp
  split <;> simp_all [Res.state]

theorem MainPath_keeps (c : Config) (con : Console) : (c.MainPath con).state.1.Keeps c := by
  have hl := IsLibrary_keeps c con
  cases hb : c.mainPath with
  | some path => rw [MainPath_resolved c con path hb]; exact Keeps_refl c
  | none =>
    cases hi : c.IsLibrary con with
    | fatal f st =>
      obtain ⟨c1, con1⟩ := st
      rw [MainPath_first_fatal c c1 con con1 f hb hi]
      rw [hi] at hl
      exact hl
    | ok lib st =>
      obtain ⟨c1, con1⟩ := st
      rw [hi] at hl
      simp only [Res.state] at hl
      cases lib with
      | true =>
        rw [MainPath_first_library c c1 con con1 hb hi]
        exact Keeps_mainPath c1 c _ hl hb
      | false =>
        cases hr : readString (mainPathQuestion c1).1 (mainPathQuestion c1).2 con1 with
        | fatal f st =>
          rw [MainPath_first_app_fatal c c1 con con1 st f hb hi hr]
          exact hl
        | ok tmp st =>
          rw [MainPath_first_app_ok c c1 con con1 st tmp hb hi hr]
          exact Keeps_mainPath c1 c _ hl hb

theorem ArtifactName_keeps (up : Nat → Nat) (c : Config) (con : Console) :
    (c.ArtifactName up con).state.1.Keeps c := by
  have hl := IsLibrary_keeps c con
  cases hi : c.IsLibrary con with
  | fatal f st =>
    rw [ArtifactName_library_fatal up c con f st hi]
    rw [hi] at hl
    exact hl
  | ok lib st =>
    obtain ⟨c1, con1⟩ := st
    rw [hi] at hl
    simp only [Res.state] at hl
    have h2 := BinaryName_keeps c1 con1
    cases hn : c1.BinaryName con1 with
    | fatal f st =>
      rw [ArtifactName_name_fatal up c c1 con con1 lib f st hi hn]
      rw [hn] at h2
      exact Keeps_trans _ _ _ h2 hl
    | ok name st =>
      obtain ⟨c2, con2⟩ := st
      rw [ArtifactName_resolved up c c1 c2 con con1 con2 lib name hi hn]
      rw [hn] at h2
      split <;> exact Keeps_trans _ _ _ h2 hl

/-- Whatever getters are called later, the fields that `main` set and the
self-populating fields that are resolved keep their values. -/
theorem Later_keeps (up : Nat → Nat) (c0 c : Config) (h : Later up c0 c) : c.Keeps c0 := by
  induction h with
  | now => exact Keeps_refl c0
  | BinaryName c con _ ih => exact Keeps_trans _ _ _ (BinaryName_keeps c con) ih
  | IsLibrary c con _ ih => exact Keeps_trans _ _ _ (IsLibrary_keeps c con) ih
  | IsApp c con _ ih =>
    rw [IsApp_state]
    exact Keeps_trans _ _ _ (IsLibrary_keeps c con) ih
  | MainPath c con _ ih => exact Keeps_trans _ _ _ (MainPath_keeps c con) ih
  | ArtifactName c con _ ih => exact Keeps_trans _ _ _ (ArtifactName_keeps up c con) ih

theorem BinaryName_ok_field (c c1 : Config) (con con1 : Console) (v : Str)
    (h : c.BinaryName con = .ok v (c1, con1)) : c1.binaryName = some v := by
  rcases BinaryName_ok _ _ _ _ _ h with ⟨hb, e1, _⟩ | ⟨_, e1, _⟩ <;> simp [e1, *]

theorem IsLibrary_ok_field (c c1 : Config) (con con1 : Console) (v : Bool)
    (h : c.IsLibrary con = .ok v (c1, con1)) : c1.isLibrary = some v := by
  rcases IsLibrary_ok _ _ _ _ _ h with ⟨hb, e1, _⟩ | ⟨_, e1, _⟩ <;> simp [e1, *]

theorem MainPath_ok_field (c c1 : Config) (con con1 : Console) (v : Str)
    (h : c.MainPath con = .ok v (c1, con1)) : c1.mainPath = some v := by
  rcases MainPath_ok _ _ _ _ _ h with ⟨hb, e1, _⟩ | ⟨_, _, _, _, _, e1, _⟩ <;> simp [e1, *]

/-- C2: for each of the lazy getters `BinaryName`, `IsLibrary` and `MainPath`,
once a call has returned a value, every later call of that getter, whatever
getters are called in between and whatever the console holds, returns the same
value and leaves the `Config` and the console, the input stream included, as
they are.  The first call of `BinaryName` and of `IsLibrary` on an unresolved
field reads exactly one line, a call on a resolved field reads nothing, and a
call of `MainPath` reads at most one line beyond what `IsLibrary` reads. -/
theorem getters_memoized (up : Nat → Nat) (c c1 : Config) (con con1 : Console) :
    (∀ v, c.BinaryName con = .ok v (c1, con1) →
        (∀ c2 con2, Later up c1 c2 → c2.BinaryName con2 = .ok v (c2, con2))
        ∧ (c.binaryName = none → ∃ l, 0x0A ∉ l ∧ con.stdin = l ++ 0x0A :: con1.stdin)
        ∧ (c.binaryName ≠ none → con1 = con))
    ∧ (∀ v, c.IsLibrary con = .ok v (c1, con1) →
        (∀ c2 con2, Later up c1 c2 → c2.IsLibrary con2 = .ok v (c2, con2))
        ∧ (c.isLibrary = none → ∃ l, 0x0A ∉ l ∧ con.stdin = l ++ 0x0A :: con1.stdin)
        ∧ (c.isLibrary ≠ none → con1 = con))
    ∧ (∀ v, c.MainPath con = .ok v (c1, con1) →
        (∀ c2 con2, Later up c1 c2 → c2.MainPath con2 = .ok v (c2, con2))
        ∧ (c.mainPath ≠ none → con1 = con)
        ∧ (c.mainPath = none → ∃ lib c0 con0, c.IsLibrary con = .ok lib (c0, con0)
            ∧ (con1 = con0 ∨ ∃ l, 0x0A ∉ l ∧ con0.stdin = l ++ 0x0A :: con1.stdin))) := by
  refine ⟨?_, ?_, ?_⟩
  · intro v h
    refine ⟨fun c2 con2 hl => BinaryName_resolved _ _ _
      ((Later_keeps up c1 c2 hl).2.2.2.2.1 v (BinaryName_ok_field _ _ _ _ _ h)), ?_⟩
    rcases BinaryName_ok _ _ _ _ _ h with ⟨hb, e1, e2⟩ | ⟨hb, e1, l, hl, e2, _⟩
    · exact ⟨by simp [hb], fun _ => e2⟩
    · exact ⟨fun _ => ⟨l, hl, e2⟩, fun hne => absurd hb hne⟩
  · intro v h
    refine ⟨fun c2 con2 hl => IsLibrary_resolved _ _ _
      ((Later_keeps up c1 c2 hl).2.2.2.2.2.1 v (IsLibrary_ok_field _ _ _ _ _ h)), ?_⟩
    rcases IsLibrary_ok _ _ _ _ _ h with ⟨hb, e1, e2⟩ | ⟨hb, e1, l, hl, e2, _⟩
    · exact ⟨by simp [hb], fun _ => e2⟩
    · exact ⟨fun _ => ⟨l, hl, e2⟩, fun hne => absurd hb hne⟩
  · intro v h
    refine ⟨fun c2 con2 hl => MainPath_resolved _ _ _
      ((Later_keeps up c1 c2 hl).2.2.2.2.2.2 v (MainPath_ok_field _ _ _ _ _ h)), ?_⟩
    rcases MainPath_ok _ _ _ _ _ h with ⟨hb, e1, e2⟩ | ⟨hb, lib, c0, con0, hl, e1, hcase⟩
    · exact ⟨fun _ => e2, by simp [hb]⟩
    · refine ⟨fun hne => absurd hb hne, fun _ => ⟨lib, c0, con0, hl, ?_⟩⟩
      rcases hcase with ⟨_, _, e⟩ | ⟨_, l, hl1, e, _⟩
      · exact Or.inl e
      · exact Or.inr ⟨l, hl1, e⟩

/-- C2, at a concrete run: on the input `netkit` the second call of
`BinaryName` returns `netkit` again and reads nothing, and so do the second
calls of `IsLibrary` on the input `y` and of `MainPath` on the input `n`,
`cmd/netkit`. -/
theorem getters_memoized_witness :
    (demoConfig.BinaryName (consoleOf (lit "netkit\nrest"))
        = .ok (lit "netkit") ({ demoConfig with binaryName := some (lit "netkit") },
            { stdin := lit "rest", stdout := lit "enter the name of the executable binary [demo]: " })
      ∧ Config.BinaryName { demoConfig with binaryName := some (lit "netkit") }
          { stdin := lit "rest", stdout := lit "enter the name of the executable binary [demo]: " }
        = .ok (lit "netkit") ({ demoConfig with binaryName := some (lit "netkit") },
            { stdin := lit "rest", stdout := lit "enter the name of the executable binary [demo]: " }))
    ∧ (demoConfig.IsLibrary (consoleOf (lit "y\nrest"))
        = .ok true ({ demoConfig with isLibrary := some true },
            { stdin := lit "rest", stdout := lit "project is a library only (y/N): " })
      ∧ Config.IsLibrary { demoConfig with isLibrary := some true }
          { stdin := lit "rest", stdout := lit "project is a library only (y/N): " }
        = .ok true ({ demoConfig with isLibrary := some true },
            { stdin := lit "rest", stdout := lit "project is a library only (y/N): " }))
    ∧ (demoConfig.MainPath (consoleOf (lit "n\ncmd/netkit\nrest"))
        = .ok (lit "cmd/netkit")
            ({ demoConfig with isLibrary := some false, mainPath := some (lit "cmd/netkit") },
              { stdin := lit "rest",
                stdout := lit "project is a library only (y/N): "
                  ++ lit "enter the import path of the main package [github.com/worldiety/demo]: " })
      ∧ Config.MainPath
          { demoConfig with isLibrary := some false, mainPath := some (lit "cmd/netkit") }
          { stdin := lit "rest",
            stdout := lit "project is a library only (y/N): "
              ++ lit "enter the import path of the main package [github.com/worldiety/demo]: " }
        = .ok (lit "cmd/netkit")
            ({ demoConfig with isLibrary := some false, mainPath := some (lit "cmd/netkit") },
              { stdin := lit "rest",
                stdout := lit "project is a library only (y/N): "
                  ++ lit "enter the import path of the main package [github.com/worldiety/demo]: " })) :=
  have h1 : demoConfig.BinaryName (consoleOf (lit "netkit\nrest"))
      = .ok (lit "netkit") ({ demoConfig with binaryName := some (lit "netkit") },
          { stdin := lit "rest", stdout := lit "enter the name of the executable binary [demo]: " }) := by
    decide
  have h2 : demoConfig.IsLibrary (consoleOf (lit "y\nrest"))
      = .ok true ({ demoConfig with isLibrary := some true },
          { stdin := lit "rest", stdout := lit "project is a library only (y/N): " }) := by
    decide
  have h3 : demoConfig.MainPath (consoleOf (lit "n\ncmd/netkit\nrest"))
      = .ok (lit "cmd/netkit")
          ({ demoConfig with isLibrary := some false, mainPath := some (lit "cmd/netkit") },
            { stdin := lit "rest",
              stdout := lit "project is a library only (y/N): "
                ++ lit "enter the import path of the main package [github.com/worldiety/demo]: " }) := by
    decide
  ⟨⟨h1, ((getters_memoized (fun r => r) _ _ _ _).1 _ h1).1 _ _ Later.now⟩,
    ⟨h2, ((getters_memoized (fun r => r) _ _ _ _).2.1 _ h2).1 _ _ Later.now⟩,
    ⟨h3, ((getters_memoized (fun r => r) _ _ _ _).2.2 _ h3).1 _ _ Later.now⟩⟩

/-- C3: on a `Config` whose main path is not yet computed, `MainPath` first
resolves `IsLibrary`.  For a library it returns the module path, the import path
of the package, and reads no line beyond what `IsLibrary` read.  For an
application it reads the next line: when the package is named `main` it returns
the trimmed line if that is not empty and the import path otherwise; when the
package has another name it returns the trimmed line, which is the empty string
exactly for an empty or all-white-space line, and appends no `/cmd` to anything.
The trimmed line is the one text that is the line with its leading and trailing
white space removed.  The
value is stored in the `Config`. -/
theorem MainPath_first_call (c c1 : Config) (con con1 : Console) (lib : Bool)
    (h : c.mainPath = none) (hlib : c.IsLibrary con = .ok lib (c1, con1)) :
    (lib = true →
      c.ModulePath = c.pkg.ImportPath
      ∧ c.MainPath con = .ok c.ModulePath ({ c1 with mainPath := some c.ModulePath }, con1))
    ∧ (lib = false → ∀ l rest, 0x0A ∉ l → con1.stdin = l ++ 0x0A :: rest →
      ∃ v out, c.MainPath con = .ok v ({ c1 with mainPath := some v }, { stdin := rest, stdout := out })
        ∧ (c.pkg.Name = lit "main" →
            v = if TrimSpace (l ++ [0x0A]) = [] then c.pkg.ImportPath else TrimSpace (l ++ [0x0A]))
        ∧ (c.pkg.Name ≠ lit "main" → v = TrimSpace (l ++ [0x0A]))
        ∧ (∀ m, TrimSpace (l ++ [0x0A]) = m ↔ IsTrimOf m l)
        ∧ (TrimSpace (l ++ [0x0A]) = [] ↔ WhiteSpaceOnly l)) := by
  have hpkg : c1.pkg = c.pkg := by
    rcases IsLibrary_ok _ _ _ _ _ hlib with ⟨_, e, _⟩ | ⟨_, e, _⟩ <;> simp [e]
  constructor
  · intro hl
    subst hl
    refine ⟨rfl, ?_⟩
    rw [MainPath_first_library c c1 con con1 h hlib]
    simp [Config.ModulePath, hpkg]
  · intro hl l rest hnl hin
    subst hl
    have hr := readString_line (mainPathQuestion c1).1 (mainPathQuestion c1).2 con1 l rest hnl hin
    refine ⟨_, _, MainPath_first_app_ok c c1 con con1 _ _ h hlib hr, ?_, ?_,
      TrimSpace_line_iff l, ?_⟩
    · intro hn
      simp [mainPathQuestion, hpkg, hn]
    · intro hn
      simp only [mainPathQuestion, hpkg, hn, if_false]
      by_cases ht : TrimSpace (l ++ [0x0A]) = []
      · simp [ht, lit]
      · simp [ht]
    · exact TrimSpace_line_eq_nil_iff l

/-- C3, at concrete runs: a library gets its module path and the line after the
answer stays unread; an application of a package `main` that answers with an
empty line gets the import path. -/
theorem MainPath_first_call_witness :
    (demoConfig.mainPath = none
      ∧ demoConfig.IsLibrary (consoleOf (lit "y\nnetkit\n"))
        = .ok true ({ demoConfig with isLibrary := some true },
            { stdin := lit "netkit\n", stdout := lit "project is a library only (y/N): " }))
    ∧ demoConfig.MainPath (consoleOf (lit "y\nnetkit\n"))
        = .ok (lit "github.com/worldiety/demo")
            ({ demoConfig with isLibrary := some true,
                               mainPath := some (lit "github.com/worldiety/demo") },
              { stdin := lit "netkit\n", stdout := lit "project is a library only (y/N): " }) :=
  have h2 : demoConfig.IsLibrary (consoleOf (lit "y\nnetkit\n"))
      = .ok true ({ demoConfig with isLibrary := some true },
          { stdin := lit "netkit\n", stdout := lit "project is a library only (y/N): " }) := by
    decide
  ⟨⟨rfl, h2⟩, ((MainPath_first_call _ _ _ _ _ rfl h2).1 rfl).2⟩

/-- The values of `MainPath` for an application: a package `main` with an
answer and without one, another package with an answer and without one. -/
theorem MainPath_examples :
    (demoConfig.MainPath (consoleOf (lit "n\n cmd/demo \n"))).val? = some (lit "cmd/demo")
    ∧ (demoConfig.MainPath (consoleOf (lit "n\n\n"))).val? = some (lit "github.com/worldiety/demo")
    ∧ (Config.MainPath { demoConfig with pkg := { demoPackage with Name := lit "demo" } }
        (consoleOf (lit "n\n cmd/demo \n"))).val? = some (lit "cmd/demo")
    ∧ (Config.MainPath { demoConfig with pkg := { demoPackage with Name := lit "demo" } }
        (consoleOf (lit "n\n  \n"))).val? = some (lit "") := by
  decide

theorem BinaryName_eof (c : Config) (con : Console) (h : c.binaryName = none)
    (he : 0x0A ∉ con.stdin) :
    ∃ out, c.BinaryName con = .fatal (.panic EOF) (c, { stdin := [], stdout := out }) :=
  ⟨_, BinaryName_first_fatal c con _ _ h (readString_eof _ _ con he)⟩

theorem IsLibrary_eof (c : Config) (con : Console) (h : c.isLibrary = none)
    (he : 0x0A ∉ con.stdin) :
    ∃ out, c.IsLibrary con = .fatal (.panic EOF) (c, { stdin := [], stdout := out }) :=
  ⟨_, IsLibrary_first_fatal c con _ _ h (accept_eof _ con he)⟩

theorem MainPath_eof (c : Config) (con : Console) (h : c.mainPath = none)
    (hl : c.isLibrary ≠ some true) (he : 0x0A ∉ con.stdin) :
    ∃ out, c.MainPath con = .fatal (.panic EOF) (c, { stdin := [], stdout := out }) := by
  cases hi : c.isLibrary with
  | none =>
    obtain ⟨out, e⟩ := IsLibrary_eof c con hi he
    exact ⟨out, MainPath_first_fatal c c con _ _ h e⟩
  | some lib =>
    cases lib with
    | true => exact absurd hi hl
    | false =>
      exact ⟨_, MainPath_first_app_fatal c c con con _ _ h (IsLibrary_resolved c con false hi)
        (readString_eof _ _ con he)⟩

/-- C10: when the input stream ends before a newline, `accept` and `readString`
return no value: the read error `io.EOF` is fatal, although the text before the
end of the stream was read.  A lazy getter that asked the question then leaves
the `Config`, and so its field, as it was: nothing is memoized. -/
theorem read_without_newline_is_fatal (msg defaultText : Str) (c : Config) (con : Console)
    (h : 0x0A ∉ con.stdin) :
    ((accept msg con).val? = none ∧ (accept msg con).stop? = some (.panic EOF)
      ∧ (accept msg con).state.stdin = [])
    ∧ ((readString msg defaultText con).val? = none
      ∧ (readString msg defaultText con).stop? = some (.panic EOF)
      ∧ (readString msg defaultText con).state.stdin = [])
    ∧ (c.binaryName = none →
        (c.BinaryName con).val? = none ∧ (c.BinaryName con).state.1 = c)
    ∧ (c.isLibrary = none →
        (c.IsLibrary con).val? = none ∧ (c.IsLibrary con).state.1 = c)
    ∧ (c.mainPath = none → c.isLibrary ≠ some true →
        (c.MainPath con).val? = none ∧ (c.MainPath con).state.1 = c) := by
  refine ⟨?_, ?_, ?_, ?_, ?_⟩
  · rw [accept_eof msg con h]; exact ⟨rfl, rfl, rfl⟩
  · rw [readString_eof msg defaultText con h]; exact ⟨rfl, rfl, rfl⟩
  · intro hb
    obtain ⟨out, e⟩ := BinaryName_eof c con hb h
    rw [e]; exact ⟨rfl, rfl⟩
  · intro hb
    obtain ⟨out, e⟩ := IsLibrary_eof c con hb h
    rw [e]; exact ⟨rfl, rfl⟩
  · intro hb hl
    obtain ⟨out, e⟩ := MainPath_eof c con hb hl h
    rw [e]; exact ⟨rfl, rfl⟩

/-- C10, at a concrete stream: the answer `demo` without a newline. -/
theorem read_without_newline_is_fatal_witness :
    0x0A ∉ (consoleOf (lit "demo")).stdin
    ∧ (readString (lit "name") (lit "x") (consoleOf (lit "demo"))).val? = none
    ∧ (demoConfig.BinaryName (consoleOf (lit "demo"))).state.1 = demoConfig :=
  ⟨by decide,
    (read_without_newline_is_fatal (lit "name") (lit "x") demoConfig (consoleOf (lit "demo"))
      (by decide)).2.1.1,
    ((read_without_newline_is_fatal (lit "name") (lit "x") demoConfig (consoleOf (lit "demo"))
      (by decide)).2.2.1 rfl).2⟩

/-- The outcomes of `accept` and `readString` on an empty stream and on the
answers `y` and `demo` without a newline, next to the same answers with one. -/
theorem read_without_newline_examples :
    (accept (lit "ok?") (consoleOf (lit ""))).stop? = some (.panic EOF)
    ∧ (accept (lit "ok?") (consoleOf (lit "y"))).stop? = some (.panic EOF)
    ∧ (accept (lit "ok?") (consoleOf (lit "y\n"))).val? = some true
    ∧ (readString (lit "name") (lit "x") (consoleOf (lit "demo"))).stop? = some (.panic EOF)
    ∧ (readString (lit "name") (lit "x") (consoleOf (lit "demo\n"))).val? = some (lit "demo") := by
  decide

/-! ## The binary name is never empty -/

/-- The function `filepath.Base` never returns the empty string. -/
theorem Base_ne_nil (path : Str) : Base path ≠ [] := by
  unfold Base
  split
  · decide
  · simp only
    split
    · decide
    · assumption

theorem IsLibrary_state_binaryName (c : Config) (con : Console) :
    (c.IsLibrary con).state.1.binaryName = c.binaryName := by
  unfold Config.IsLibrary
  split
  · split <;> rfl
  · rfl

theorem BinaryName_state_nonempty (c : Config) (con : Console) (h : NameResolvedNonEmpty c) :
    NameResolvedNonEmpty (c.BinaryName con).state.1 := by
  cases hb : c.binaryName with
  | some name => rw [BinaryName_resolved c con name hb]; exact h
  | none =>
    cases hr : readString (lit "enter the name of the executable binary")
        (Base c.pkg.ImportPath) con with
    | fatal f st => rw [BinaryName_first_fatal c con st f hb hr]; exact h
    | ok tmp st =>
      rw [BinaryName_first_ok c con st tmp hb hr]
      obtain ⟨l, _, _, _, e⟩ := readString_ok _ _ _ _ _ hr
      intro name hn
      simp only [Res.state, Option.some.injEq] at hn
      subst hn
      rw [e]
      split
      · exact Base_ne_nil _
      · assumption

theorem MainPath_state_binaryName (c : Config) (con : Console) :
    (c.MainPath con).state.1.binaryName = c.binaryName := by
  have hl := IsLibrary_state_binaryName c con
  cases hb : c.mainPath with
  | some path => rw [MainPath_resolved c con path hb]; rfl
  | none =>
    cases hi : c.IsLibrary con with
    | fatal f st =>
      obtain ⟨c1, con1⟩ := st
      rw [MainPath_first_fatal c c1 con con1 f hb hi]
      rw [hi] at hl
      exact hl
    | ok lib st =>
      obtain ⟨c1, con1⟩ := st
      rw [hi] at hl
      simp only [Res.state] at hl
      cases lib with
      | true =>
        rw [MainPath_first_library c c1 con con1 hb hi]
        exact hl
      | false =>
        cases hr : readString (mainPathQuestion c1).1 (mainPathQuestion c1).2 con1 with
        | fatal f st =>
          rw [MainPath_first_app_fatal c c1 con con1 st f hb hi hr]
          exact hl
        | ok tmp st =>
          rw [MainPath_first_app_ok c c1 con con1 st tmp hb hi hr]
          exact hl

theorem ArtifactName_state_nonempty (up : Nat → Nat) (c : Config) (con : Console)
    (h : NameResolvedNonEmpty c) :
    NameResolvedNonEmpty (c.ArtifactName up con).state.1 := by
  have hl := IsLibrary_state_binaryName c con
  cases hi : c.IsLibrary con with
  | fatal f st =>
    rw [ArtifactName_library_fatal up c con f st hi]
    rw [hi] at hl
    intro name hn
    exact h name (by rw [← hl]; exact hn)
  | ok lib st =>
    obtain ⟨c1, con1⟩ := st
    rw [hi] at hl
    simp only [Res.state] at hl
    have h1 : NameResolvedNonEmpty c1 := fun name hn => h name (by rw [← hl]; exact hn)
    have h2 := BinaryName_state_nonempty c1 con1 h1
    cases hn : c1.BinaryName con1 with
    | fatal f st =>
      rw [ArtifactName_name_fatal up c c1 con con1 lib f st hi hn]
      rw [hn] at h2
      exact h2
    | ok name st =>
      obtain ⟨c2, con2⟩ := st
      rw [ArtifactName_resolved up c c1 c2 con con1 con2 lib name hi hn]
      rw [hn] at h2
      split <;> exact h2

theorem Later_name_nonempty (up : Nat → Nat) (c0 c : Config) (h : Later up c0 c)
    (h0 : NameResolvedNonEmpty c0) : NameResolvedNonEmpty c := by
  induction h with
  | now => exact h0
  | BinaryName c con _ ih => exact BinaryName_state_nonempty c con ih
  | IsLibrary c con _ ih =>
    intro name hn
    rw [IsLibrary_state_binaryName] at hn
    exact ih name hn
  | IsApp c con _ ih =>
    intro name hn
    rw [IsApp_state, IsLibrary_state_binaryName] at hn
    exact ih name hn
  | MainPath c con _ ih =>
    intro name hn
    rw [MainPath_state_binaryName] at hn
    exact ih name hn
  | ArtifactName c con _ ih => exact ArtifactName_state_nonempty up c con ih

/-- In every state that the getters reach from a `Config` as `main` constructs
it, a resolved binary name is not empty. -/
theorem Reachable_name_nonempty (up : Nat → Nat) (c : Config) (h : Reachable up c) :
    NameResolvedNonEmpty c := by
  obtain ⟨pkg, isDev, baseURL, projectDir, hl⟩ := h
  refine Later_name_nonempty up _ c hl ?_
  intro name hn
  simp [Config.fresh] at hn

/-- With a non-empty resolved name, or none yet, `ArtifactName` does not stop on
a slice out of range. -/
theorem ArtifactName_in_range (up : Nat → Nat) (c : Config) (con : Console)
    (h : NameResolvedNonEmpty c) :
    (c.ArtifactName up con).stop? ≠ some .sliceBounds := by
  have hl := IsLibrary_state_binaryName c con
  cases hi : c.IsLibrary con with
  | fatal f st =>
    obtain ⟨c1, con1⟩ := st
    rw [ArtifactName_library_fatal up c con f _ hi]
    cases hb : c.isLibrary with
    | some lib => rw [IsLibrary_resolved c con lib hb] at hi; cases hi
    | none =>
      cases hr : accept (lit "project is a library only") con with
      | ok tmp st => rw [IsLibrary_first_ok c con st tmp hb hr] at hi; cases hi
      | fatal f1 st =>
        rw [IsLibrary_first_fatal c con st f1 hb hr] at hi
        injection hi with e1 e2
        subst e1
        by_cases hm : 0x0A ∈ con.stdin
        · obtain ⟨l, rest, hl1, e⟩ := first_split _ _ hm
          rw [accept_line _ con l rest hl1 e] at hr
          cases hr
        · rw [accept_eof _ con hm] at hr
          injection hr with e3 e4
          subst e3
          simp [Res.stop?]
  | ok lib st =>
    obtain ⟨c1, con1⟩ := st
    rw [hi] at hl
    simp only [Res.state] at hl
    have h1 : NameResolvedNonEmpty c1 := fun name hn => h name (by rw [← hl]; exact hn)
    have h2 := BinaryName_state_nonempty c1 con1 h1
    cases hn : c1.BinaryName con1 with
    | fatal f st =>
      rw [ArtifactName_name_fatal up c c1 con con1 lib f st hi hn]
      cases hb : c1.binaryName with
      | some name => rw [BinaryName_resolved c1 con1 name hb] at hn; cases hn
      | none =>
        cases hr : readString (lit "enter the name of the executable binary")
            (Base c1.pkg.ImportPath) con1 with
        | ok tmp st1 => rw [BinaryName_first_ok c1 con1 st1 tmp hb hr] at hn; cases hn
        | fatal f1 st1 =>
          rw [BinaryName_first_fatal c1 con1 st1 f1 hb hr] at hn
          injection hn with e1 e2
          subst e1
          by_cases hm : 0x0A ∈ con1.stdin
          · obtain ⟨l, rest, hl1, e⟩ := first_split _ _ hm
            rw [readString_line _ _ con1 l rest hl1 e] at hr
            cases hr
          · rw [readString_eof _ _ con1 hm] at hr
            injection hr with e3 e4
            subst e3
            simp [Res.stop?]
    | ok name st =>
      obtain ⟨c2, con2⟩ := st
      rw [ArtifactName_resolved up c c1 c2 con con1 con2 lib name hi hn]
      rw [hn] at h2
      have hne : name ≠ [] := by
        rcases BinaryName_ok _ _ _ _ _ hn with ⟨hb, _, _⟩ | ⟨_, e, _⟩
        · exact h1 name hb
        · exact h2 name (by simp [Res.state, e])
      simp [hne, Res.stop?]

/-- C9: for every import path, the empty path and paths of separators included,
and every input line read successfully, `BinaryName` on a `Config` whose binary
name is not yet resolved returns a non-empty string: its default
`filepath.Base(ImportPath)` is never empty, and `readString` returns a non-empty
trimmed line or that default.  So in every state reached from a freshly
constructed `Config` through the getters a resolved binary name has a first
byte, and the slice `name[0:1]` of `ArtifactName` is in range. -/
theorem BinaryName_never_empty (up : Nat → Nat) (c : Config) (con : Console) (l rest : Str)
    (hc : c.binaryName = none) (hl : 0x0A ∉ l) (hin : con.stdin = l ++ 0x0A :: rest) :
    Base c.pkg.ImportPath ≠ []
    ∧ (∃ name out, c.BinaryName con
          = .ok name ({ c with binaryName := some name }, { stdin := rest, stdout := out })
        ∧ name ≠ [])
    ∧ (∀ c1, Reachable up c1 → ∀ name, c1.binaryName = some name → 1 ≤ name.length) := by
  refine ⟨Base_ne_nil _, ?_, ?_⟩
  · have hr := readString_line (lit "enter the name of the executable binary")
      (Base c.pkg.ImportPath) con l rest hl hin
    refine ⟨_, _, BinaryName_first_ok c con _ _ hc hr, ?_⟩
    split
    · exact Base_ne_nil _
    · assumption
  · intro c1 h1 name hn
    exact List.length_pos.mpr (Reachable_name_nonempty up c1 h1 name hn)

/-- C9, at concrete inputs: the empty import path and an empty answer give the
name `.`. -/
theorem BinaryName_never_empty_witness :
    (Config.binaryName { demoConfig with pkg := { demoPackage with ImportPath := lit "" } } = none
      ∧ 0x0A ∉ lit "" ∧ (consoleOf (lit "\n")).stdin = lit "" ++ 0x0A :: lit "")
    ∧ (Config.BinaryName { demoConfig with pkg := { demoPackage with ImportPath := lit "" } }
        (consoleOf (lit "\n"))).val? = some (lit ".")
    ∧ Base (lit "") ≠ [] :=
  ⟨⟨rfl, by decide, by decide⟩, by decide,
    (BinaryName_never_empty (fun r => r)
      { demoConfig with pkg := { demoPackage with ImportPath := lit "" } }
      (consoleOf (lit "\n")) (lit "") (lit "") rfl (by decide) (by decide)).1⟩

/-- The values of `filepath.Base` and of `BinaryName` at the edges: the empty
path, a path of separators, a trailing separator, an answer of white space. -/
theorem BinaryName_examples :
    Base (lit "") = lit "." ∧ Base (lit "///") = lit "/"
    ∧ Base (lit "github.com/worldiety/demo/") = lit "demo"
    ∧ (demoConfig.BinaryName (consoleOf (lit " \t\n"))).val? = some (lit "demo")
    ∧ (demoConfig.BinaryName (consoleOf (lit "netkit\n"))).val? = some (lit "netkit")
    ∧ (Config.BinaryName { demoConfig with pkg := { demoPackage with ImportPath := lit "//" } }
        (consoleOf (lit "\n"))).val? = some (lit "/") := by
  decide

/-- C6, as the code has it: `ArtifactName` validates nothing.  On a `Config`
whose resolved binary name is the empty string and whose `IsLibrary` is true it
evaluates `name[0:1]` on the empty string and stops with the run-time panic of
a slice out of range. -/
theorem ArtifactName_empty_name_panics :
    Config.ArtifactName (fun r => r) emptyNameLibrary (consoleOf (lit ""))
      = .fatal .sliceBounds (emptyNameLibrary, consoleOf (lit "")) := by
  decide

/-- C6, amended: in every state reached from a freshly constructed `Config`
through the getters, a resolved binary name is not empty and `ArtifactName` does
not slice out of range, whatever the console holds.  On a `Config` with both
fields resolved it slices out of range exactly when the project is a library and
the name is empty, and otherwise returns its value without reading or
printing. -/
theorem ArtifactName_slice_in_range (up : Nat → Nat) (c : Config) (con : Console)
    (h : Reachable up c) :
    (c.ArtifactName up con).stop? ≠ some .sliceBounds
    ∧ (∀ name, c.binaryName = some name → name ≠ [])
    ∧ (∀ (c1 : Config) (con1 : Console) (lib : Bool) (name : Str),
        c1.isLibrary = some lib → c1.binaryName = some name →
        c1.ArtifactName up con1 =
          if lib = true ∧ name = [] then .fatal .sliceBounds (c1, con1)
          else .ok (if lib then lit "lib" ++ ToUpper up (name.take 1) ++ name.drop 1 else name)
            (c1, con1)) := by
  refine ⟨ArtifactName_in_range up c con (Reachable_name_nonempty up c h),
    Reachable_name_nonempty up c h, ?_⟩
  intro c1 con1 lib name hl hn
  exact ArtifactName_resolved up c1 c1 c1 con1 con1 con1 lib name
    (IsLibrary_resolved c1 con1 lib hl) (BinaryName_resolved c1 con1 name hn)

/-- C6, amended, at two concrete states in which `name[0:1]` is evaluated.  The
`Config` as `main` constructs it, on the answers `y` and an empty line: the
project is a library, the empty answer gives the name `demo`, the default, and
`ArtifactName` slices it and returns `libDemo`.  And the state that call leaves,
with both fields resolved, on an empty console: `ArtifactName` slices the name
`demo` again and returns `libDemo` without reading. -/
theorem ArtifactName_slice_in_range_witness :
    (Reachable (fun r => r) demoConfig
      ∧ demoConfig.ArtifactName (fun r => r) (consoleOf (lit "y\n\n"))
          = .ok (lit "libDemo")
              ({ demoConfig with binaryName := some (lit "demo"), isLibrary := some true },
               { stdin := [],
                 stdout := lit "project is a library only (y/N): "
                   ++ lit "enter the name of the executable binary [demo]: " })
      ∧ (demoConfig.ArtifactName (fun r => r) (consoleOf (lit "y\n\n"))).stop?
          ≠ some .sliceBounds)
    ∧ (Reachable (fun r => r)
          { demoConfig with binaryName := some (lit "demo"), isLibrary := some true }
      ∧ Config.ArtifactName (fun r => r)
          { demoConfig with binaryName := some (lit "demo"), isLibrary := some true }
          (consoleOf (lit ""))
          = .ok (lit "libDemo")
              ({ demoConfig with binaryName := some (lit "demo"), isLibrary := some true },
               consoleOf (lit ""))
      ∧ (Config.ArtifactName (fun r => r)
          { demoConfig with binaryName := some (lit "demo"), isLibrary := some true }
          (consoleOf (lit ""))).stop? ≠ some .sliceBounds
      ∧ lit "demo" ≠ []) :=
  have h1 : Reachable (fun r => r) demoConfig := ⟨_, _, _, _, Later.now⟩
  have h2 : Reachable (fun r => r)
      { demoConfig with binaryName := some (lit "demo"), isLibrary := some true } :=
    ⟨demoPackage, false, masterURL, lit "/work/demo",
      Later.ArtifactName demoConfig (consoleOf (lit "y\n\n")) Later.now⟩
  ⟨⟨h1, by decide,
      (ArtifactName_slice_in_range (fun r => r) demoConfig (consoleOf (lit "y\n\n")) h1).1⟩,
    h2, by decide,
    (ArtifactName_slice_in_range (fun r => r) _ (consoleOf (lit "")) h2).1,
    (ArtifactName_slice_in_range (fun r => r) _ (consoleOf (lit "")) h2).2.1 (lit "demo") rfl⟩

/-! ## `ArtifactName` and the first character of the name -/

theorem firstInfo_size (b sz lo hi : Nat) (h : firstInfo b = some (sz, lo, hi)) : 2 ≤ sz := by
  unfold firstInfo at h
  split_ifs at h <;> simp at h <;> omega

/-- A byte from `0x80` on is no encoding by itself: it decodes to
`(RuneError, 1)`. -/
theorem DecodeRuneInString_single (b : Nat) (h : 0x80 ≤ b) :
    DecodeRuneInString [b] = (RuneError, 1) := by
  unfold DecodeRuneInString
  simp only [RuneSelf, Nat.not_lt.mpr h, if_false]
  cases hf : firstInfo b with
  | none => rfl
  | some p =>
    obtain ⟨sz, lo, hi⟩ := p
    have := firstInfo_size b sz lo hi hf
    have hlt : [b].length < sz := by simp; omega
    simp [hlt]

/-- On a string of one ASCII byte `strings.ToUpper` turns `a` to `z` into `A`
to `Z` and keeps any other byte. -/
theorem ToUpper_single_ascii (up : Nat → Nat) (b : Nat) (h : b < 0x80) :
    ToUpper up [b] = [if 0x61 ≤ b ∧ b ≤ 0x7A then b - 0x20 else b] := by
  simp [ToUpper, RuneSelf, h]

/-- On a string of one byte from `0x80` on, the first byte of a multi-byte
character or a stray byte, `strings.ToUpper` gives the encoding of what the case
tables make of U+FFFD, whatever the byte. -/
theorem ToUpper_single_other (up : Nat → Nat) (b : Nat) (h : 0x80 ≤ b) :
    ToUpper up [b] = EncodeRune (up RuneError) := by
  have hd := DecodeRuneInString_single b h
  simp [ToUpper, RuneSelf, Nat.not_lt.mpr h, Map, mapLoop, hd, mapRest]

/-- A name that starts with an ASCII byte has that byte as its first character,
and there `ArtifactName` does what the specification says, provided the case
tables agree with ASCII on ASCII. -/
theorem ArtifactName_ascii_head (up : Nat → Nat) (c : Config) (con : Console) (lib : Bool)
    (b : Nat) (t : Str) (hup : ∀ a, a < 0x80 → up a = if 0x61 ≤ a ∧ a ≤ 0x7A then a - 0x20 else a)
    (hl : c.isLibrary = some lib) (hn : c.binaryName = some (b :: t)) (hb : b < 0x80) :
    c.ArtifactName up con = .ok (specArtifactName up lib (b :: t)) (c, con) := by
  rw [ArtifactName_resolved up c c c con con con lib (b :: t)
    (IsLibrary_resolved c con lib hl) (BinaryName_resolved c con _ hn)]
  cases lib with
  | false => simp [specArtifactName]
  | true =>
    have hd : DecodeRuneInString (b :: t) = (b, 1) := by
      simp [DecodeRuneInString, RuneSelf, hb]
    have he : EncodeRune (up b) = [if 0x61 ≤ b ∧ b ≤ 0x7A then b - 0x20 else b] := by
      rw [hup b hb]
      unfold EncodeRune
      split_ifs <;> first | rfl | omega
    simp [specArtifactName, hd, he, ToUpper_single_ascii up b hb]

/-- No encoding of a rune is the encoding of another rune followed by the byte
`0xA9`. -/
theorem EncodeRune_ne_append (x y : Nat) : EncodeRune y ≠ EncodeRune x ++ [0xA9] := by
  unfold EncodeRune
  split_ifs <;> simp <;> omega

/-- C1, where the code departs from it: with the answers `y` and `émet`
`ArtifactName` applies `strings.ToUpper` to the first byte `0xC3` of the name,
not to its first character `é`: the value is `lib`, the encoding of what the case
tables make of U+FFFD, the stray second byte `0xA9` of `é`, and `met`.  That is
neither `libÉmet` nor, whatever the case tables are, `lib` followed by the
upper-case first character and the rest of the name. -/
theorem ArtifactName_multibyte_first_character (up : Nat → Nat) :
    (demoConfig.ArtifactName up (consoleOf (lit "y\német\n"))).val?
      = some (lit "lib" ++ EncodeRune (up RuneError) ++ 0xA9 :: lit "met")
    ∧ (demoConfig.ArtifactName up (consoleOf (lit "y\német\n"))).val? ≠ some (lit "libÉmet")
    ∧ (demoConfig.ArtifactName up (consoleOf (lit "y\német\n"))).val?
        ≠ some (specArtifactName up true (lit "émet"))
    ∧ (demoConfig.BinaryName (consoleOf (lit "émet\n"))).val? = some (lit "émet")
    ∧ specArtifactName (fun r => if r = 0xE9 then 0xC9 else r) true (lit "émet") = lit "libÉmet" := by
  have h1 : demoConfig.IsLibrary (consoleOf (lit "y\német\n"))
      = .ok true ({ demoConfig with isLibrary := some true },
          { stdin := lit "émet\n", stdout := lit "project is a library only (y/N): " }) := by
    decide
  have h2 : Config.BinaryName { demoConfig with isLibrary := some true }
        { stdin := lit "émet\n", stdout := lit "project is a library only (y/N): " }
      = .ok (lit "émet") ({ demoConfig with isLibrary := some true, binaryName := some (lit "émet") },
          { stdin := [], stdout := lit "project is a library only (y/N): "
              ++ lit "enter the name of the executable binary [demo]: " }) := by
    decide
  have hv : (demoConfig.ArtifactName up (consoleOf (lit "y\német\n"))).val?
      = some (lit "lib" ++ EncodeRune (up RuneError) ++ 0xA9 :: lit "met") := by
    rw [ArtifactName_resolved up _ _ _ _ _ _ true (lit "émet") h1 h2]
    have ht : (lit "émet").take 1 = [0xC3] := by decide
    have hdrop : (lit "émet").drop 1 = 0xA9 :: lit "met" := by decide
    have hne : lit "émet" ≠ [] := by decide
    simp only [hne, and_false, if_false, if_true, ht, hdrop, Res.val?,
      ToUpper_single_other up 0xC3 (by omega)]
  refine ⟨hv, ?_, ?_, by decide, by decide⟩
  · rw [hv]
    intro e
    have e1 := Option.some.inj e
    have e2 := congrArg (fun s => (s.reverse.take 4).reverse) e1
    simp [lit, EncodeRune] at e2
  · rw [hv]
    intro e
    have e1 := Option.some.inj e
    have hs : specArtifactName up true (lit "émet")
        = lit "lib" ++ EncodeRune (up 0xE9) ++ lit "met" := by
      have hd : DecodeRuneInString (lit "émet") = (0xE9, 2) := by decide
      have hdrop : (lit "émet").drop 2 = lit "met" := by decide
      simp [specArtifactName, hd, hdrop]
    rw [hs] at e1
    have h3 : lit "met" = [0x6D, 0x65, 0x74] := by decide
    rw [h3] at e1
    simp only [List.append_assoc, List.append_cancel_left_eq] at e1
    have e2 : EncodeRune (up RuneError) ++ [0xA9] ++ [0x6D, 0x65, 0x74]
        = EncodeRune (up 0xE9) ++ [0x6D, 0x65, 0x74] := by simpa using e1
    exact EncodeRune_ne_append _ _ (List.append_cancel_right e2).symm

/-! ## The template pipeline and the driver -/

theorem failed_eq {α : Type} (msg err : Str) (w : World) :
    (w.failed msg err : Res World α)
      = .fatal (.panic err)
          { w with con := Print (lit "cannot " ++ msg ++ lit ": " ++ err ++ lit "\n") w.con } := by
  simp [World.failed, check]

/-- A returning `download` leaves the state as it was. -/
theorem download_ok {Tmpl : Type} (env : Env Tmpl) (resName data : Str) (w w1 : World)
    (h : Config.download env resName w = .ok data w1) : w1 = w := by
  unfold Config.download at h
  split at h
  · split at h
    · rw [failed_eq] at h; cases h
    · injection h with _ h2; exact h2.symm
  · split at h
    · rw [failed_eq] at h; cases h
    · split at h
      · rw [failed_eq] at h; cases h
      · split at h
        · cases h
        · injection h with _ h2; exact h2.symm

/-- A returning `Apply` has written no file and has left the project directory
as it was. -/
theorem Apply_ok {Tmpl : Type} (env : Env Tmpl) (resName text : Str) (w w1 : World)
    (h : Config.Apply env resName w = .ok text w1) :
    w1.files = w.files ∧ w1.cfg.projectDir = w.cfg.projectDir := by
  unfold Config.Apply at h
  split at h
  · cases h
  · rename_i data w0 hd
    have e0 := download_ok env resName data w w0 hd
    subst e0
    split at h
    · rw [failed_eq] at h; cases h
    · rename_i tmpl hp
      split at h
      rename_i err text1 cfg con hx
      have hk := env.Execute_projectDir tmpl w0.cfg w0.con
      rw [hx] at hk
      split at h
      · rw [failed_eq] at h; cases h
      · injection h with _ h2
        subst h2
        exact ⟨rfl, hk⟩

/-- A returning `Write` has recorded the file under the project directory. -/
theorem Write_ok {Tmpl : Type} (env : Env Tmpl) (fname data : Str) (w w1 : World)
    (h : Generator.Write env fname data w = .ok () w1) :
    w1 = { w with files := (env.Join w.cfg.projectDir fname, data) :: w.files } := by
  unfold Generator.Write at h
  simp only [Config.ProjectDir] at h
  split at h
  · rw [failed_eq] at h; cases h
  · injection h with _ h2; exact h2.symm

/-- A returning `createMakeFile` has written `Makefile`, with the text that
`Apply` gives for `Makefile.tmpl`, and nothing else. -/
theorem createMakeFile_ok {Tmpl : Type} (env : Env Tmpl) (w w2 : World)
    (h : Generator.createMakeFile env w = .ok () w2) :
    ∃ text w1, Config.Apply env (lit "Makefile.tmpl") w = .ok text w1
      ∧ w1.cfg.projectDir = w.cfg.projectDir
      ∧ w2 = { w1 with files := (env.Join w.cfg.projectDir (lit "Makefile"), text) :: w.files } := by
  unfold Generator.createMakeFile at h
  split at h
  · cases h
  · rename_i text w1 ha
    obtain ⟨e1, e2⟩ := Apply_ok env _ text w w1 ha
    have := Write_ok env _ text w1 w2 h
    rw [e1, e2] at this
    exact ⟨text, w1, ha, e2, this⟩

/-- A returning `createBuildGoFile` has written `build.go`, with the text that
`Apply` gives for `build.go.tmpl`, and nothing else. -/
theorem createBuildGoFile_ok {Tmpl : Type} (env : Env Tmpl) (w w2 : World)
    (h : Generator.createBuildGoFile env w = .ok () w2) :
    ∃ text w1, Config.Apply env (lit "build.go.tmpl") w = .ok text w1
      ∧ w1.cfg.projectDir = w.cfg.projectDir
      ∧ w2 = { w1 with files := (env.Join w.cfg.projectDir (lit "build.go"), text) :: w.files } := by
  unfold Generator.createBuildGoFile at h
  split at h
  · cases h
  · rename_i text w1 ha
    obtain ⟨e1, e2⟩ := Apply_ok env _ text w w1 ha
    have := Write_ok env _ text w1 w2 h
    rw [e1, e2] at this
    exact ⟨text, w1, ha, e2, this⟩

/-- The method `createBuildGoFile` does not call the formatter: with any other
formatter it does the same. -/
theorem createBuildGoFile_source {Tmpl : Type} (env : Env Tmpl) (source : Str → Except Str Str)
    (w : World) :
    Generator.createBuildGoFile { env with Source := source } w
      = Generator.createBuildGoFile env w := by
  rfl

/-- C7, where the code departs from it: `createBuildGoFile` writes to `build.go`
the text of `Apply("build.go.tmpl")` as it is, not that of `ApplyGo`.  For the
template `package  main` (two blanks) and every formatter, the file holds
`package  main` while `ApplyGo("build.go.tmpl")` is what the formatter makes of
that text; the run of `main` writes the same file. -/
theorem createBuildGoFile_writes_unformatted (source : Str → Except Str Str) :
    Generator.createBuildGoFile (demoEnv source) demoWorld
      = .ok () { demoWorld with
          files := [(lit "/work/demo/build.go", lit "package  main\n")] }
    ∧ Config.Apply (demoEnv source) (lit "build.go.tmpl") demoWorld
      = .ok (lit "package  main\n") demoWorld
    ∧ (Config.ApplyGo (demoEnv source) (lit "build.go.tmpl") demoWorld).val?
      = (source (lit "package  main\n")).toOption
    ∧ (demoMain source (lit "n\n")).state.2
      = [(lit "/work/demo/build.go", lit "package  main\n")] := by
  have ha : Config.Apply (demoEnv source) (lit "build.go.tmpl") demoWorld
      = .ok (lit "package  main\n") demoWorld := by
    rfl
  refine ⟨by rfl, ha, ?_, by rfl⟩
  unfold Config.ApplyGo
  rw [ha]
  simp only [demoEnv]
  cases source (lit "package  main\n") with
  | error e => simp [failed_eq, Res.val?, Except.toOption]
  | ok d => simp [Res.val?, Except.toOption]

/-- A `download` that stops early has written no file. -/
theorem download_files {Tmpl : Type} (env : Env Tmpl) (resName : Str) (w : World) :
    (Config.download env resName w).state.files = w.files := by
  unfold Config.download
  split
  · split
    · rw [failed_eq]; rfl
    · rfl
  · split
    · rw [failed_eq]; rfl
    · split
      · rw [failed_eq]; rfl
      · split <;> rfl

/-- Whatever its outcome, `Apply` writes no file. -/
theorem Apply_files {Tmpl : Type} (env : Env Tmpl) (resName : Str) (w : World) :
    (Config.Apply env resName w).state.files = w.files := by
  have hd := download_files env resName w
  unfold Config.Apply
  split
  · rename_i f w1 he
    rw [he] at hd
    exact hd
  · rename_i data w1 he
    rw [he] at hd
    simp only [Res.state] at hd
    split
    · rw [failed_eq]; exact hd
    · split
      rename_i err text cfg con hx
      split
      · rw [failed_eq]; exact hd
      · exact hd

/-- Whatever its outcome, `createMakeFile` writes at most the file `Makefile`,
and it writes it exactly when it returns. -/
theorem createMakeFile_files {Tmpl : Type} (env : Env Tmpl) (w : World) :
    ((Generator.createMakeFile env w).val? = none
      ∧ (Generator.createMakeFile env w).state.files = w.files)
    ∨ ((Generator.createMakeFile env w).val? = some ()
      ∧ ((Generator.createMakeFile env w).state.files).map Prod.fst
          = env.Join w.cfg.projectDir (lit "Makefile") :: w.files.map Prod.fst
      ∧ (Generator.createMakeFile env w).state.cfg.projectDir = w.cfg.projectDir) := by
  cases h : Generator.createMakeFile env w with
  | ok u w2 =>
    right
    obtain ⟨text, w1, _, hp, e⟩ := createMakeFile_ok env w w2 h
    subst e
    exact ⟨rfl, by simp [Res.state], hp⟩
  | fatal f w2 =>
    left
    refine ⟨rfl, ?_⟩
    have ha := Apply_files env (lit "Makefile.tmpl") w
    unfold Generator.createMakeFile at h
    split at h
    · rename_i f1 w1 he
      rw [he] at ha
      injection h with _ h2
      rw [← h2]
      exact ha
    · rename_i text w1 he
      rw [he] at ha
      simp only [Res.state] at ha
      unfold Generator.Write at h
      simp only at h
      split at h
      · rw [failed_eq] at h
        injection h with _ h2
        rw [← h2]
        exact ha
      · cases h

/-- Whatever its outcome, `createBuildGoFile` writes at most the file
`build.go`, and it writes it exactly when it returns. -/
theorem createBuildGoFile_files {Tmpl : Type} (env : Env Tmpl) (w : World) :
    ((Generator.createBuildGoFile env w).val? = none
      ∧ (Generator.createBuildGoFile env w).state.files = w.files)
    ∨ ((Generator.createBuildGoFile env w).val? = some ()
      ∧ ((Generator.createBuildGoFile env w).state.files).map Prod.fst
          = env.Join w.cfg.projectDir (lit "build.go") :: w.files.map Prod.fst) := by
  cases h : Generator.createBuildGoFile env w with
  | ok u w2 =>
    right
    obtain ⟨text, w1, _, hp, e⟩ := createBuildGoFile_ok env w w2 h
    subst e
    exact ⟨rfl, by simp [Res.state]⟩
  | fatal f w2 =>
    left
    refine ⟨rfl, ?_⟩
    have ha := Apply_files env (lit "build.go.tmpl") w
    unfold Generator.createBuildGoFile at h
    split at h
    · rename_i f1 w1 he
      rw [he] at ha
      injection h with _ h2
      rw [← h2]
      exact ha
    · rename_i text w1 he
      rw [he] at ha
      simp only [Res.state] at ha
      unfold Generator.Write at h
      simp only at h
      split at h
      · rw [failed_eq] at h
        injection h with _ h2
        rw [← h2]
        exact ha
      · cases h

/-- C8, as the code has it: the driver asks one question, about the makefile.
On the answer `n` it asks nothing else, as the console shows, and still writes
`build.go`: an operator who answers no to everything gets a generated file. -/
theorem main_declined_still_writes_build_go :
    demoMain (fun text => .ok text) (lit "n\n")
      = .ok ()
          ({ stdin := [],
             stdout := lit "welcome to the worldiety guided project setup helper\n"
               ++ lit "your working directory is '/work/demo'\n"
               ++ lit "DEV mode on\n"
               ++ lit "create makefile? (y/N): " },
           [(lit "/work/demo/build.go", lit "package  main\n")]) := by
  decide

/-- C8, amended: a run of `main` that completes has asked, by the driver's own
code, the one question `create makefile?`: before anything is rendered it has
printed its greeting and that question and has read one line, the answer.  If
the answer is accepted, `Apply("Makefile.tmpl")` returns from that state and
`Makefile` is written with the text it returns; otherwise no `Makefile` is
written.  In either case `Apply("build.go.tmpl")` starts from the state reached
by then, with nothing printed or read in between, and `build.go` is written
with the text it returns, without a question of its own.  The files written are
these and no others, and the console at the end is the one the last `Apply`
left: whatever else the run prints or reads, it does so inside `Apply`. -/
theorem main_writes (Tmpl : Type) (env : Env Tmpl) (isDev : Bool) (getwd : Except Str Str)
    (goList : Str → Except Str Package) (stdin : Str) (con : Console) (files : List (Str × Str))
    (h : main env isDev getwd goList stdin = .ok () (con, files)) :
    ∃ dir pkg l rest asked made text w,
      getwd = .ok dir ∧ goList dir = .ok pkg ∧ 0x0A ∉ l ∧ stdin = l ++ 0x0A :: rest
      ∧ asked =
          { cfg := Config.fresh pkg isDev masterURL dir,
            con :=
              { stdin := rest,
                stdout := lit "welcome to the worldiety guided project setup helper\n"
                  ++ (lit "your working directory is '" ++ dir ++ lit "'\n")
                  ++ (if isDev then lit "DEV mode on\n" else [])
                  ++ lit "create makefile? (y/N): " },
            files := [] }
      ∧ (if TrimSpace (l ++ [0x0A]) = lit "y" ∨ TrimSpace (l ++ [0x0A]) = lit "Y" then
          ∃ text1 w1, Config.Apply env (lit "Makefile.tmpl") asked = .ok text1 w1
            ∧ made = { w1 with files := [(env.Join dir (lit "Makefile"), text1)] }
        else made = asked)
      ∧ Config.Apply env (lit "build.go.tmpl") made = .ok text w
      ∧ con = w.con
      ∧ files = (env.Join dir (lit "build.go"), text) :: made.files
      ∧ files.map Prod.fst
        = env.Join dir (lit "build.go")
          :: (if TrimSpace (l ++ [0x0A]) = lit "y" ∨ TrimSpace (l ++ [0x0A]) = lit "Y"
              then [env.Join dir (lit "Makefile")] else []) := by
  unfold main at h
  simp only at h
  split at h
  · split at h <;> cases h
  · rename_i dir
    split at h
    · cases h
    · rename_i pkg hg
      split at h
      · cases h
      · rename_i yes con1 hacc
        obtain ⟨l, hl, hin, hout, hyes⟩ := accept_ok _ _ _ _ hacc
        have hstd : stdin = l ++ 0x0A :: con1.stdin := by
          rw [← hin]
          cases isDev <;> simp [Println, Print]
        have hcon : con1 =
            { stdin := con1.stdin,
              stdout := lit "welcome to the worldiety guided project setup helper\n"
                ++ (lit "your working directory is '" ++ dir ++ lit "'\n")
                ++ (if isDev then lit "DEV mode on\n" else [])
                ++ lit "create makefile? (y/N): " } := by
          have e1 : lit "welcome to the worldiety guided project setup helper" ++ lit "\n"
              = lit "welcome to the worldiety guided project setup helper\n" := by decide
          have e2 : lit "DEV mode on" ++ lit "\n" = lit "DEV mode on\n" := by decide
          have e3 : lit "create makefile?" ++ lit " (y/N): " = lit "create makefile? (y/N): " := by
            decide
          cases con1 with
          | mk i o =>
            simp only at hout
            rw [hout]
            cases isDev <;> simp [Println, Print, ← e1, ← e2, ← e3]
        split at h
        · cases h
        · rename_i u w1 hmade
          split at h
          · cases h
          · rename_i u2 w2 hbuild
            injection h with _ h2
            injection h2 with h3 h4
            obtain ⟨text2, wb, hab, _, e2⟩ := createBuildGoFile_ok env w1 w2 hbuild
            cases yes with
            | true =>
              simp only [if_true] at hmade
              obtain ⟨text1, w0, ha, hp, e1⟩ := createMakeFile_ok env _ w1 hmade
              have hy : TrimSpace (l ++ [0x0A]) = lit "y" ∨ TrimSpace (l ++ [0x0A]) = lit "Y" := by
                simpa using hyes.symm
              rw [hcon] at ha
              refine ⟨dir, pkg, l, con1.stdin, _, w1, text2, wb, rfl, hg, hl, hstd, rfl, ?_, hab, ?_,
                ?_, ?_⟩
              · rw [if_pos hy]
                exact ⟨text1, w0, ha, e1⟩
              · rw [← h3, e2]
              · rw [← h4, e2, e1, hp]
              · rw [← h4, e2, e1]
                simp [hy, hp]
            | false =>
              simp only [Bool.false_eq_true, if_false] at hmade
              injection hmade with _ e1
              have hy : ¬ (TrimSpace (l ++ [0x0A]) = lit "y" ∨ TrimSpace (l ++ [0x0A]) = lit "Y") := by
                simpa using hyes.symm
              refine ⟨dir, pkg, l, con1.stdin, _, w1, text2, wb, rfl, hg, hl, hstd, rfl, ?_, hab, ?_,
                ?_, ?_⟩
              · rw [if_neg hy, ← e1]
                conv_lhs => rw [hcon]
                rfl
              · rw [← h3, e2]
              · rw [← h4, e2, ← e1]
              · rw [← h4, e2, ← e1]
                simp [hy]

/-- C8, amended, at a concrete run, in which the templates consult `IsLibrary`:
on the answers `y` and `n` the run completes and has written `Makefile` and then
`build.go`.  The second question on the console is the one `IsLibrary` asks
while `Makefile.tmpl` is executed; for `build.go` nothing is asked. -/
theorem main_writes_witness :
    askingMain (lit "y\nn\n")
        = .ok ()
            ({ stdin := [],
               stdout := lit "welcome to the worldiety guided project setup helper\n"
                 ++ lit "your working directory is '/work/demo'\n"
                 ++ lit "DEV mode on\n"
                 ++ lit "create makefile? (y/N): "
                 ++ lit "project is a library only (y/N): " },
             [(lit "/work/demo/build.go", lit "package  main\n"),
              (lit "/work/demo/Makefile", lit "all:\n\tgo run build.go\n")])
    ∧ ∃ dir pkg l rest asked made text w,
        (Except.ok (lit "/work/demo") : Except Str Str) = .ok dir
        ∧ (Except.ok demoPackage : Except Str Package) = .ok pkg
        ∧ 0x0A ∉ l ∧ lit "y\nn\n" = l ++ 0x0A :: rest
        ∧ asked =
            { cfg := Config.fresh pkg true masterURL dir,
              con :=
                { stdin := rest,
                  stdout := lit "welcome to the worldiety guided project setup helper\n"
                    ++ (lit "your working directory is '" ++ dir ++ lit "'\n")
                    ++ (if true = true then lit "DEV mode on\n" else [])
                    ++ lit "create makefile? (y/N): " },
              files := [] }
        ∧ (if TrimSpace (l ++ [0x0A]) = lit "y" ∨ TrimSpace (l ++ [0x0A]) = lit "Y" then
            ∃ text1 w1, Config.Apply askingEnv (lit "Makefile.tmpl") asked = .ok text1 w1
              ∧ made = { w1 with files := [(askingEnv.Join dir (lit "Makefile"), text1)] }
          else made = asked)
        ∧ Config.Apply askingEnv (lit "build.go.tmpl") made = .ok text w
        ∧ ({ stdin := [],
             stdout := lit "welcome to the worldiety guided project setup helper\n"
               ++ lit "your working directory is '/work/demo'\n"
               ++ lit "DEV mode on\n"
               ++ lit "create makefile? (y/N): "
               ++ lit "project is a library only (y/N): " } : Console) = w.con
        ∧ [(lit "/work/demo/build.go", lit "package  main\n"),
            (lit "/work/demo/Makefile", lit "all:\n\tgo run build.go\n")]
          = (askingEnv.Join dir (lit "build.go"), text) :: made.files
        ∧ [lit "/work/demo/build.go", lit "/work/demo/Makefile"]
          = askingEnv.Join dir (lit "build.go")
            :: (if TrimSpace (l ++ [0x0A]) = lit "y" ∨ TrimSpace (l ++ [0x0A]) = lit "Y"
                then [askingEnv.Join dir (lit "Makefile")] else []) :=
  have h : askingMain (lit "y\nn\n")
      = .ok ()
          ({ stdin := [],
             stdout := lit "welcome to the worldiety guided project setup helper\n"
               ++ lit "your working directory is '/work/demo'\n"
               ++ lit "DEV mode on\n"
               ++ lit "create makefile? (y/N): "
               ++ lit "project is a library only (y/N): " },
           [(lit "/work/demo/build.go", lit "package  main\n"),
            (lit "/work/demo/Makefile", lit "all:\n\tgo run build.go\n")]) := by
    decide
  ⟨h, main_writes Str askingEnv true (.ok (lit "/work/demo"))
    (fun _ => .ok demoPackage) (lit "y\nn\n") _ _ h⟩

/-- The question of `IsLibrary` belongs to the template, not to the driver: when
the makefile is declined and the template of `build.go` consults `IsLibrary`,
that question is asked while the template is executed, and `build.go` is written
whatever the answer; when the input ends before that answer, the run stops
inside `Apply` and writes nothing. -/
theorem main_template_question :
    askingMain (lit "n\nn\n")
      = .ok ()
          ({ stdin := [],
             stdout := lit "welcome to the worldiety guided project setup helper\n"
               ++ lit "your working directory is '/work/demo'\n"
               ++ lit "DEV mode on\n"
               ++ lit "create makefile? (y/N): "
               ++ lit "project is a library only (y/N): " },
           [(lit "/work/demo/build.go", lit "package  main\n")])
    ∧ (askingMain (lit "n\n")).val? = none
    ∧ (askingMain (lit "n\n")).state.2 = [] := by
  decide

/-- The files of a run of `main`, whatever its outcome: none, when the run stops
before it has written one; `build.go` alone, when the makefile was declined and
the run completes; after the answer yes, `Makefile` alone when the run stops
after it, and `Makefile` followed by `build.go` when the run completes.  So
`Makefile` is written only on the answer yes, and no question stands between
the operator and `build.go`. -/
theorem main_files_written (Tmpl : Type) (env : Env Tmpl) (isDev : Bool) (dir : Str)
    (goList : Str → Except Str Package) (stdin : Str) :
    ((main env isDev (.ok dir) goList stdin).val? = none
      ∧ (main env isDev (.ok dir) goList stdin).state.2 = [])
    ∨ (∃ l rest, 0x0A ∉ l ∧ stdin = l ++ 0x0A :: rest
        ∧ ¬ (TrimSpace (l ++ [0x0A]) = lit "y" ∨ TrimSpace (l ++ [0x0A]) = lit "Y")
        ∧ (main env isDev (.ok dir) goList stdin).val? = some ()
        ∧ ((main env isDev (.ok dir) goList stdin).state.2).map Prod.fst
            = [env.Join dir (lit "build.go")])
    ∨ (∃ l rest, 0x0A ∉ l ∧ stdin = l ++ 0x0A :: rest
        ∧ (TrimSpace (l ++ [0x0A]) = lit "y" ∨ TrimSpace (l ++ [0x0A]) = lit "Y")
        ∧ (((main env isDev (.ok dir) goList stdin).val? = none
            ∧ ((main env isDev (.ok dir) goList stdin).state.2).map Prod.fst
                = [env.Join dir (lit "Makefile")])
          ∨ ((main env isDev (.ok dir) goList stdin).val? = some ()
            ∧ ((main env isDev (.ok dir) goList stdin).state.2).map Prod.fst
                = [env.Join dir (lit "build.go"), env.Join dir (lit "Makefile")]))) := by
  unfold main
  simp only
  cases hg : goList dir with
  | error e => left; exact ⟨rfl, rfl⟩
  | ok pkg =>
    simp only
    cases hacc : accept (lit "create makefile?")
        (if isDev = true then
          Println (lit "DEV mode on")
            (Print (lit "your working directory is '" ++ dir ++ lit "'\n")
              (Println (lit "welcome to the worldiety guided project setup helper")
                { stdin := stdin, stdout := [] }))
        else
          Print (lit "your working directory is '" ++ dir ++ lit "'\n")
            (Println (lit "welcome to the worldiety guided project setup helper")
              { stdin := stdin, stdout := [] })) with
    | fatal f con1 => left; exact ⟨rfl, rfl⟩
    | ok yes con1 =>
      obtain ⟨l, hl, hin, _, hyes⟩ := accept_ok _ _ _ _ hacc
      have hstd : stdin = l ++ 0x0A :: con1.stdin := by
        rw [← hin]
        cases isDev <;> simp [Println, Print]
      simp only
      cases yes with
      | false =>
        have hy : ¬ (TrimSpace (l ++ [0x0A]) = lit "y" ∨ TrimSpace (l ++ [0x0A]) = lit "Y") := by
          simpa using hyes.symm
        simp only [Bool.false_eq_true, if_false]
        rcases createBuildGoFile_files env
            { cfg := { pkg := pkg, isDev := isDev, baseURL := masterURL, projectDir := dir,
                       binaryName := none, isLibrary := none, mainPath := none },
              con := con1, files := [] } with ⟨hv, hf⟩ | ⟨hv, hf⟩
        · left
          cases hb : Generator.createBuildGoFile env
              { cfg := { pkg := pkg, isDev := isDev, baseURL := masterURL, projectDir := dir,
                         binaryName := none, isLibrary := none, mainPath := none },
                con := con1, files := [] } with
          | ok u w2 => rw [hb] at hv; cases hv
          | fatal f w2 =>
            rw [hb] at hf
            exact ⟨rfl, hf⟩
        · right; left
          cases hb : Generator.createBuildGoFile env
              { cfg := { pkg := pkg, isDev := isDev, baseURL := masterURL, projectDir := dir,
                         binaryName := none, isLibrary := none, mainPath := none },
                con := con1, files := [] } with
          | fatal f w2 => rw [hb] at hv; cases hv
          | ok u w2 =>
            rw [hb] at hf
            exact ⟨l, con1.stdin, hl, hstd, hy, rfl, by simpa [Res.state] using hf⟩
      | true =>
        have hy : TrimSpace (l ++ [0x0A]) = lit "y" ∨ TrimSpace (l ++ [0x0A]) = lit "Y" := by
          simpa using hyes.symm
        simp only [if_true]
        rcases createMakeFile_files env
            { cfg := { pkg := pkg, isDev := isDev, baseURL := masterURL, projectDir := dir,
                       binaryName := none, isLibrary := none, mainPath := none },
              con := con1, files := [] } with ⟨hv, hf⟩ | ⟨hv, hf, hp⟩
        · left
          cases hm : Generator.createMakeFile env
              { cfg := { pkg := pkg, isDev := isDev, baseURL := masterURL, projectDir := dir,
                         binaryName := none, isLibrary := none, mainPath := none },
                con := con1, files := [] } with
          | ok u w1 => rw [hm] at hv; cases hv
          | fatal f w1 =>
            rw [hm] at hf
            exact ⟨rfl, hf⟩
        · right; right
          refine ⟨l, con1.stdin, hl, hstd, hy, ?_⟩
          cases hm : Generator.createMakeFile env
              { cfg := { pkg := pkg, isDev := isDev, baseURL := masterURL, projectDir := dir,
                         binaryName := none, isLibrary := none, mainPath := none },
                con := con1, files := [] } with
          | fatal f w1 => rw [hm] at hv; cases hv
          | ok u w1 =>
            rw [hm] at hf hp
            simp only [Res.state, List.map_nil] at hf hp
            simp only
            rcases createBuildGoFile_files env w1 with ⟨hv2, hf2⟩ | ⟨hv2, hf2⟩
            · left
              cases hb : Generator.createBuildGoFile env w1 with
              | ok u2 w2 => rw [hb] at hv2; cases hv2
              | fatal f w2 =>
                rw [hb] at hf2
                simp only [Res.state] at hf2
                exact ⟨rfl, by simp only [Res.state]; rw [hf2]; exact hf⟩
            · right
              cases hb : Generator.createBuildGoFile env w1 with
              | fatal f w2 => rw [hb] at hv2; cases hv2
              | ok u2 w2 =>
                rw [hb] at hf2
                simp only [Res.state] at hf2
                exact ⟨rfl, by simp only [Res.state]; rw [hf2, hf, hp]⟩

end TemplateGo
